import Mathlib

/-!
# Verification of the symmer noncontextual / unitary-partitioning engine

This development embeds the core of the `symmer` noncontextual decomposition and
unitary-partitioning engine (`symmer/operators/noncontextual_op.py` and
`symmer/operators/anticommuting_op.py`) in Lean 4 and settles the specification
claims about it.

The underlying Pauli symplectic algebra (`PauliwordOp`, `mul_symplectic`,
`IndependentOp`, graph clique cover) is an external layer consumed by the code
under verification; it is modelled here from the specification's contract
(spec §4.1): a Pauli term is a pair of X/Z support bit-vectors, the product of
two terms is the xor of their supports together with a complex phase factor
determined qubit-wise by the single-qubit Pauli multiplication table, and two
terms commute termwise iff their symplectic form vanishes.
-/

namespace SymmerModel

/-- Modelled from the spec: a Pauli term is a bit-vector pair (X-support,
Z-support) over `n` qubit positions (spec §3, "PauliTerm"). -/
abbrev PTerm (n : ℕ) := (Fin n → Bool) × (Fin n → Bool)

/-- Modelled from the spec: the phaseless (symplectic) part of the product of
two Pauli terms is the pointwise xor of their supports. -/
def pmul {n : ℕ} (P Q : PTerm n) : PTerm n :=
  (fun i => xor (P.1 i) (Q.1 i), fun i => xor (P.2 i) (Q.2 i))

/-- The identity Pauli word (empty X and Z support). -/
def identP (n : ℕ) : PTerm n := (fun _ => false, fun _ => false)

/-- Booleans as elements of `ZMod 4` (exponents of the imaginary unit). -/
def b4 (b : Bool) : ZMod 4 := if b then 1 else 0

/-- Modelled from the spec: the single-qubit phase exponent (power of `i`)
accumulated when multiplying the single-qubit Paulis `(x1,z1)` and `(x2,z2)`,
with the convention that the bit pattern `(1,1)` denotes the Hermitian Pauli
`Y`.  This is the multiplication table `X·Z = -iY`, `Z·X = iY`, `X·Y = iZ`,
`Y·X = -iZ`, `Y·Z = iX`, `Z·Y = -iX`, all other products phase-free. -/
def phase1 (x1 z1 x2 z2 : Bool) : ZMod 4 :=
  b4 x1 * b4 z1 + b4 x2 * b4 z2 + 2 * b4 z1 * b4 x2 +
    3 * (b4 (xor x1 x2) * b4 (xor z1 z2))

/-- Modelled from the spec: the total phase exponent of a product of two Pauli
words is the sum of the single-qubit phase exponents. -/
def pphase {n : ℕ} (P Q : PTerm n) : ZMod 4 :=
  ∑ i, phase1 (P.1 i) (P.2 i) (Q.1 i) (Q.2 i)

/-- Single-qubit symplectic-form contribution (an ℕ count). -/
def scomN1 (x1 z1 x2 z2 : Bool) : ℕ :=
  (cond x1 1 0) * (cond z2 1 0) + (cond z1 1 0) * (cond x2 1 0)

/-- Modelled from the spec: the symplectic form count between two Pauli words;
the words commute termwise iff this count is even (spec §4.1, commutation
test). -/
def scomN {n : ℕ} (P Q : PTerm n) : ℕ :=
  ∑ i, scomN1 (P.1 i) (P.2 i) (Q.1 i) (Q.2 i)

/-- Modelled from the spec: termwise commutation of two Pauli words. -/
def pcommute {n : ℕ} (P Q : PTerm n) : Prop := scomN P Q % 2 = 0

instance {n : ℕ} (P Q : PTerm n) : Decidable (pcommute P Q) := by
  unfold pcommute; infer_instance

/-- The complex phase attached to a `ZMod 4` exponent. -/
noncomputable def iphase (k : ZMod 4) : ℂ := Complex.I ^ k.val

theorem I_pow_emod (k : ℕ) : Complex.I ^ (k % 4) = Complex.I ^ k := by
  conv_rhs => rw [← Nat.div_add_mod k 4]
  rw [pow_add, pow_mul, Complex.I_pow_four, one_pow, one_mul]

theorem iphase_natCast (k : ℕ) : iphase (k : ZMod 4) = Complex.I ^ k := by
  rw [iphase, ZMod.val_natCast, I_pow_emod]

theorem iphase_add (a b : ZMod 4) : iphase (a + b) = iphase a * iphase b := by
  rw [iphase, ZMod.val_add, I_pow_emod, pow_add, iphase, iphase]

theorem iphase_zero : iphase 0 = 1 := rfl

theorem iphase_ne_zero (a : ZMod 4) : iphase a ≠ 0 := by
  rw [iphase]
  exact pow_ne_zero _ Complex.I_ne_zero

/-- `pmul` is commutative (the phaseless part ignores ordering). -/
theorem pmul_comm {n : ℕ} (P Q : PTerm n) : pmul P Q = pmul Q P := by
  unfold pmul
  exact Prod.ext (funext fun i => Bool.xor_comm _ _) (funext fun i => Bool.xor_comm _ _)

theorem pmul_assoc {n : ℕ} (P Q R : PTerm n) :
    pmul (pmul P Q) R = pmul P (pmul Q R) := by
  unfold pmul
  exact Prod.ext (funext fun i => Bool.xor_assoc _ _ _)
    (funext fun i => Bool.xor_assoc _ _ _)

@[simp] theorem pmul_self {n : ℕ} (P : PTerm n) : pmul P P = identP n := by
  unfold pmul identP
  exact Prod.ext (funext fun i => Bool.xor_self _) (funext fun i => Bool.xor_self _)

@[simp] theorem pmul_ident_left {n : ℕ} (P : PTerm n) : pmul (identP n) P = P := by
  unfold pmul identP
  exact Prod.ext (funext fun i => Bool.false_xor _) (funext fun i => Bool.false_xor _)

@[simp] theorem pmul_ident_right {n : ℕ} (P : PTerm n) : pmul P (identP n) = P := by
  unfold pmul identP
  exact Prod.ext (funext fun i => Bool.xor_false _) (funext fun i => Bool.xor_false _)

@[simp] theorem pmul_cancel_left {n : ℕ} (P Q : PTerm n) : pmul P (pmul P Q) = Q := by
  rw [← pmul_assoc, pmul_self, pmul_ident_left]

theorem pmul_left_injective {n : ℕ} (P : PTerm n) :
    Function.Injective (pmul P) := fun Q R h => by
  have := congrArg (pmul P) h
  rwa [pmul_cancel_left, pmul_cancel_left] at this

/-- Left multiplication by a fixed word is an involutive permutation. -/
theorem pmul_left_involutive {n : ℕ} (P : PTerm n) :
    Function.Involutive (pmul P) := fun Q => pmul_cancel_left P Q

theorem phase1_cocycle : ∀ a b c d e f : Bool,
    phase1 a b c d + phase1 (xor a c) (xor b d) e f =
      phase1 c d e f + phase1 a b (xor c e) (xor d f) := by decide

/-- The phase exponent is a 2-cocycle: the two ways of associating a triple
product accumulate the same phase. -/
theorem pphase_cocycle {n : ℕ} (P Q R : PTerm n) :
    pphase P Q + pphase (pmul P Q) R = pphase Q R + pphase P (pmul Q R) := by
  unfold pphase pmul
  rw [← Finset.sum_add_distrib, ← Finset.sum_add_distrib]
  exact Finset.sum_congr rfl fun i _ => phase1_cocycle _ _ _ _ _ _

theorem phase1_self : ∀ a b : Bool, phase1 a b a b = 0 := by decide

@[simp] theorem pphase_self {n : ℕ} (P : PTerm n) : pphase P P = 0 := by
  unfold pphase
  exact Finset.sum_eq_zero fun i _ => phase1_self _ _

theorem phase1_ident_left : ∀ a b : Bool, phase1 false false a b = 0 := by decide

theorem phase1_ident_right : ∀ a b : Bool, phase1 a b false false = 0 := by decide

@[simp] theorem pphase_ident_left {n : ℕ} (P : PTerm n) : pphase (identP n) P = 0 := by
  unfold pphase identP
  exact Finset.sum_eq_zero fun i _ => phase1_ident_left _ _

@[simp] theorem pphase_ident_right {n : ℕ} (P : PTerm n) : pphase P (identP n) = 0 := by
  unfold pphase identP
  exact Finset.sum_eq_zero fun i _ => phase1_ident_right _ _

theorem phase1_swap : ∀ a b c d : Bool,
    phase1 c d a b = phase1 a b c d + 2 * (scomN1 a b c d : ZMod 4) := by decide

/-- Swapping the factors of a product changes the phase exponent by twice the
symplectic form: commuting words have equal phases, anticommuting words have
phases differing by a sign. -/
theorem pphase_swap {n : ℕ} (P Q : PTerm n) :
    pphase Q P = pphase P Q + 2 * (scomN P Q : ZMod 4) := by
  unfold pphase scomN
  push_cast
  rw [Finset.mul_sum, ← Finset.sum_add_distrib]
  exact Finset.sum_congr rfl fun i _ => phase1_swap _ _ _ _

/-- The phase factor picked up when swapping two words: `+1` when they commute
termwise and `-1` when they anticommute. -/
theorem iphase_swap {n : ℕ} (P Q : PTerm n) :
    iphase (pphase Q P) = (-1 : ℂ) ^ scomN P Q * iphase (pphase P Q) := by
  rw [pphase_swap, iphase_add, mul_comm]
  congr 1
  rw [show ((2 : ZMod 4) * (scomN P Q : ZMod 4)) = ((2 * scomN P Q : ℕ) : ZMod 4) by push_cast; ring]
  rw [iphase_natCast, pow_mul, Complex.I_sq]

/-!
## The Pauli group algebra

Modelled from the spec (§4.1): a `PauliSum` is a collection of weighted Pauli
terms; after cleanup it is determined by the map assigning to each Pauli word
its total coefficient.  Since the words over `n` qubits form a finite type, we
represent a cleaned-up operator as a function `PTerm n → ℂ` and equip this
space with the convolution product induced by term multiplication with phase
tracking.  This is the algebra in which the partitioning round-trip and
conjugation claims are stated.
-/

/-- A (cleaned-up) weighted Pauli sum over `n` qubits: the coefficient of each
Pauli word. -/
def Pop (n : ℕ) := PTerm n → ℂ

instance {n : ℕ} : AddCommGroup (Pop n) := Pi.addCommGroup

noncomputable instance {n : ℕ} : Module ℂ (Pop n) := Pi.module _ _ _

/-- Modelled from the spec: product of Pauli sums, each pair of words
multiplied with its phase factor (spec §4.1, "product of two terms returning a
new term plus a complex phase factor"). -/
noncomputable def mulPop {n : ℕ} (f g : Pop n) : Pop n :=
  fun R => ∑ P, f P * iphase (pphase P (pmul P R)) * g (pmul P R)

/-- The identity operator as a Pauli sum. -/
noncomputable def onePop (n : ℕ) : Pop n :=
  fun R => if R = identP n then 1 else 0

theorem mulPop_apply {n : ℕ} (f g : Pop n) (R : PTerm n) :
    mulPop f g R = ∑ P, f P * iphase (pphase P (pmul P R)) * g (pmul P R) := rfl

theorem mulPop_left_distrib {n : ℕ} (f g h : Pop n) :
    mulPop f (g + h) = mulPop f g + mulPop f h := by
  funext R
  show (∑ P, f P * iphase _ * (g _ + h _)) = _
  simp only [mul_add, Finset.sum_add_distrib]
  rfl

theorem mulPop_right_distrib {n : ℕ} (f g h : Pop n) :
    mulPop (f + g) h = mulPop f h + mulPop g h := by
  funext R
  show (∑ P, (f P + g P) * iphase _ * h _) = _
  simp only [add_mul, Finset.sum_add_distrib]
  rfl

theorem mulPop_zero {n : ℕ} (f : Pop n) : mulPop f 0 = 0 := by
  funext R
  show (∑ P, f P * iphase _ * (0 : ℂ)) = 0
  simp

theorem zero_mulPop {n : ℕ} (f : Pop n) : mulPop 0 f = 0 := by
  funext R
  show (∑ P, (0 : ℂ) * iphase _ * f _) = 0
  simp

theorem one_mulPop {n : ℕ} (f : Pop n) : mulPop (onePop n) f = f := by
  funext R
  show (∑ P, (if P = identP n then (1:ℂ) else 0) * _ * f _) = f R
  rw [Finset.sum_eq_single (identP n)]
  · simp [iphase_zero]
  · intro b _ hb; simp [hb]
  · intro h; exact absurd (Finset.mem_univ _) h

theorem mulPop_one {n : ℕ} (f : Pop n) : mulPop f (onePop n) = f := by
  funext R
  show (∑ P, f P * iphase (pphase P (pmul P R)) * (if pmul P R = identP n then (1:ℂ) else 0)) = f R
  rw [Finset.sum_eq_single R]
  · simp [iphase_zero]
  · intro b _ hb
    have hne : pmul b R ≠ identP n := by
      intro h
      apply hb
      have h2 := congrArg (pmul b) h
      rw [pmul_cancel_left, pmul_ident_right] at h2
      exact h2.symm
    simp [hne]
  · intro h; exact absurd (Finset.mem_univ _) h

theorem mulPop_assoc {n : ℕ} (f g h : Pop n) :
    mulPop (mulPop f g) h = mulPop f (mulPop g h) := by
  funext R
  show (∑ P, (∑ S, f S * iphase (pphase S (pmul S P)) * g (pmul S P)) *
      iphase (pphase P (pmul P R)) * h (pmul P R)) =
    ∑ A, f A * iphase (pphase A (pmul A R)) *
      (∑ T, g T * iphase (pphase T (pmul T (pmul A R))) * h (pmul T (pmul A R)))
  simp only [Finset.sum_mul, Finset.mul_sum]
  rw [Finset.sum_comm]
  refine Finset.sum_congr rfl fun S _ => ?_
  rw [← Equiv.sum_comp (Function.Involutive.toPerm _ (pmul_left_involutive S))]
  refine Finset.sum_congr rfl fun B _ => ?_
  simp only [Function.Involutive.coe_toPerm]
  have h1 : pmul (pmul S B) R = pmul B (pmul S R) := by
    rw [pmul_comm S B, pmul_assoc]
  have h2 : pmul S (pmul S B) = B := pmul_cancel_left S B
  have h3 : pmul B (pmul B (pmul S R)) = pmul S R := pmul_cancel_left _ _
  rw [h2, h1]
  have key : iphase (pphase S B) * iphase (pphase (pmul S B) (pmul B (pmul S R))) =
      iphase (pphase B (pmul B (pmul S R))) * iphase (pphase S (pmul S R)) := by
    rw [← iphase_add, ← iphase_add]
    congr 1
    have hc := pphase_cocycle S B (pmul B (pmul S R))
    rw [h3] at hc
    exact hc
  calc f S * iphase (pphase S B) * g B * iphase (pphase (pmul S B) (pmul B (pmul S R))) *
        h (pmul B (pmul S R))
      = f S * g B * h (pmul B (pmul S R)) *
        (iphase (pphase S B) * iphase (pphase (pmul S B) (pmul B (pmul S R)))) := by ring
    _ = f S * g B * h (pmul B (pmul S R)) *
        (iphase (pphase B (pmul B (pmul S R))) * iphase (pphase S (pmul S R))) := by rw [key]
    _ = _ := by ring

noncomputable instance {n : ℕ} : Ring (Pop n) :=
  { (inferInstance : AddCommGroup (Pop n)) with
    mul := mulPop
    one := onePop n
    mul_assoc := mulPop_assoc
    one_mul := one_mulPop
    mul_one := mulPop_one
    left_distrib := mulPop_left_distrib
    right_distrib := mulPop_right_distrib
    zero_mul := zero_mulPop
    mul_zero := mulPop_zero }

theorem mul_def {n : ℕ} (f g : Pop n) : f * g = mulPop f g := rfl

theorem one_def {n : ℕ} : (1 : Pop n) = onePop n := rfl

theorem smul_mulPop {n : ℕ} (c : ℂ) (f g : Pop n) :
    (c • f) * g = c • (f * g) := by
  funext R
  show (∑ P, c * f P * iphase _ * g _) = c * ∑ P, f P * iphase _ * g _
  rw [Finset.mul_sum]
  exact Finset.sum_congr rfl fun P _ => by ring

theorem mulPop_smul {n : ℕ} (c : ℂ) (f g : Pop n) :
    f * (c • g) = c • (f * g) := by
  funext R
  show (∑ P, f P * iphase _ * (c * g _)) = c * ∑ P, f P * iphase _ * g _
  rw [Finset.mul_sum]
  exact Finset.sum_congr rfl fun P _ => by ring

/-- A single weighted Pauli term as an element of the algebra. -/
noncomputable def ofP {n : ℕ} (P : PTerm n) (c : ℂ) : Pop n :=
  fun R => if R = P then c else 0

theorem ofP_smul {n : ℕ} (P : PTerm n) (c d : ℂ) :
    ofP P (c * d) = c • ofP P d := by
  funext R
  show (if R = P then c * d else 0) = c * (if R = P then d else 0)
  by_cases h : R = P <;> simp [h]

theorem ofP_add {n : ℕ} (P : PTerm n) (c d : ℂ) :
    ofP P (c + d) = ofP P c + ofP P d := by
  funext R
  show (if R = P then c + d else 0) = (if R = P then c else 0) + (if R = P then d else 0)
  by_cases h : R = P <;> simp [h]

@[simp] theorem ofP_zero {n : ℕ} (P : PTerm n) : ofP P (0 : ℂ) = 0 := by
  funext R
  show (if R = P then (0:ℂ) else 0) = 0
  simp

theorem ofP_ident_one {n : ℕ} : ofP (identP n) (1 : ℂ) = 1 := rfl

/-- Single-term products multiply the words and accumulate the phase. -/
theorem ofP_mul {n : ℕ} (P Q : PTerm n) (c d : ℂ) :
    ofP P c * ofP Q d = ofP (pmul P Q) (c * d * iphase (pphase P Q)) := by
  funext R
  show (∑ S, (if S = P then c else 0) * iphase (pphase S (pmul S R)) *
      (if pmul S R = Q then d else 0)) = (if R = pmul P Q then c * d * iphase (pphase P Q) else 0)
  rw [Finset.sum_eq_single P]
  · by_cases h : R = pmul P Q
    · have : pmul P R = Q := by rw [h, pmul_cancel_left]
      simp [h, this]
      ring
    · have : pmul P R ≠ Q := by
        intro hq
        apply h
        have := congrArg (pmul P) hq
        rwa [pmul_cancel_left] at this
      simp [h, this]
  · intro b _ hb; simp [hb]
  · intro h; exact absurd (Finset.mem_univ _) h

/-- A unit Pauli word squares to the identity. -/
theorem ofP_sq {n : ℕ} (P : PTerm n) : ofP P 1 * ofP P 1 = 1 := by
  rw [ofP_mul, pmul_self, pphase_self, iphase_zero, mul_one, one_mul, ofP_ident_one]

/-- Commutation in the algebra: swapping two unit words costs the sign
`(-1)^scomN`. -/
theorem ofP_swap {n : ℕ} (P Q : PTerm n) :
    ofP Q 1 * ofP P 1 = ((-1 : ℂ) ^ scomN P Q) • (ofP P 1 * ofP Q 1) := by
  rw [ofP_mul, ofP_mul, pmul_comm Q P, iphase_swap]
  simp only [one_mul]
  exact ofP_smul _ _ _

theorem ofP_commute {n : ℕ} (P Q : PTerm n) (h : pcommute P Q) :
    ofP Q 1 * ofP P 1 = ofP P 1 * ofP Q 1 := by
  have h0 : scomN P Q % 2 = 0 := h
  rw [ofP_swap, show ((-1 : ℂ) ^ scomN P Q) = 1 by
    rw [← Nat.div_add_mod (scomN P Q) 2, pow_add, pow_mul, neg_one_sq, one_pow, one_mul, h0]
    norm_num]
  rw [one_smul]

theorem ofP_anticommute {n : ℕ} (P Q : PTerm n) (h : ¬ pcommute P Q) :
    ofP Q 1 * ofP P 1 = -(ofP P 1 * ofP Q 1) := by
  have h1 : scomN P Q % 2 = 1 := by
    rcases Nat.mod_two_eq_zero_or_one (scomN P Q) with h0 | h1
    · exact absurd h0 h
    · exact h1
  rw [ofP_swap, show ((-1 : ℂ) ^ scomN P Q) = -1 by
    rw [← Nat.div_add_mod (scomN P Q) 2, pow_add, pow_mul, neg_one_sq, one_pow, one_mul, h1]
    norm_num]
  rw [neg_one_smul]

/-- The adjoint (dagger) of a Pauli sum: every Pauli word is Hermitian under
this representation, so the dagger conjugates each coefficient.  Modelled from
the spec (§4.8, `R†`). -/
noncomputable def daggerPop {n : ℕ} (f : Pop n) : Pop n :=
  fun R => (starRingEnd ℂ) (f R)

theorem daggerPop_ofP {n : ℕ} (P : PTerm n) (c : ℂ) :
    daggerPop (ofP P c) = ofP P ((starRingEnd ℂ) c) := by
  funext R
  show (starRingEnd ℂ) (if R = P then c else 0) = (if R = P then (starRingEnd ℂ) c else 0)
  by_cases h : R = P <;> simp [h]

theorem daggerPop_add {n : ℕ} (f g : Pop n) :
    daggerPop (f + g) = daggerPop f + daggerPop g := by
  funext R
  show (starRingEnd ℂ) (f R + g R) = _
  simp [daggerPop]
  rfl

/-!
## Stored operators

A `PauliwordOp` stores a symplectic matrix together with a coefficient vector;
we model the stored form as a list of (Pauli word, coefficient) pairs, in row
order.  `toPop` is its semantic value, i.e. the cleaned-up operator (duplicate
terms merged, zero terms dropped) it denotes.
-/

/-- A stored operator: rows of the symplectic matrix paired with their
coefficients. -/
abbrev TermList (n : ℕ) := List (PTerm n × ℂ)

/-- The semantic (cleaned-up) value of a stored operator. -/
noncomputable def toPop {n : ℕ} : TermList n → Pop n
  | [] => 0
  | (P, c) :: rest => ofP P c + toPop rest

@[simp] theorem toPop_nil {n : ℕ} : toPop ([] : TermList n) = 0 := rfl

@[simp] theorem toPop_cons {n : ℕ} (P : PTerm n) (c : ℂ) (l : TermList n) :
    toPop ((P, c) :: l) = ofP P c + toPop l := rfl

theorem toPop_append {n : ℕ} (l₁ l₂ : TermList n) :
    toPop (l₁ ++ l₂) = toPop l₁ + toPop l₂ := by
  induction l₁ with
  | nil => simp
  | cons t rest ih =>
    obtain ⟨P, c⟩ := t
    simp [List.cons_append, ih]
    abel

/-- The terms of a stored operator strictly pairwise anticommute (the
`AntiCommutingOp` construction-time assertion, anticommuting_op.py line 17). -/
def pairwiseAC {n : ℕ} (l : TermList n) : Prop :=
  l.Pairwise (fun s t => ¬ pcommute s.1 t.1)

instance {n : ℕ} (l : TermList n) : Decidable (pairwiseAC l) := by
  unfold pairwiseAC; infer_instance

/-!
## AntiCommutingOp: unitary partitioning (anticommuting_op.py)

The mutable object state relevant to partitioning consists of the stored
operator (`symp_matrix` with `coeff_vec`) and the two recipe caches
`X_sk_rotations` and `R_LCU`; Python's in-place mutation is modelled by
explicit state passing.  Assertion failures and raised errors are modelled by
returning `none`.
-/

/-- A recorded rotation: the single-term rotation generator `X_sk` (word and
coefficient) together with the angle `theta_sk`. -/
abbrev Rotation (n : ℕ) := (PTerm n × ℂ) × ℝ

/-- The state of an `AntiCommutingOp` object. -/
structure ACState (n : ℕ) where
  op : TermList n
  X_sk_rotations : List (Rotation n)
  R_LCU : Option (TermList n)

/-- The `rotations` component returned by `unitary_partitioning`: `None` for a
single-term operator, the list of rotations for `seq_rot`, the LCU operator for
`LCU`. -/
inductive Recipe (n : ℕ) where
  | noRecipe : Recipe n
  | seqRec : List (Rotation n) → Recipe n
  | lcuRec : Option (TermList n) → Recipe n

/-- The tuple `(Ps, rotations, gamma_l, AC_op)` returned by
`unitary_partitioning`. -/
structure UPOutput (n : ℕ) where
  Ps : TermList n
  rotations : Recipe n
  gamma_l : ℝ
  AC_op : TermList n

/-- `np.linalg.norm` of a complex coefficient vector. -/
noncomputable def normC {n : ℕ} (l : TermList n) : ℝ :=
  Real.sqrt ((l.map fun tc => Complex.normSq tc.2).sum)

/-- The sum of the imaginary parts of the coefficients (the quantity the
`unitary_partitioning` realness assertion checks). -/
def sumIm {n : ℕ} (l : TermList n) : ℝ :=
  (l.map fun tc => tc.2.im).sum

/-- Divide every coefficient by the scalar `γ` (the normalization
`AC_op.coeff_vec = AC_op.coeff_vec / gamma_l`). -/
noncomputable def scaleCoeffs {n : ℕ} (l : TermList n) (γ : ℝ) : TermList n :=
  l.map fun tc => (tc.1, tc.2 / (γ : ℂ))

/-- `numpy` big-endian integer value of a boolean row:
`row @ (1 << arange(n)[::-1])`. -/
def bigEndianVal {n : ℕ} (v : Fin n → Bool) : ℕ :=
  ∑ i, cond (v i) (2 ^ (n - 1 - i.val)) 0

/-- The big-endian integer encoding of the non-identity support of a term
(`np.logical_or(X_block, Z_block)` followed by the big-endian dot product),
exactly as in `get_least_dense_term_index`. -/
def supportInt {n : ℕ} (P : PTerm n) : ℕ :=
  bigEndianVal fun i => P.1 i || P.2 i

/-- The number of non-identity qubit positions of a term (what "least dense"
means in the docstring and the spec). -/
def nPauli {n : ℕ} (P : PTerm n) : ℕ :=
  ∑ i, cond (P.1 i || P.2 i) 1 0

/-- `np.argmin`: index of the first occurrence of the minimum. -/
def argminAux : List ℕ → ℕ → ℕ → ℕ → ℕ
  | [], _, bestIdx, _ => bestIdx
  | x :: rest, idx, bestIdx, bestVal =>
      if x < bestVal then argminAux rest (idx + 1) idx x
      else argminAux rest (idx + 1) bestIdx bestVal

def argminList : List ℕ → ℕ
  | [] => 0
  | x :: rest => argminAux rest 1 0 x

/-- `AntiCommutingOp.get_least_dense_term_index` (anticommuting_op.py lines
61-76): argmin of the big-endian support integers. -/
def leastDenseIndex {n : ℕ} (l : TermList n) : ℕ :=
  argminList (l.map fun tc => supportInt tc.1)

/-- Principal complex square root, `np.sqrt` on a complex array. -/
noncomputable def csqrt (z : ℂ) : ℂ := z ^ ((1 : ℂ) / 2)

/-- The rotation angle `theta_sk = np.arctan(β_k / β_s)`, plus π when `β_s`
has negative real part (anticommuting_op.py lines 95-97). -/
noncomputable def thetaSK (βs βk : ℂ) : ℝ :=
  Real.arctan ((βk / βs).re) + (if βs.re < 0 then Real.pi else 0)

/-- The coefficient of `X_sk = P_s * (-1j P_k)` before sign normalization. -/
noncomputable def wSK {n : ℕ} (Ps Pk : PTerm n) : ℂ :=
  (1 : ℂ) * (-Complex.I) * iphase (pphase Ps Pk)

/-- The recorded rotation generator: `X_sk` with its coefficient flipped to be
nonnegative (anticommuting_op.py lines 103-107). -/
noncomputable def XskOf {n : ℕ} (Ps Pk : PTerm n) : PTerm n × ℂ :=
  (pmul Ps Pk, if (wSK Ps Pk).re < 0 then -(wSK Ps Pk) else wSK Ps Pk)

/-- The recorded angle, negated along with the generator sign flip. -/
noncomputable def thetaOf {n : ℕ} (Ps Pk : PTerm n) (βs βk : ℂ) : ℝ :=
  if (wSK Ps Pk).re < 0 then -(thetaSK βs βk) else thetaSK βs βk

/-- `AntiCommutingOp._recursive_seq_rotations` (anticommuting_op.py lines
79-121), with the appends to `self.X_sk_rotations` made explicit in the
result.  The 'term not zeroing out' assertion is modelled exactly (`none` on
failure); `np.arctan` applied to the ratio of coefficients is modelled by the
real arctangent of the real part (the pipeline has already asserted the
coefficients real before this recursion runs). -/
noncomputable def recSeqRotations {n : ℕ} : TermList n → Option (List (Rotation n) × TermList n)
  | [] => none
  | [t] => some ([], [t])
  | (Ps, βs) :: (Pk, βk) :: rest =>
      if βk * ((Real.cos (thetaSK βs βk) : ℝ) : ℂ) -
          βs * ((Real.sin (thetaSK βs βk) : ℝ) : ℂ) = 0 then
        match recSeqRotations ((Ps, csqrt (βs ^ 2 + βk ^ 2)) :: rest) with
        | none => none
        | some (rots, finalOp) =>
            some ((XskOf Ps Pk, thetaOf Ps Pk βs βk) :: rots, finalOp)
      else none
termination_by l => l.length

/-- `AntiCommutingOp.generate_LCU_operator` (anticommuting_op.py lines
179-231).  Returns the pair (`R_LCU` cache value, `Ps_LCU`).  The residual
`AC_op - β_s·P_s` is modelled directly as the tail of the term list: the terms
are pairwise distinct (they strictly anticommute), so per the spec's cleanup
contract the subtraction cancels the index-0 term exactly and leaves the
remaining rows.  `np.arccos` on the (real) coefficient is modelled by the real
arccosine of the real part. -/
noncomputable def generateLCU {n : ℕ} (ac : TermList n) :
    Option (TermList n) × Option (TermList n) :=
  match ac with
  | [] => (none, none)
  | [_] => (none, none)
  | (Ps, βs) :: rest =>
      let residual : TermList n := rest
      let ω : ℝ := normC residual
      let scaled : TermList n := scaleCoeffs residual ω
      let φ : ℝ := Real.arccos βs.re
      let α : ℝ := if Real.pi < φ then 2 * Real.pi - φ else φ
      let R : TermList n :=
        (identP n, ((Real.cos (α / 2) : ℝ) : ℂ)) ::
          scaled.map fun tc =>
            (pmul tc.1 Ps, tc.2 * 1 * iphase (pphase tc.1 Ps) * ((-Real.sin (α / 2) : ℝ) : ℂ))
      (some R, some [(Ps, 1)])

/-- Swap list entries `0` and `s` (the reordering that moves the target term
to the top of the symplectic matrix). -/
def swapTop {n : ℕ} (l : TermList n) (s : ℕ) : TermList n :=
  (l.set 0 (l.getD s (identP n, 0))).set s (l.getD 0 (identP n, 0))

/-- The dispatch on `up_method` at the end of `unitary_partitioning` (lines
163-177): each branch first clears its own recipe cache, then records the
freshly derived recipe. -/
noncomputable def upDispatch {n : ℕ} (st : ACState n) (ac : TermList n) (γ : ℝ)
    (upMethod : String) : Option (UPOutput n × ACState n) :=
  if upMethod = "seq_rot" then
    match recSeqRotations ac with
    | none => none
    | some (rots, finalOp) =>
        some (⟨finalOp, Recipe.seqRec rots, γ, ac⟩, { st with X_sk_rotations := rots })
  else if upMethod = "LCU" then
    match generateLCU ac with
    | (R, some psLCU) => some (⟨psLCU, Recipe.lcuRec R, γ, ac⟩, { st with R_LCU := R })
    | (_, none) => none
  else none

/-- `AntiCommutingOp.unitary_partitioning` (anticommuting_op.py lines
124-177), with the object state passed explicitly.  The normalization and the
swap of the target term into position 0 operate on a copy of the stored
operator; only the recipe caches of the object state are reassigned.
Assertion failures (complex coefficients, the re-initialization anticommuting
check after the swap, the zeroing check inside the rotation recursion) and the
unknown-method `ValueError` yield `none`. -/
noncomputable def unitaryPartitioning {n : ℕ} (st : ACState n) (sIdx : Option ℕ)
    (upMethod : String) : Option (UPOutput n × ACState n) :=
  let acOp := st.op
  if acOp.length = 1 then
    let γ := normC acOp
    let acN := scaleCoeffs acOp γ
    some (⟨acN, Recipe.noRecipe, γ, acN⟩, st)
  else
    if sumIm acOp ≠ 0 then none
    else
      let γ := normC acOp
      let acN := scaleCoeffs acOp γ
      let sInd : ℕ := match sIdx with
        | some i => i
        | none => leastDenseIndex st.op
      if sInd ≠ 0 then
        if sInd < acN.length then
          let acSwapped := swapTop acN sInd
          if pairwiseAC acSwapped then upDispatch st acSwapped γ upMethod else none
        else none
      else upDispatch st acN γ upMethod

/-!
## Concrete Pauli terms used in scenarios and counterexamples
-/

/-- The single-qubit Pauli `X`. -/
def pX : PTerm 1 := (fun _ => true, fun _ => false)

/-- The single-qubit Pauli `Z`. -/
def pZ : PTerm 1 := (fun _ => false, fun _ => true)

/-- The single-qubit Pauli `Y`. -/
def pY : PTerm 1 := (fun _ => true, fun _ => true)

/-- The 4-qubit Pauli word `XXII`. -/
def tXXII : PTerm 4 := (fun i => decide (i.val < 2), fun _ => false)

/-- The 4-qubit Pauli word `IZZZ`. -/
def tIZZZ : PTerm 4 := (fun _ => false, fun i => decide (0 < i.val))

/-- C6 (code_bug): in `unitary_partitioning` with `s_index=None` the default
target is chosen by `get_least_dense_term_index`, which takes the argmin of
the big-endian integer encodings of the non-identity supports — not of the
number of non-identity positions.  On the valid anticommuting clique
`{XXII: 3, IZZZ: 4}` it selects index 1 (`IZZZ`, support integer `0111₂ = 7`,
three non-identity positions) although index 0 (`XXII`, support integer
`1100₂ = 12`) has only two non-identity positions, contradicting the
docstring's "least dense Pauli operator (aka least Pauli matrices)" and the
spec's "fewest non-identity qubit positions". -/
theorem C6_least_dense_selector_bug :
    pairwiseAC [(tXXII, (3 : ℂ)), (tIZZZ, 4)] ∧
    leastDenseIndex [(tXXII, (3 : ℂ)), (tIZZZ, 4)] = 1 ∧
    nPauli tIZZZ = 3 ∧ nPauli tXXII = 2 := by decide

/-- `upDispatch` only reassigns the recipe caches of the object state; the
stored operator is untouched. -/
theorem upDispatch_op_frame {n : ℕ} (st : ACState n) (ac : TermList n) (γ : ℝ)
    (m : String) (out : UPOutput n × ACState n) (h : upDispatch st ac γ m = some out) :
    out.2.op = st.op := by
  unfold upDispatch at h
  repeat' split at h
  any_goals exact Option.noConfusion h
  all_goals rw [Option.some.injEq] at h
  all_goals subst h
  all_goals rfl

/-- C10 (confirmed): `unitary_partitioning` never mutates the operator it is
called on apart from the recipe caches: the object's stored symplectic matrix
and coefficient vector after any completed call are exactly as before — the
γ-normalization and the swap of the target into position 0 happen on a copy
(`AC_op = self.copy()`), and only `X_sk_rotations` / `R_LCU` are ever
reassigned on `self`. -/
theorem C10_unitary_partitioning_op_frame {n : ℕ} (st : ACState n) (sIdx : Option ℕ)
    (m : String) (out : UPOutput n × ACState n)
    (h : unitaryPartitioning st sIdx m = some out) :
    out.2.op = st.op := by
  unfold unitaryPartitioning at h
  dsimp only at h
  repeat' split at h
  any_goals exact upDispatch_op_frame _ _ _ _ _ h
  any_goals exact Option.noConfusion h
  all_goals rw [Option.some.injEq] at h
  all_goals subst h
  all_goals rfl

/-- Witness state for the frame theorem: a single-term operator. -/
def upWitST : ACState 1 := ⟨[(pX, 1)], [], none⟩

/-- The output of `unitary_partitioning` on `upWitST` (single-term branch). -/
noncomputable def upWitOut : UPOutput 1 × ACState 1 :=
  (⟨scaleCoeffs [(pX, 1)] (normC [(pX, 1)]), Recipe.noRecipe, normC [(pX, 1)],
    scaleCoeffs [(pX, 1)] (normC [(pX, 1)])⟩, upWitST)

theorem C10_witness :
    unitaryPartitioning upWitST none "LCU" = some upWitOut ∧
      upWitOut.2.op = upWitST.op := by
  have h : unitaryPartitioning upWitST none "LCU" = some upWitOut := rfl
  exact ⟨h, C10_unitary_partitioning_op_frame upWitST none "LCU" upWitOut h⟩

/-!
## Recipe-cache behaviour across calls (claim C8)
-/

theorem iphase_three : iphase 3 = -Complex.I := by
  rw [show (3 : ZMod 4) = ((3 : ℕ) : ZMod 4) by rfl, iphase_natCast]
  rw [pow_succ, Complex.I_sq]
  ring

theorem neg_I_mul_neg_I : (-Complex.I) * (-Complex.I) = -1 := by
  rw [neg_mul_neg, Complex.I_mul_I]

theorem pphase_pX_pZ : pphase pX pZ = 3 := by decide

theorem pmul_pX_pZ : pmul pX pZ = pY := by decide

theorem pmul_pZ_pX : pmul pZ pX = pY := by decide

theorem csqrt_one : csqrt 1 = 1 := by rw [csqrt, Complex.one_cpow]

/-- The 2-term anticommuting operator `{X: 1, Z: 0}`. -/
def acXZ : TermList 1 := [(pX, 1), (pZ, 0)]

/-- A fresh `AntiCommutingOp` holding `acXZ`, no cached recipes. -/
def c8st0 : ACState 1 := ⟨acXZ, [], none⟩

/-- The object state after a `seq_rot` partitioning call on `c8st0`. -/
def c8st1 : ACState 1 := ⟨acXZ, [((pY, 1), 0)], none⟩

/-- The LCU operator derived for `acXZ`. -/
def c8R : TermList 1 := [(identP 1, 1), (pY, 0)]

/-- The full output of the `seq_rot` call on `c8st0`. -/
def c8out1 : UPOutput 1 × ACState 1 :=
  (⟨[(pX, 1)], Recipe.seqRec [((pY, 1), 0)], 1, acXZ⟩, c8st1)

/-- The object state after the subsequent `LCU` call. -/
def c8st2 : ACState 1 := ⟨acXZ, [((pY, 1), 0)], some c8R⟩

/-- The full output of the `LCU` call on `c8st1`. -/
def c8out2 : UPOutput 1 × ACState 1 :=
  (⟨[(pX, 1)], Recipe.lcuRec (some c8R), 1, acXZ⟩, c8st2)

theorem recSeq_single {n : ℕ} (t : PTerm n × ℂ) : recSeqRotations [t] = some ([], [t]) := by
  rw [recSeqRotations]

theorem thetaSK_one_zero : thetaSK 1 0 = 0 := by
  rw [thetaSK]
  simp [Complex.one_re]

theorem wSK_pX_pZ : wSK pX pZ = -1 := by
  rw [wSK, pphase_pX_pZ, iphase_three, one_mul, neg_I_mul_neg_I]

theorem XskOf_pX_pZ : XskOf pX pZ = (pY, 1) := by
  rw [XskOf, wSK_pX_pZ, pmul_pX_pZ]
  norm_num

theorem thetaOf_pX_pZ : thetaOf pX pZ 1 0 = 0 := by
  rw [thetaOf, wSK_pX_pZ, thetaSK_one_zero]
  norm_num

theorem recSeq_acXZ : recSeqRotations acXZ = some ([((pY, 1), 0)], [(pX, 1)]) := by
  rw [show acXZ = (pX, (1:ℂ)) :: (pZ, (0:ℂ)) :: [] from rfl]
  rw [recSeqRotations, thetaSK_one_zero]
  simp only [Real.cos_zero, Real.sin_zero, Complex.ofReal_one, Complex.ofReal_zero,
    mul_one, mul_zero, zero_mul, sub_zero]
  norm_num
  rw [csqrt_one, recSeq_single, XskOf_pX_pZ, thetaOf_pX_pZ]

theorem normC_acXZ : normC acXZ = 1 := by
  simp [acXZ, normC, Complex.normSq_one]

theorem scale_acXZ : scaleCoeffs acXZ (normC acXZ) = acXZ := by
  rw [normC_acXZ]
  simp [scaleCoeffs, acXZ]

/-- Concrete run of `unitary_partitioning(up_method='seq_rot')` on `acXZ`. -/
theorem up_seq_eval : unitaryPartitioning c8st0 none "seq_rot" = some c8out1 := by
  unfold unitaryPartitioning
  dsimp only [c8st0]
  rw [if_neg (by decide : ¬ (List.length acXZ = 1))]
  rw [if_neg (by simp [sumIm, acXZ] : ¬ (sumIm acXZ ≠ 0))]
  rw [scale_acXZ, normC_acXZ]
  rw [if_neg (by decide : ¬ (leastDenseIndex acXZ ≠ 0))]
  unfold upDispatch
  rw [if_pos rfl, recSeq_acXZ]
  rfl

/-- Concrete run of `unitary_partitioning(up_method='LCU')` on the same
object, after the `seq_rot` call. -/
theorem up_lcu_eval : unitaryPartitioning c8st1 none "LCU" = some c8out2 := by
  unfold unitaryPartitioning
  dsimp only [c8st1]
  rw [if_neg (by decide : ¬ (List.length acXZ = 1))]
  rw [if_neg (by simp [sumIm, acXZ] : ¬ (sumIm acXZ ≠ 0))]
  rw [scale_acXZ, normC_acXZ]
  rw [if_neg (by decide : ¬ (leastDenseIndex acXZ ≠ 0))]
  unfold upDispatch
  rw [if_neg (by decide : ¬ ("LCU" = "seq_rot")), if_pos rfl]
  rw [show acXZ = (pX, (1:ℂ)) :: (pZ, (0:ℂ)) :: [] from rfl]
  unfold generateLCU
  dsimp only
  simp only [normC, scaleCoeffs, List.map_cons, List.map_nil, Complex.normSq_zero,
    List.sum_cons, List.sum_nil, add_zero, Real.sqrt_zero, zero_div, Complex.one_re,
    Real.arccos_one, if_neg (not_lt.mpr Real.pi_pos.le), Real.cos_zero, zero_mul,
    pmul_pZ_pX, Complex.ofReal_one]
  rfl

/-- C8 (corrected), counterexample: on the anticommuting operator
`{X: 1, Z: 0}`, a `seq_rot` call caches one rotation in `X_sk_rotations`; a
subsequent `LCU` call on the same object completes successfully but leaves
that stale rotation in `X_sk_rotations` — the LCU branch only clears `R_LCU`,
so the claim that "after a call with up_method='LCU' the X_sk_rotations cache
holds no rotations from an earlier call" is false. -/
theorem C8_counterexample_stale_cross_cache :
    unitaryPartitioning c8st0 none "seq_rot" = some c8out1 ∧
    c8out1.2 = c8st1 ∧
    unitaryPartitioning c8st1 none "LCU" = some c8out2 ∧
    c8out2.2.X_sk_rotations = [((pY, 1), 0)] ∧
    ([((pY, 1), 0)] : List (Rotation 1)) ≠ [] :=
  ⟨up_seq_eval, rfl, up_lcu_eval, rfl, List.cons_ne_nil _ _⟩

/-- Each `upDispatch` branch clears and re-records exactly its own method's
cache and leaves the other method's cache untouched. -/
theorem upDispatch_cache_split {n : ℕ} (st : ACState n) (ac : TermList n) (γ : ℝ)
    (m : String) (out : UPOutput n × ACState n) (h : upDispatch st ac γ m = some out) :
    (m = "seq_rot" → out.2.R_LCU = st.R_LCU ∧
        out.1.rotations = Recipe.seqRec out.2.X_sk_rotations) ∧
    (m = "LCU" → out.2.X_sk_rotations = st.X_sk_rotations ∧
        out.1.rotations = Recipe.lcuRec out.2.R_LCU) := by
  unfold upDispatch at h
  split at h
  case isTrue hm =>
    split at h
    · exact Option.noConfusion h
    · rw [Option.some.injEq] at h
      subst h
      refine ⟨fun _ => ⟨rfl, rfl⟩, fun hL => ?_⟩
      exact absurd (hm.symm.trans hL) (by decide)
  case isFalse hm =>
    split at h
    case isTrue hm2 =>
      split at h
      · rw [Option.some.injEq] at h
        subst h
        exact ⟨fun hs => absurd hs hm, fun _ => ⟨rfl, rfl⟩⟩
      · exact Option.noConfusion h
    case isFalse hm2 => exact Option.noConfusion h

/-- C8 (corrected), amended: across calls on the same `AntiCommutingOp`, each
multi-term `unitary_partitioning` call clears and re-records only the cache of
the method it was invoked with — after a `seq_rot` call `X_sk_rotations` holds
exactly the rotations derived in that call and `R_LCU` is untouched; after an
`LCU` call `R_LCU` holds exactly the operator derived in that call and
`X_sk_rotations` is untouched.  A cached recipe of the other method from an
earlier call persists. -/
theorem C8_amended_cache_discipline {n : ℕ} (st : ACState n) (sIdx : Option ℕ)
    (m : String) (out : UPOutput n × ACState n)
    (h : unitaryPartitioning st sIdx m = some out) (hlen : st.op.length ≠ 1) :
    (m = "seq_rot" → out.2.R_LCU = st.R_LCU ∧
        out.1.rotations = Recipe.seqRec out.2.X_sk_rotations) ∧
    (m = "LCU" → out.2.X_sk_rotations = st.X_sk_rotations ∧
        out.1.rotations = Recipe.lcuRec out.2.R_LCU) := by
  unfold unitaryPartitioning at h
  dsimp only at h
  rw [if_neg hlen] at h
  repeat' split at h
  any_goals exact upDispatch_cache_split _ _ _ _ _ h
  any_goals exact Option.noConfusion h

theorem C8_amended_witness :
    unitaryPartitioning c8st1 none "LCU" = some c8out2 ∧ c8st1.op.length ≠ 1 ∧
      (c8out2.2.X_sk_rotations = c8st1.X_sk_rotations ∧
        c8out2.1.rotations = Recipe.lcuRec c8out2.2.R_LCU) :=
  ⟨up_lcu_eval, by decide,
    (C8_amended_cache_discipline c8st1 none "LCU" c8out2 up_lcu_eval (by decide)).2 rfl⟩

/-!
## Rotation conjugation (spec section 4.8)

Modelled from the spec: "The returned ordered list, applied as sequential
rotations by each angle about its generator, transforms the clique into
gamma*Ps".  A rotation by angle theta about a (sign-normalized, Hermitian)
generator X conjugates by the unitary exp(i theta/2 X) = cos(theta/2) 1 +
i sin(theta/2) X.
-/

theorem ofP_eq_smul {n : ℕ} (P : PTerm n) (c : ℂ) : ofP P c = c • ofP P 1 := by
  rw [← ofP_smul, mul_one]

theorem ofP_inj {n : ℕ} (P : PTerm n) (c d : ℂ) (h : ofP P c = ofP P d) : c = d := by
  have h2 := congrFun h P
  simpa [ofP] using h2

theorem smul_ofP_mul {n : ℕ} (P Q : PTerm n) (c d : ℂ) :
    ofP P c * ofP Q d = (c * d) • (ofP P 1 * ofP Q 1) := by
  rw [ofP_mul, ofP_mul, one_mul, one_mul,
    ofP_eq_smul (pmul P Q) (c * d * iphase (pphase P Q)),
    ofP_eq_smul (pmul P Q) (iphase (pphase P Q)), smul_smul, mul_assoc]

theorem conjUnit_commute {n : ℕ} (X f : Pop n) (a b : ℝ) (hX : X * X = 1)
    (hc : X * f = f * X) (hab : a^2 + b^2 = 1) :
    (((a:ℝ):ℂ) • 1 + (Complex.I * ((b:ℝ):ℂ)) • X) * f *
      (((a:ℝ):ℂ) • 1 - (Complex.I * ((b:ℝ):ℂ)) • X) = f := by
  set a' : ℂ := ((a:ℝ):ℂ) with ha'
  set c' : ℂ := Complex.I * ((b:ℝ):ℂ) with hc'
  have e1 : (a' • (1:Pop n) + c' • X) * f = a' • f + c' • (X * f) := by
    rw [add_mul, smul_mulPop, smul_mulPop, one_mul]
  have e3 : (a' • f + c' • (X * f)) * X = a' • (X * f) + c' • f := by
    rw [add_mul, smul_mulPop, smul_mulPop, ← hc, mul_assoc, ← hc, ← mul_assoc, hX, one_mul]
  have e2 : (a' • f + c' • (X * f)) * (a' • 1 - c' • X)
      = a' • (a' • f + c' • (X * f)) - c' • (a' • (X * f) + c' • f) := by
    rw [mul_sub, mulPop_smul, mulPop_smul, mul_one, e3]
  rw [e1, e2]
  have hsc : a' * a' - c' * c' = 1 := by
    rw [ha', hc']
    have h2 : ((a:ℝ):ℂ)^2 + ((b:ℝ):ℂ)^2 = 1 := by
      rw [show ((1:ℂ)) = (((1:ℝ)):ℂ) by norm_num, ← hab]
      push_cast
      ring
    rw [← h2]
    ring_nf
    rw [Complex.I_sq]
    ring
  have goal2 : a' • (a' • f + c' • (X * f)) - c' • (a' • (X * f) + c' • f)
      = (a' * a' - c' * c') • f := by
    module
  rw [goal2, hsc, one_smul]

theorem conjUnit_anticommute {n : ℕ} (X f : Pop n) (a b : ℝ) (hX : X * X = 1)
    (hc : X * f = -(f * X)) :
    (((a:ℝ):ℂ) • 1 + (Complex.I * ((b:ℝ):ℂ)) • X) * f *
      (((a:ℝ):ℂ) • 1 - (Complex.I * ((b:ℝ):ℂ)) • X)
      = ((a^2 - b^2 : ℝ) : ℂ) • f + (Complex.I * ((2*a*b : ℝ) : ℂ)) • (X * f) := by
  set a' : ℂ := ((a:ℝ):ℂ) with ha'
  set c' : ℂ := Complex.I * ((b:ℝ):ℂ) with hc'
  have hfX : f * X = -(X * f) := by rw [hc, neg_neg]
  have e1 : (a' • (1:Pop n) + c' • X) * f = a' • f + c' • (X * f) := by
    rw [add_mul, smul_mulPop, smul_mulPop, one_mul]
  have e3 : (a' • f + c' • (X * f)) * X = (-a') • (X * f) + (-c') • f := by
    rw [add_mul, smul_mulPop, smul_mulPop, hfX, mul_assoc, hfX, mul_neg, ← mul_assoc, hX,
      one_mul, smul_neg, smul_neg, ← neg_smul, ← neg_smul]
  have e2 : (a' • f + c' • (X * f)) * (a' • 1 - c' • X)
      = a' • (a' • f + c' • (X * f)) - c' • ((-a') • (X * f) + (-c') • f) := by
    rw [mul_sub, mulPop_smul, mulPop_smul, mul_one, e3]
  rw [e1, e2]
  have hsc1 : a' * a' - c' * (-c') = ((a^2 - b^2 : ℝ) : ℂ) := by
    rw [ha', hc']
    push_cast
    ring_nf
    rw [Complex.I_sq]
    ring
  have hsc2 : a' * c' - c' * (-a') = Complex.I * ((2*a*b : ℝ) : ℂ) := by
    rw [ha', hc']
    push_cast
    ring
  have goal2 : a' • (a' • f + c' • (X * f)) - c' • ((-a') • (X * f) + (-c') • f)
      = (a' * a' - c' * (-c')) • f + (a' * c' - c' * (-a')) • (X * f) := by
    module
  rw [goal2, hsc1, hsc2]


/-! ## Symplectic-form parity arithmetic -/

/-- The symplectic form in `ZMod 2`. -/
def scom2 {n : ℕ} (P Q : PTerm n) : ZMod 2 := (scomN P Q : ZMod 2)

theorem pcommute_iff_scom2 {n : ℕ} (P Q : PTerm n) : pcommute P Q ↔ scom2 P Q = 0 := by
  rw [pcommute, scom2, ZMod.natCast_zmod_eq_zero_iff_dvd, Nat.dvd_iff_mod_eq_zero]

theorem scomN1_comm : ∀ a b c d : Bool, scomN1 c d a b = scomN1 a b c d := by decide

theorem scom2_comm {n : ℕ} (P Q : PTerm n) : scom2 Q P = scom2 P Q := by
  unfold scom2 scomN
  congr 1
  exact Finset.sum_congr rfl fun i _ => scomN1_comm _ _ _ _

theorem scomN1_self_even : ∀ a b : Bool, scomN1 a b a b % 2 = 0 := by decide

theorem pcommute_self {n : ℕ} (P : PTerm n) : pcommute P P := by
  unfold pcommute scomN
  rw [Finset.sum_nat_mod]
  simp only [scomN1_self_even]
  simp

theorem scom2_self {n : ℕ} (P : PTerm n) : scom2 P P = 0 :=
  (pcommute_iff_scom2 P P).mp (pcommute_self P)

theorem scomN1_pmul_left : ∀ a b c d e f : Bool,
    ((scomN1 (xor a c) (xor b d) e f : ZMod 2))
      = (scomN1 a b e f : ZMod 2) + (scomN1 c d e f : ZMod 2) := by decide

/-- The symplectic form is additive in the first argument under the word
product. -/
theorem scom2_pmul_left {n : ℕ} (P Q R : PTerm n) :
    scom2 (pmul P Q) R = scom2 P R + scom2 Q R := by
  unfold scom2 scomN pmul
  push_cast
  rw [← Finset.sum_add_distrib]
  refine Finset.sum_congr rfl fun i _ => ?_
  exact scomN1_pmul_left _ _ _ _ _ _

theorem zmod2_cases : ∀ x : ZMod 2, x = 0 ∨ x = 1 := by decide

theorem scom2_one_of_not_pcommute {n : ℕ} (P Q : PTerm n) (h : ¬ pcommute P Q) :
    scom2 P Q = 1 := by
  rcases zmod2_cases (scom2 P Q) with h0 | h1
  · exact absurd ((pcommute_iff_scom2 P Q).mpr h0) h
  · exact h1

theorem not_pcommute_of_scom2_one {n : ℕ} (P Q : PTerm n) (h : scom2 P Q = 1) :
    ¬ pcommute P Q := by
  intro hc
  rw [(pcommute_iff_scom2 P Q).mp hc] at h
  exact absurd h (by decide)


/-! ## The corrected arctangent: exact cosine and sine values -/

theorem sqrt_one_add_ratio_sq (c0 c1 : ℝ) (h : c0 ≠ 0) :
    Real.sqrt (1 + (c1/c0)^2) = Real.sqrt (c0^2 + c1^2) / |c0| := by
  rw [show (1:ℝ) + (c1/c0)^2 = (c0^2+c1^2)/c0^2 by field_simp]
  rw [Real.sqrt_div (by positivity) _, Real.sqrt_sq_eq_abs]

theorem cos_thetaSK (c0 c1 : ℝ) (h : c0 ≠ 0) :
    Real.cos (thetaSK (c0:ℂ) (c1:ℂ)) = c0 / Real.sqrt (c0^2 + c1^2) := by
  have hS : (0:ℝ) < Real.sqrt (c0^2 + c1^2) := by
    apply Real.sqrt_pos.mpr
    positivity
  rw [thetaSK, show ((c1:ℂ)/(c0:ℂ)) = ((c1/c0 : ℝ) : ℂ) by push_cast; ring,
    Complex.ofReal_re, Complex.ofReal_re]
  rcases lt_or_gt_of_ne h with hneg | hpos
  · rw [if_pos hneg, Real.cos_add_pi, Real.cos_arctan, sqrt_one_add_ratio_sq c0 c1 h]
    rw [abs_of_neg hneg]
    field_simp
  · rw [if_neg (by linarith), add_zero, Real.cos_arctan, sqrt_one_add_ratio_sq c0 c1 h]
    rw [abs_of_pos hpos]
    field_simp

theorem sin_thetaSK (c0 c1 : ℝ) (h : c0 ≠ 0) :
    Real.sin (thetaSK (c0:ℂ) (c1:ℂ)) = c1 / Real.sqrt (c0^2 + c1^2) := by
  have hS : (0:ℝ) < Real.sqrt (c0^2 + c1^2) := by
    apply Real.sqrt_pos.mpr
    positivity
  rw [thetaSK, show ((c1:ℂ)/(c0:ℂ)) = ((c1/c0 : ℝ) : ℂ) by push_cast; ring,
    Complex.ofReal_re, Complex.ofReal_re]
  rcases lt_or_gt_of_ne h with hneg | hpos
  · rw [if_pos hneg, Real.sin_add_pi, Real.sin_arctan, sqrt_one_add_ratio_sq c0 c1 h]
    rw [abs_of_neg hneg]
    field_simp
    ring
  · rw [if_neg (by linarith), add_zero, Real.sin_arctan, sqrt_one_add_ratio_sq c0 c1 h]
    rw [abs_of_pos hpos]
    field_simp

/-- The 'term not zeroing out' check holds whenever the leading coefficient is
a nonzero real. -/
theorem zero_check_holds (c0 c1 : ℝ) (h : c0 ≠ 0) :
    (c1:ℂ) * ((Real.cos (thetaSK (c0:ℂ) (c1:ℂ)) : ℝ) : ℂ) -
      (c0:ℂ) * ((Real.sin (thetaSK (c0:ℂ) (c1:ℂ)) : ℝ) : ℂ) = 0 := by
  rw [cos_thetaSK c0 c1 h, sin_thetaSK c0 c1 h]
  push_cast
  ring

/-- The rotated leading coefficient equals the Euclidean norm of the pair. -/
theorem new_coeff_eq_sqrt (c0 c1 : ℝ) (h : c0 ≠ 0) :
    c0 * Real.cos (thetaSK (c0:ℂ) (c1:ℂ)) + c1 * Real.sin (thetaSK (c0:ℂ) (c1:ℂ))
      = Real.sqrt (c0^2 + c1^2) := by
  have hS : (0:ℝ) < Real.sqrt (c0^2 + c1^2) := by
    apply Real.sqrt_pos.mpr
    positivity
  rw [cos_thetaSK c0 c1 h, sin_thetaSK c0 c1 h]
  field_simp
  ring

theorem csqrt_sq_add_sq (c0 c1 : ℝ) :
    csqrt ((c0:ℂ)^2 + (c1:ℂ)^2) = ((Real.sqrt (c0^2+c1^2) : ℝ) : ℂ) := by
  rw [show (c0:ℂ)^2 + (c1:ℂ)^2 = (((c0^2+c1^2 : ℝ)):ℂ) by push_cast; ring]
  rw [csqrt, show ((1:ℂ)/2) = (((1/2 : ℝ)):ℂ) by norm_num]
  rw [← Complex.ofReal_cpow (by positivity) (1/2)]
  rw [← Real.sqrt_eq_rpow]


/-! ## Applying recorded rotations -/

/-- Modelled from the spec (§4.8): applying a recorded rotation `(X, θ)` to an
operator conjugates it by `exp(i θ/2 X) = cos(θ/2)·1 + i sin(θ/2)·X`. -/
noncomputable def rotConj {n : ℕ} (X : PTerm n × ℂ) (θ : ℝ) (f : Pop n) : Pop n :=
  (((Real.cos (θ/2) : ℝ) : ℂ) • 1 + (Complex.I * ((Real.sin (θ/2) : ℝ) : ℂ)) • ofP X.1 X.2) *
      f *
    (((Real.cos (θ/2) : ℝ) : ℂ) • 1 -
      (Complex.I * ((Real.sin (θ/2) : ℝ) : ℂ)) • ofP X.1 ((starRingEnd ℂ) X.2))

/-- Modelled from the spec (§4.8): the ordered rotation list applied as
sequential rotations, first recorded rotation first. -/
noncomputable def applySeqRotations {n : ℕ} (rots : List (Rotation n)) (f : Pop n) : Pop n :=
  rots.foldl (fun g r => rotConj r.1 r.2 g) f

@[simp] theorem applySeqRotations_nil {n : ℕ} (f : Pop n) :
    applySeqRotations [] f = f := rfl

theorem applySeqRotations_cons {n : ℕ} (r : Rotation n) (rots : List (Rotation n)) (f : Pop n) :
    applySeqRotations (r :: rots) f = applySeqRotations rots (rotConj r.1 r.2 f) := rfl

theorem rotConj_add {n : ℕ} (X : PTerm n × ℂ) (θ : ℝ) (f g : Pop n) :
    rotConj X θ (f + g) = rotConj X θ f + rotConj X θ g := by
  unfold rotConj
  rw [mul_add, add_mul]

theorem rotConj_smul {n : ℕ} (X : PTerm n × ℂ) (θ : ℝ) (c : ℂ) (f : Pop n) :
    rotConj X θ (c • f) = c • rotConj X θ f := by
  unfold rotConj
  rw [mulPop_smul, smul_mulPop]

theorem rotConj_zero {n : ℕ} (X : PTerm n × ℂ) (θ : ℝ) :
    rotConj X θ (0 : Pop n) = 0 := by
  unfold rotConj
  rw [mul_zero, zero_mul]

theorem scomN_comm {n : ℕ} (P Q : PTerm n) : scomN Q P = scomN P Q := by
  unfold scomN
  exact Finset.sum_congr rfl fun i _ => scomN1_comm _ _ _ _

theorem pcommute_symm {n : ℕ} (P Q : PTerm n) (h : pcommute P Q) : pcommute Q P := by
  unfold pcommute at h ⊢
  rw [scomN_comm]
  exact h

theorem not_pcommute_symm {n : ℕ} (P Q : PTerm n) (h : ¬ pcommute P Q) : ¬ pcommute Q P :=
  fun hc => h (pcommute_symm Q P hc)

/-- Conjugating a term commuting with the generator leaves it unchanged. -/
theorem rotConj_comm_term {n : ℕ} (W P : PTerm n) (c : ℂ) (θ : ℝ) (h : pcommute W P) :
    rotConj (W, 1) θ (ofP P c) = ofP P c := by
  rw [ofP_eq_smul, rotConj_smul]
  congr 1
  unfold rotConj
  simp only [map_one]
  exact conjUnit_commute (ofP W 1) (ofP P 1) (Real.cos (θ/2)) (Real.sin (θ/2)) (ofP_sq W)
    (ofP_commute P W (pcommute_symm W P h)) (Real.cos_sq_add_sin_sq _)

/-- Conjugating a term anticommuting with the generator rotates it. -/
theorem rotConj_anti_term {n : ℕ} (W P : PTerm n) (c : ℂ) (θ : ℝ) (h : ¬ pcommute W P) :
    rotConj (W, 1) θ (ofP P c) =
      (c * ((Real.cos θ : ℝ) : ℂ)) • ofP P 1 +
        (c * Complex.I * ((Real.sin θ : ℝ) : ℂ)) • (ofP W 1 * ofP P 1) := by
  rw [ofP_eq_smul, rotConj_smul]
  have hrel : ofP W 1 * ofP P 1 = -(ofP P 1 * ofP W 1) :=
    ofP_anticommute P W (not_pcommute_symm W P h)
  have step : rotConj (W, 1) θ (ofP P 1)
      = ((Real.cos θ : ℝ) : ℂ) • ofP P 1 +
        (Complex.I * ((Real.sin θ : ℝ) : ℂ)) • (ofP W 1 * ofP P 1) := by
    unfold rotConj
    simp only [map_one]
    rw [conjUnit_anticommute (ofP W 1) (ofP P 1) (Real.cos (θ/2)) (Real.sin (θ/2))
      (ofP_sq W) hrel]
    have h2 : Real.cos (θ/2)^2 - Real.sin (θ/2)^2 = Real.cos θ := by
      rw [← Real.cos_two_mul']
      congr 1
      ring
    have h3 : 2 * Real.cos (θ/2) * Real.sin (θ/2) = Real.sin θ := by
      rw [show (2:ℝ) * Real.cos (θ/2) * Real.sin (θ/2)
          = 2 * Real.sin (θ/2) * Real.cos (θ/2) by ring, ← Real.sin_two_mul]
      congr 1
      ring
    rw [h2, h3]
  rw [step, smul_add, smul_smul, smul_smul]
  rw [show c * (Complex.I * ((Real.sin θ : ℝ) : ℂ)) = c * Complex.I * ((Real.sin θ : ℝ) : ℂ)
    by ring]

/-- Conjugation acts trivially on an operator all of whose terms commute with
the generator. -/
theorem rotConj_toPop_fixed {n : ℕ} (W : PTerm n) (θ : ℝ) (l : TermList n)
    (h : ∀ tc ∈ l, pcommute W tc.1) : rotConj (W, 1) θ (toPop l) = toPop l := by
  induction l with
  | nil => exact rotConj_zero _ _
  | cons t rest ih =>
    obtain ⟨P, c⟩ := t
    rw [toPop_cons, rotConj_add, rotConj_comm_term W P c θ (h (P, c) (List.mem_cons_self _ _)),
      ih fun tc htc => h tc (List.mem_cons_of_mem _ htc)]


/-! ## The phase of a product of anticommuting words -/

theorem smul_one_inj {n : ℕ} (c d : ℂ) (h : c • (1 : Pop n) = d • (1 : Pop n)) : c = d := by
  have h2 := congrFun h (identP n)
  have e : (1 : Pop n) (identP n) = 1 := by
    show (if identP n = identP n then (1:ℂ) else 0) = 1
    simp
  have e1 : (c • (1 : Pop n)) (identP n) = c := by
    show c * (1 : Pop n) (identP n) = c
    rw [e, mul_one]
  have e2 : (d • (1 : Pop n)) (identP n) = d := by
    show d * (1 : Pop n) (identP n) = d
    rw [e, mul_one]
  rw [e1, e2] at h2
  exact h2

theorem smul_ofP_one_inj {n : ℕ} (P : PTerm n) (c d : ℂ)
    (h : c • ofP P (1:ℂ) = d • ofP P 1) : c = d := by
  have h2 := congrFun h P
  have e : ofP P (1:ℂ) P = 1 := by
    show (if P = P then (1:ℂ) else 0) = 1
    simp
  have e1 : (c • ofP P (1:ℂ)) P = c := by
    show c * ofP P (1:ℂ) P = c
    rw [e, mul_one]
  have e2 : (d • ofP P (1:ℂ)) P = d := by
    show d * ofP P (1:ℂ) P = d
    rw [e, mul_one]
  rw [e1, e2] at h2
  exact h2

/-- The product of two strictly anticommuting Pauli words carries phase `±i`:
its square is `-1`. -/
theorem iphase_sq_anticommute {n : ℕ} (P0 P1 : PTerm n) (h : ¬ pcommute P0 P1) :
    iphase (pphase P0 P1) ^ 2 = -1 := by
  set φ := iphase (pphase P0 P1) with hφ
  have hmul : ofP P0 (1:ℂ) * ofP P1 1 = ofP (pmul P0 P1) φ := by
    rw [ofP_mul, one_mul, one_mul]
  have way1 : (ofP P0 (1:ℂ) * ofP P1 1) * (ofP P0 1 * ofP P1 1) = (φ * φ) • (1 : Pop n) := by
    rw [hmul, smul_ofP_mul, ofP_sq]
  have way2 : (ofP P0 (1:ℂ) * ofP P1 1) * (ofP P0 1 * ofP P1 1) = (-1 : ℂ) • (1 : Pop n) := by
    have hac : ofP P1 (1:ℂ) * ofP P0 1 = -(ofP P0 1 * ofP P1 1) := ofP_anticommute P0 P1 h
    calc (ofP P0 (1:ℂ) * ofP P1 1) * (ofP P0 1 * ofP P1 1)
        = ofP P0 1 * (ofP P1 1 * ofP P0 1) * ofP P1 1 := by
          rw [mul_assoc, mul_assoc, mul_assoc]
      _ = ofP P0 1 * -(ofP P0 1 * ofP P1 1) * ofP P1 1 := by rw [hac]
      _ = -(ofP P0 1 * ofP P0 1 * (ofP P1 1 * ofP P1 1)) := by
          rw [mul_neg, neg_mul, mul_assoc, mul_assoc, mul_assoc]
      _ = (-1 : ℂ) • (1 : Pop n) := by
          rw [ofP_sq, ofP_sq, one_mul]
          exact (neg_one_smul ℂ (1 : Pop n)).symm
  have := smul_one_inj _ _ (way1.symm.trans way2)
  rw [sq, hφ]
  exact this


theorem pmul_W_P0 {n : ℕ} (P0 P1 : PTerm n) : pmul (pmul P0 P1) P0 = P1 := by
  rw [pmul_comm P0 P1, pmul_assoc, pmul_self, pmul_ident_right]

theorem pmul_W_P1 {n : ℕ} (P0 P1 : PTerm n) : pmul (pmul P0 P1) P1 = P0 := by
  rw [pmul_assoc, pmul_self, pmul_ident_right]

/-- The unit word of the product of anticommuting `P0, P1`, multiplied by
`P0`, yields `P1` with the same phase `φ` as the `P0·P1` product. -/
theorem Xw_mul_A0 {n : ℕ} (P0 P1 : PTerm n) (h : ¬ pcommute P0 P1) :
    ofP (pmul P0 P1) 1 * ofP P0 1 = iphase (pphase P0 P1) • ofP P1 1 := by
  set φ := iphase (pphase P0 P1) with hφ
  set ψ := iphase (pphase (pmul P0 P1) P0) with hψ
  have e0 : ofP (pmul P0 P1) (1:ℂ) * ofP P0 1 = ψ • ofP P1 1 := by
    rw [ofP_mul, one_mul, one_mul, pmul_W_P0, ofP_eq_smul]
  have hmul : ofP P0 (1:ℂ) * ofP P1 1 = ofP (pmul P0 P1) φ := by
    rw [ofP_mul, one_mul, one_mul]
  have way1 : (ofP P0 (1:ℂ) * ofP P1 1) * ofP P0 1 = (φ * ψ) • ofP P1 1 := by
    rw [hmul, ofP_eq_smul (pmul P0 P1) φ, smul_mulPop, e0, smul_smul]
  have way2 : (ofP P0 (1:ℂ) * ofP P1 1) * ofP P0 1 = (-1 : ℂ) • ofP P1 1 := by
    have hac : ofP P1 (1:ℂ) * ofP P0 1 = -(ofP P0 1 * ofP P1 1) := ofP_anticommute P0 P1 h
    calc (ofP P0 (1:ℂ) * ofP P1 1) * ofP P0 1
        = ofP P0 1 * (ofP P1 1 * ofP P0 1) := by rw [mul_assoc]
      _ = -(ofP P0 1 * ofP P0 1 * ofP P1 1) := by rw [hac, mul_neg, mul_assoc]
      _ = (-1 : ℂ) • ofP P1 1 := by
          rw [ofP_sq, one_mul]
          exact (neg_one_smul ℂ (ofP P1 1)).symm
  have hscal : φ * ψ = -1 := smul_ofP_one_inj _ _ _ (way1.symm.trans way2)
  have hsq : φ * φ = -1 := by
    have := iphase_sq_anticommute P0 P1 h
    rwa [sq] at this
  have hψφ : ψ = φ := mul_left_cancel₀ (by rw [hφ]; exact iphase_ne_zero _)
    (hscal.trans hsq.symm)
  rw [e0, hψφ]

theorem Xw_mul_A1 {n : ℕ} (P0 P1 : PTerm n) (h : ¬ pcommute P0 P1) :
    ofP (pmul P0 P1) 1 * ofP P1 1 = (-(iphase (pphase P0 P1))) • ofP P0 1 := by
  set φ := iphase (pphase P0 P1) with hφ
  set ψ := iphase (pphase (pmul P0 P1) P1) with hψ
  have e0 : ofP (pmul P0 P1) (1:ℂ) * ofP P1 1 = ψ • ofP P0 1 := by
    rw [ofP_mul, one_mul, one_mul, pmul_W_P1, ofP_eq_smul]
  have hmul : ofP P0 (1:ℂ) * ofP P1 1 = ofP (pmul P0 P1) φ := by
    rw [ofP_mul, one_mul, one_mul]
  have way1 : (ofP P0 (1:ℂ) * ofP P1 1) * ofP P1 1 = (φ * ψ) • ofP P0 1 := by
    rw [hmul, ofP_eq_smul (pmul P0 P1) φ, smul_mulPop, e0, smul_smul]
  have way2 : (ofP P0 (1:ℂ) * ofP P1 1) * ofP P1 1 = (1 : ℂ) • ofP P0 1 := by
    rw [mul_assoc, ofP_sq, mul_one, one_smul]
  have hscal : φ * ψ = 1 := smul_ofP_one_inj _ _ _ (way1.symm.trans way2)
  have hsq : φ * φ = -1 := by
    have := iphase_sq_anticommute P0 P1 h
    rwa [sq] at this
  have hinv : φ * (-φ) = 1 := by
    rw [mul_neg, hsq, neg_neg]
  have hψφ : ψ = -φ := mul_left_cancel₀ (by rw [hφ]; exact iphase_ne_zero _)
    (hscal.trans hinv.symm)
  rw [e0, hψφ]

/-- For anticommuting words the phase is `±i`. -/
theorem iphase_anticommute_cases {n : ℕ} (P0 P1 : PTerm n) (h : ¬ pcommute P0 P1) :
    iphase (pphase P0 P1) = Complex.I ∨ iphase (pphase P0 P1) = -Complex.I := by
  have hsq := iphase_sq_anticommute P0 P1 h
  have : (iphase (pphase P0 P1) - Complex.I) * (iphase (pphase P0 P1) + Complex.I) = 0 := by
    ring_nf
    rw [Complex.I_sq] at *
    linear_combination hsq
  rcases mul_eq_zero.mp this with h1 | h2
  · exact Or.inl (by linear_combination h1)
  · exact Or.inr (by linear_combination h2)


/-- The sign-normalization of `X_sk`: its recorded coefficient is exactly 1
for a genuine anticommuting pair. -/
theorem wSK_cases {n : ℕ} (P0 P1 : PTerm n) (h : ¬ pcommute P0 P1) :
    wSK P0 P1 = 1 ∨ wSK P0 P1 = -1 := by
  rcases iphase_anticommute_cases P0 P1 h with hI | hI
  · left
    rw [wSK, hI, one_mul, neg_mul, Complex.I_mul_I, neg_neg]
  · right
    rw [wSK, hI, one_mul, neg_I_mul_neg_I]

theorem XskOf_eq {n : ℕ} (P0 P1 : PTerm n) (h : ¬ pcommute P0 P1) :
    XskOf P0 P1 = (pmul P0 P1, 1) := by
  rcases wSK_cases P0 P1 h with hw | hw
  · rw [XskOf, hw]
    norm_num
  · rw [XskOf, hw]
    norm_num


/-- Conjugation of an operator with two anticommuting leading terms by the
rotation about their product, generic angle: coefficient bookkeeping. -/
theorem rotStep_collect {n : ℕ} (P0 P1 : PTerm n) (rest : TermList n) (θ : ℝ)
    (h01 : ¬ pcommute P0 P1)
    (hrest : ∀ tc ∈ rest, pcommute (pmul P0 P1) tc.1) (c0 c1 : ℂ) :
    rotConj (pmul P0 P1, 1) θ (toPop ((P0, c0) :: (P1, c1) :: rest)) =
      (c0 * ((Real.cos θ : ℝ):ℂ) - c1 * Complex.I * ((Real.sin θ:ℝ):ℂ) * iphase (pphase P0 P1))
        • ofP P0 1
      + (c1 * ((Real.cos θ : ℝ):ℂ) + c0 * Complex.I * ((Real.sin θ:ℝ):ℂ) * iphase (pphase P0 P1))
        • ofP P1 1
      + toPop rest := by
  have h10 : scom2 P0 P1 = 1 := scom2_one_of_not_pcommute _ _ h01
  have hW0 : ¬ pcommute (pmul P0 P1) P0 := by
    apply not_pcommute_of_scom2_one
    rw [scom2_pmul_left, scom2_self, scom2_comm P0 P1, h10, zero_add]
  have hW1 : ¬ pcommute (pmul P0 P1) P1 := by
    apply not_pcommute_of_scom2_one
    rw [scom2_pmul_left, scom2_self, h10, add_zero]
  rw [toPop_cons, toPop_cons, rotConj_add, rotConj_add,
    rotConj_anti_term _ P0 c0 θ hW0, rotConj_anti_term _ P1 c1 θ hW1,
    rotConj_toPop_fixed _ θ rest hrest,
    Xw_mul_A0 P0 P1 h01, Xw_mul_A1 P0 P1 h01, smul_smul, smul_smul]
  module


/-- One step of the rotation recursion, semantically: conjugating by the
recorded `(X_sk, theta_sk)` merges the two leading coefficients into
`sqrt(c0² + c1²)` on the target term and leaves the remaining terms alone. -/
theorem rotStep {n : ℕ} (P0 P1 : PTerm n) (c0 c1 : ℝ) (rest : TermList n)
    (h01 : ¬ pcommute P0 P1) (hc0 : c0 ≠ 0)
    (hrest : ∀ tc ∈ rest, pcommute (pmul P0 P1) tc.1) :
    rotConj (XskOf P0 P1) (thetaOf P0 P1 ((c0:ℝ):ℂ) ((c1:ℝ):ℂ))
        (toPop ((P0, ((c0:ℝ):ℂ)) :: (P1, ((c1:ℝ):ℂ)) :: rest))
      = toPop ((P0, ((Real.sqrt (c0^2+c1^2) : ℝ) : ℂ)) :: rest) := by
  have hzero := zero_check_holds c0 c1 hc0
  have hnewC : ((c0:ℝ):ℂ) * ((Real.cos (thetaSK ((c0:ℝ):ℂ) ((c1:ℝ):ℂ)) : ℝ):ℂ)
      + ((c1:ℝ):ℂ) * ((Real.sin (thetaSK ((c0:ℝ):ℂ) ((c1:ℝ):ℂ)) : ℝ):ℂ)
      = ((Real.sqrt (c0^2+c1^2) : ℝ) : ℂ) := by
    exact_mod_cast new_coeff_eq_sqrt c0 c1 hc0
  rw [XskOf_eq P0 P1 h01]
  rcases iphase_anticommute_cases P0 P1 h01 with hφ | hφ
  · have hw : wSK P0 P1 = 1 := by
      rw [wSK, hφ, one_mul, neg_mul, Complex.I_mul_I, neg_neg]
    rw [thetaOf, hw, if_neg (by norm_num : ¬ ((1:ℂ).re < 0))]
    rw [rotStep_collect P0 P1 rest _ h01 hrest, hφ]
    have hA0 : ((c0:ℝ):ℂ) * ((Real.cos (thetaSK ((c0:ℝ):ℂ) ((c1:ℝ):ℂ)) : ℝ):ℂ)
        - ((c1:ℝ):ℂ) * Complex.I *
            ((Real.sin (thetaSK ((c0:ℝ):ℂ) ((c1:ℝ):ℂ)) : ℝ):ℂ) * Complex.I
        = ((Real.sqrt (c0^2+c1^2) : ℝ) : ℂ) := by
      linear_combination hnewC -
        (((c1:ℝ):ℂ) * ((Real.sin (thetaSK ((c0:ℝ):ℂ) ((c1:ℝ):ℂ)) : ℝ):ℂ)) * Complex.I_mul_I
    have hA1 : ((c1:ℝ):ℂ) * ((Real.cos (thetaSK ((c0:ℝ):ℂ) ((c1:ℝ):ℂ)) : ℝ):ℂ)
        + ((c0:ℝ):ℂ) * Complex.I *
            ((Real.sin (thetaSK ((c0:ℝ):ℂ) ((c1:ℝ):ℂ)) : ℝ):ℂ) * Complex.I
        = 0 := by
      linear_combination hzero +
        (((c0:ℝ):ℂ) * ((Real.sin (thetaSK ((c0:ℝ):ℂ) ((c1:ℝ):ℂ)) : ℝ):ℂ)) * Complex.I_mul_I
    rw [hA0, hA1, zero_smul, add_zero, toPop_cons, ← ofP_eq_smul]
  · have hw : wSK P0 P1 = -1 := by
      rw [wSK, hφ, one_mul, neg_I_mul_neg_I]
    rw [thetaOf, hw, if_pos (by norm_num : ((-1:ℂ).re < 0))]
    rw [rotStep_collect P0 P1 rest _ h01 hrest, hφ]
    rw [Real.cos_neg, Real.sin_neg]
    have hA0 : ((c0:ℝ):ℂ) * ((Real.cos (thetaSK ((c0:ℝ):ℂ) ((c1:ℝ):ℂ)) : ℝ):ℂ)
        - ((c1:ℝ):ℂ) * Complex.I *
            ((-Real.sin (thetaSK ((c0:ℝ):ℂ) ((c1:ℝ):ℂ)) : ℝ):ℂ) * (-Complex.I)
        = ((Real.sqrt (c0^2+c1^2) : ℝ) : ℂ) := by
      rw [Complex.ofReal_neg]
      linear_combination hnewC -
        (((c1:ℝ):ℂ) * ((Real.sin (thetaSK ((c0:ℝ):ℂ) ((c1:ℝ):ℂ)) : ℝ):ℂ)) * Complex.I_mul_I
    have hA1 : ((c1:ℝ):ℂ) * ((Real.cos (thetaSK ((c0:ℝ):ℂ) ((c1:ℝ):ℂ)) : ℝ):ℂ)
        + ((c0:ℝ):ℂ) * Complex.I *
            ((-Real.sin (thetaSK ((c0:ℝ):ℂ) ((c1:ℝ):ℂ)) : ℝ):ℂ) * (-Complex.I)
        = 0 := by
      rw [Complex.ofReal_neg]
      linear_combination hzero +
        (((c0:ℝ):ℂ) * ((Real.sin (thetaSK ((c0:ℝ):ℂ) ((c1:ℝ):ℂ)) : ℝ):ℂ)) * Complex.I_mul_I
    rw [hA0, hA1, zero_smul, add_zero, toPop_cons, ← ofP_eq_smul]


/-- A stored operator with real coefficients. -/
def toC {n : ℕ} (l : List (PTerm n × ℝ)) : TermList n :=
  l.map fun tc => (tc.1, ((tc.2 : ℝ) : ℂ))

/-- Sum of squared (real) coefficients. -/
def sumSqR {n : ℕ} (l : List (PTerm n × ℝ)) : ℝ := (l.map fun tc => tc.2 ^ 2).sum

theorem pcommute_pmul_of_both {n : ℕ} (P0 P1 Q : PTerm n)
    (h0 : ¬ pcommute P0 Q) (h1 : ¬ pcommute P1 Q) : pcommute (pmul P0 P1) Q := by
  rw [pcommute_iff_scom2, scom2_pmul_left, scom2_one_of_not_pcommute _ _ h0,
    scom2_one_of_not_pcommute _ _ h1]
  decide

/-- Full correctness of `_recursive_seq_rotations` on a strictly anticommuting
operator with real coefficients whose leading coefficient is nonzero: the
recursion succeeds (the zeroing assertion never fires), every recorded
generator is sign-normalized to coefficient exactly 1, the final operator is
the single target term with coefficient of square `Σ cᵢ²`, and applying the
recorded rotations in order transforms the operator into that single term. -/
theorem recSeq_master {n : ℕ} (rest : List (PTerm n × ℝ)) :
    ∀ (P0 : PTerm n) (c0 : ℝ),
    pairwiseAC (toC ((P0, c0) :: rest)) → c0 ≠ 0 →
    ∃ rots cf,
      recSeqRotations (toC ((P0, c0) :: rest)) = some (rots, [(P0, ((cf:ℝ):ℂ))]) ∧
      cf ^ 2 = c0 ^ 2 + sumSqR rest ∧
      (rest = [] → cf = c0) ∧
      (rest ≠ [] → 0 < cf) ∧
      (∀ r ∈ rots, r.1.2 = 1) ∧
      applySeqRotations rots (toPop (toC ((P0, c0) :: rest))) = ((cf:ℝ):ℂ) • ofP P0 1 := by
  induction rest with
  | nil =>
    intro P0 c0 hAC h0
    refine ⟨[], c0, ?_, by simp [sumSqR], fun _ => rfl, fun h => absurd rfl h, by simp, ?_⟩
    · rw [show toC [(P0, c0)] = [(P0, ((c0:ℝ):ℂ))] from rfl, recSeq_single]
    · rw [applySeqRotations_nil]
      show toPop [(P0, ((c0:ℝ):ℂ))] = _
      rw [toPop_cons, toPop_nil, add_zero, ofP_eq_smul]
  | cons t rest' ih =>
    obtain ⟨P1, c1⟩ := t
    intro P0 c0 hAC h0
    have hACu := hAC
    rw [show toC ((P0, c0) :: (P1, c1) :: rest')
        = (P0, ((c0:ℝ):ℂ)) :: (P1, ((c1:ℝ):ℂ)) :: toC rest' from rfl] at hACu
    rw [pairwiseAC, List.pairwise_cons] at hACu
    obtain ⟨hhead, htail⟩ := hACu
    rw [List.pairwise_cons] at htail
    obtain ⟨hhead1, htail1⟩ := htail
    have h01 : ¬ pcommute P0 P1 :=
      hhead (P1, ((c1:ℝ):ℂ)) (List.mem_cons_self _ _)
    have hrest0 : ∀ tc ∈ toC rest', ¬ pcommute P0 tc.1 := fun tc htc =>
      hhead tc (List.mem_cons_of_mem _ htc)
    have hrest1 : ∀ tc ∈ toC rest', ¬ pcommute P1 tc.1 := fun tc htc => hhead1 tc htc
    have hrestW : ∀ tc ∈ toC rest', pcommute (pmul P0 P1) tc.1 := fun tc htc =>
      pcommute_pmul_of_both P0 P1 tc.1 (hrest0 tc htc) (hrest1 tc htc)
    set c0' := Real.sqrt (c0^2 + c1^2) with hc0'def
    have hSpos : (0:ℝ) < c0^2 + c1^2 := by positivity
    have hc0'pos : 0 < c0' := Real.sqrt_pos.mpr hSpos
    have hAC' : pairwiseAC (toC ((P0, c0') :: rest')) := by
      rw [show toC ((P0, c0') :: rest') = (P0, ((c0':ℝ):ℂ)) :: toC rest' from rfl]
      rw [pairwiseAC, List.pairwise_cons]
      exact ⟨fun tc htc => hrest0 tc htc, htail1⟩
    obtain ⟨rots', cf, heq, hcf, hnil', hpos', hrot', hsem⟩ :=
      ih P0 c0' hAC' (ne_of_gt hc0'pos)
    refine ⟨(XskOf P0 P1, thetaOf P0 P1 ((c0:ℝ):ℂ) ((c1:ℝ):ℂ)) :: rots', cf, ?_, ?_, ?_, ?_, ?_, ?_⟩
    · rw [show toC ((P0, c0) :: (P1, c1) :: rest')
          = (P0, ((c0:ℝ):ℂ)) :: (P1, ((c1:ℝ):ℂ)) :: toC rest' from rfl]
      rw [recSeqRotations]
      rw [if_pos (zero_check_holds c0 c1 h0)]
      rw [csqrt_sq_add_sq c0 c1]
      rw [show ((P0, ((Real.sqrt (c0^2+c1^2) :ℝ):ℂ)) :: toC rest')
          = toC ((P0, c0') :: rest') from rfl]
      rw [heq]
    · rw [hcf, hc0'def, Real.sq_sqrt (le_of_lt hSpos)]
      show c0^2 + c1^2 + sumSqR rest' = _
      simp [sumSqR]
      ring
    · intro h
      exact absurd h (List.cons_ne_nil _ _)
    · intro _
      rcases eq_or_ne rest' [] with h' | h'
      · rw [hnil' h']
        exact hc0'pos
      · exact hpos' h'
    · intro r hr
      rcases List.mem_cons.mp hr with h' | h'
      · rw [h']
        rw [show (XskOf P0 P1, thetaOf P0 P1 ((c0:ℝ):ℂ) ((c1:ℝ):ℂ)).1 = XskOf P0 P1 from rfl]
        rw [XskOf_eq P0 P1 h01]
      · exact hrot' r h'
    · rw [show toC ((P0, c0) :: (P1, c1) :: rest')
          = (P0, ((c0:ℝ):ℂ)) :: (P1, ((c1:ℝ):ℂ)) :: toC rest' from rfl]
      rw [applySeqRotations_cons]
      show applySeqRotations rots' (rotConj (XskOf P0 P1)
        (thetaOf P0 P1 ((c0:ℝ):ℂ) ((c1:ℝ):ℂ))
        (toPop ((P0, ((c0:ℝ):ℂ)) :: (P1, ((c1:ℝ):ℂ)) :: toC rest'))) = _
      rw [rotStep P0 P1 c0 c1 (toC rest') h01 h0 hrestW]
      rw [show ((P0, ((Real.sqrt (c0^2+c1^2) :ℝ):ℂ)) :: toC rest')
          = toC ((P0, c0') :: rest') from rfl]
      exact hsem

/-! ## Pipeline bookkeeping: normalization, swap, permutation invariance -/

theorem sumIm_eq_zero {n : ℕ} (l : TermList n) (h : ∀ tc ∈ l, tc.2.im = 0) :
    sumIm l = 0 := by
  unfold sumIm
  apply List.sum_eq_zero
  intro x hx
  rcases List.mem_map.mp hx with ⟨tc, htc, rfl⟩
  exact h tc htc

theorem normC_nonneg {n : ℕ} (l : TermList n) : 0 ≤ normC l := Real.sqrt_nonneg _

theorem normC_sq {n : ℕ} (l : TermList n) :
    (normC l)^2 = (l.map fun tc => Complex.normSq tc.2).sum := by
  unfold normC
  rw [Real.sq_sqrt]
  apply List.sum_nonneg
  intro x hx
  rcases List.mem_map.mp hx with ⟨tc, _, rfl⟩
  exact Complex.normSq_nonneg _

theorem list_le_sum_of_mem : ∀ (l : List ℝ), (∀ x ∈ l, 0 ≤ x) → ∀ x ∈ l, x ≤ l.sum
  | [] => by
    intro _ x hx
    cases hx
  | a :: t => by
    intro h x hx
    rw [List.sum_cons]
    rcases List.mem_cons.mp hx with rfl | hx2
    · have h1 : 0 ≤ t.sum := List.sum_nonneg fun y hy => h y (List.mem_cons_of_mem _ hy)
      linarith
    · have h0 : 0 ≤ a := h a (List.mem_cons_self _ _)
      have h2 := list_le_sum_of_mem t (fun y hy => h y (List.mem_cons_of_mem _ hy)) x hx2
      linarith

theorem normC_pos {n : ℕ} (l : TermList n) (tc : PTerm n × ℂ) (htc : tc ∈ l)
    (hz : tc.2 ≠ 0) : 0 < normC l := by
  apply Real.sqrt_pos.mpr
  have h1 : Complex.normSq tc.2 ≤ (l.map fun tc => Complex.normSq tc.2).sum := by
    apply list_le_sum_of_mem
    · intro x hx
      rcases List.mem_map.mp hx with ⟨tc2, _, rfl⟩
      exact Complex.normSq_nonneg _
    · exact List.mem_map.mpr ⟨tc, htc, rfl⟩
  have h2 : 0 < Complex.normSq tc.2 := Complex.normSq_pos.mpr hz
  linarith

theorem toPop_scale {n : ℕ} (l : TermList n) (γ : ℝ) (h : (γ:ℝ) ≠ 0) :
    ((γ:ℝ):ℂ) • toPop (scaleCoeffs l γ) = toPop l := by
  induction l with
  | nil => simp [scaleCoeffs]
  | cons t rest ih =>
    obtain ⟨P, c⟩ := t
    rw [show scaleCoeffs ((P, c) :: rest) γ = (P, c / (γ:ℂ)) :: scaleCoeffs rest γ from rfl]
    rw [toPop_cons, toPop_cons, smul_add, ih]
    congr 1
    have hγ : ((γ:ℝ):ℂ) ≠ 0 := Complex.ofReal_ne_zero.mpr h
    rw [ofP_eq_smul P (c / (γ:ℂ)), smul_smul, ← ofP_eq_smul]
    field_simp

/-- Scaling preserves term-level structure. -/
theorem scaleCoeffs_map_fst {n : ℕ} (l : TermList n) (γ : ℝ) :
    (scaleCoeffs l γ).map Prod.fst = l.map Prod.fst := by
  unfold scaleCoeffs
  rw [List.map_map]
  rfl

theorem pairwiseAC_iff_fst {n : ℕ} (l : TermList n) :
    pairwiseAC l ↔ (l.map Prod.fst).Pairwise (fun P Q => ¬ pcommute P Q) := by
  rw [pairwiseAC, List.pairwise_map]

theorem pairwiseAC_scale {n : ℕ} (l : TermList n) (γ : ℝ) (h : pairwiseAC l) :
    pairwiseAC (scaleCoeffs l γ) := by
  rw [pairwiseAC_iff_fst, scaleCoeffs_map_fst, ← pairwiseAC_iff_fst]
  exact h

theorem pairwiseAC_perm {n : ℕ} (l l' : TermList n) (hp : List.Perm l l')
    (h : pairwiseAC l) : pairwiseAC l' := by
  rw [pairwiseAC] at h ⊢
  exact (List.Perm.pairwise_iff (fun hab hc => hab (pcommute_symm _ _ hc)) hp).mp h

theorem toPop_perm {n : ℕ} (l l' : TermList n) (hp : List.Perm l l') :
    toPop l = toPop l' := by
  induction hp with
  | nil => rfl
  | cons x _ ih =>
    obtain ⟨P, c⟩ := x
    rw [toPop_cons, toPop_cons, ih]
  | swap x y _ =>
    obtain ⟨P, c⟩ := x
    obtain ⟨Q, d⟩ := y
    rw [toPop_cons, toPop_cons, toPop_cons, toPop_cons]
    abel
  | trans _ _ ih1 ih2 => rw [ih1, ih2]

/-- `swapTop` on a valid index is a permutation of the list. -/
theorem aux_swap_perm {α : Type} (d : α) :
    ∀ (t : List α) (k : ℕ) (a : α), k < t.length →
      List.Perm (t.getD k d :: t.set k a) (a :: t) := by
  intro t
  induction t with
  | nil =>
    intro k a hk
    exact absurd hk (by simp)
  | cons b t2 ih =>
    intro k a hk
    cases k with
    | zero =>
      simp only [List.getD_cons_zero, List.set_cons_zero]
      exact List.Perm.swap a b t2
    | succ k =>
      simp only [List.getD_cons_succ, List.set_cons_succ]
      exact ((List.Perm.swap b (t2.getD k d) _).trans
        (((ih k a (by simpa using hk)).cons b).trans (List.Perm.swap a b t2)))

theorem swapTop_perm {n : ℕ} (l : TermList n) (s : ℕ) (hs : s < l.length) :
    List.Perm (swapTop l s) l := by
  cases l with
  | nil => exact absurd hs (by simp)
  | cons a t =>
    cases s with
    | zero =>
      rw [swapTop]
      simp only [List.getD_cons_zero, List.set_cons_zero]
      exact List.Perm.refl _
    | succ k =>
      rw [swapTop]
      simp only [List.getD_cons_zero, List.getD_cons_succ, List.set_cons_zero,
        List.set_cons_succ]
      exact aux_swap_perm _ t k a (by simpa using hs)

theorem applySeq_smul {n : ℕ} (rots : List (Rotation n)) (c : ℂ) (f : Pop n) :
    applySeqRotations rots (c • f) = c • applySeqRotations rots f := by
  induction rots generalizing f with
  | nil => rfl
  | cons r rest ih =>
    rw [applySeqRotations_cons, applySeqRotations_cons, rotConj_smul, ih]

theorem toC_map_re {n : ℕ} (l : TermList n) (h : ∀ tc ∈ l, tc.2.im = 0) :
    toC (l.map fun tc => (tc.1, tc.2.re)) = l := by
  unfold toC
  rw [List.map_map]
  conv_rhs => rw [← List.map_id l]
  apply List.map_congr_left
  intro tc htc
  show (tc.1, ((tc.2.re : ℝ) : ℂ)) = tc
  have : ((tc.2.re : ℝ) : ℂ) = tc.2 := by
    apply Complex.ext
    · simp
    · simp [h tc htc]
  rw [this]

theorem sumSqR_map_re_eq_normC_sq {n : ℕ} (l : TermList n) (h : ∀ tc ∈ l, tc.2.im = 0) :
    sumSqR (l.map fun tc => (tc.1, tc.2.re)) = (normC l)^2 := by
  rw [normC_sq, sumSqR, List.map_map]
  congr 1
  apply List.map_congr_left
  intro tc htc
  show tc.2.re ^ 2 = Complex.normSq tc.2
  rw [Complex.normSq_apply, h tc htc]
  ring

/-! ## Pipeline soundness of the sequence-of-rotations branch -/

theorem sumSqR_cons {n : ℕ} (P : PTerm n) (c : ℝ) (l : List (PTerm n × ℝ)) :
    sumSqR ((P, c) :: l) = c ^ 2 + sumSqR l := by
  simp [sumSqR]

theorem normC_perm {n : ℕ} (l l' : TermList n) (hp : List.Perm l l') :
    normC l = normC l' := by
  unfold normC
  congr 1
  exact (hp.map _).sum_eq

theorem realCoeffs_scale {n : ℕ} (l : TermList n) (γ : ℝ)
    (h : ∀ tc ∈ l, tc.2.im = 0) : ∀ tc ∈ scaleCoeffs l γ, tc.2.im = 0 := by
  intro tc htc
  rcases List.mem_map.mp htc with ⟨tc0, h0, rfl⟩
  show (tc0.2 / ((γ:ℝ):ℂ)).im = 0
  rw [div_eq_mul_inv, ← Complex.ofReal_inv, Complex.mul_im, Complex.ofReal_im,
    Complex.ofReal_re, h tc0 h0]
  ring

theorem map_sum_div {α : Type} (l : List α) (f : α → ℝ) (d : ℝ) :
    (l.map fun x => f x / d).sum = (l.map f).sum / d := by
  induction l with
  | nil => simp
  | cons a t ih =>
    rw [List.map_cons, List.map_cons, List.sum_cons, List.sum_cons, ih, add_div]

theorem normC_scale {n : ℕ} (l : TermList n) (γ : ℝ) (hγ : 0 < γ) :
    normC (scaleCoeffs l γ) = normC l / γ := by
  unfold normC scaleCoeffs
  rw [List.map_map]
  have hmap : ((fun tc => Complex.normSq tc.2) ∘ fun tc : PTerm n × ℂ =>
      (tc.1, tc.2 / ((γ:ℝ):ℂ))) = fun tc => Complex.normSq tc.2 / γ ^ 2 := by
    funext tc
    show Complex.normSq (tc.2 / ((γ:ℝ):ℂ)) = Complex.normSq tc.2 / γ ^ 2
    rw [Complex.normSq_div, Complex.normSq_ofReal]
    ring_nf
  rw [hmap, map_sum_div l (fun tc => Complex.normSq tc.2) (γ ^ 2),
    Real.sqrt_div ?hpos, Real.sqrt_sq hγ.le]
  case hpos =>
    apply List.sum_nonneg
    intro x hx
    rcases List.mem_map.mp hx with ⟨tc, _, rfl⟩
    exact Complex.normSq_nonneg _

theorem scaleCoeffs_length {n : ℕ} (l : TermList n) (γ : ℝ) :
    (scaleCoeffs l γ).length = l.length := List.length_map _ _

theorem swapTop_length {n : ℕ} (l : TermList n) (s : ℕ) :
    (swapTop l s).length = l.length := by
  rw [swapTop, List.length_set, List.length_set]

theorem getD_map_coeffs {n : ℕ} (l : TermList n) (γ : ℝ) (i : ℕ)
    (h : i < l.length) :
    (scaleCoeffs l γ).getD i (identP n, 0)
      = ((l.getD i (identP n, 0)).1, (l.getD i (identP n, 0)).2 / ((γ:ℝ):ℂ)) := by
  unfold scaleCoeffs
  rw [List.getD_eq_getElem _ _ (by simpa using h), List.getD_eq_getElem _ _ h,
    List.getElem_map]

theorem getD_mem_of_lt {α : Type} (l : List α) (d : α) (i : ℕ) (h : i < l.length) :
    l.getD i d ∈ l := by
  rw [List.getD_eq_getElem _ _ h]
  exact List.getElem_mem _

theorem swapTop_getD_zero {n : ℕ} (l : TermList n) (s : ℕ) (hs : s < l.length)
    (h0 : s ≠ 0) :
    (swapTop l s).getD 0 (identP n, 0) = l.getD s (identP n, 0) := by
  have hl0 : 0 < l.length := Nat.pos_of_ne_zero (by
    intro hz
    rw [hz] at hs
    exact Nat.not_lt_zero s hs)
  rw [swapTop, List.getD_eq_getElem _ _ (by simpa using hl0)]
  rw [List.getElem_set_ne h0 (by simpa using hl0)]
  rw [List.getElem_set_self (by simpa using hl0)]

/-- Soundness of the rotation recursion on a normalized operator: it returns
the leading term with coefficient exactly 1, all recorded generators have
coefficient 1, and applying the recorded rotations maps the operator onto its
leading unit Pauli word. -/
theorem recSeq_sound_normed {n : ℕ} (ac : TermList n)
    (hre : ∀ tc ∈ ac, tc.2.im = 0) (hAC : pairwiseAC ac) (hlen : 2 ≤ ac.length)
    (h0 : (ac.getD 0 (identP n, 0)).2 ≠ 0) (hnorm : normC ac = 1) :
    ∃ rots, recSeqRotations ac
        = some (rots, [((ac.getD 0 (identP n, 0)).1, 1)]) ∧
      (∀ r ∈ rots, r.1.2 = 1) ∧
      applySeqRotations rots (toPop ac) = ofP (ac.getD 0 (identP n, 0)).1 1 := by
  cases ac with
  | nil => exact absurd hlen (by simp)
  | cons hd tl =>
    rw [List.getD_cons_zero] at h0 ⊢
    have hmap : toC ((hd :: tl).map fun tc => (tc.1, tc.2.re)) = hd :: tl :=
      toC_map_re (hd :: tl) hre
    have hre0 : hd.2.re ≠ 0 := by
      intro hz
      apply h0
      apply Complex.ext
      · exact hz
      · exact hre hd (List.mem_cons_self _ _)
    have hACr : pairwiseAC (toC ((hd.1, hd.2.re) :: tl.map fun tc => (tc.1, tc.2.re))) := by
      rw [show ((hd.1, hd.2.re) :: tl.map fun tc : PTerm n × ℂ => (tc.1, tc.2.re))
          = (hd :: tl).map fun tc => (tc.1, tc.2.re) from rfl, hmap]
      exact hAC
    obtain ⟨rots, cf, heq, hcf, _, hpos, hrot, hsem⟩ :=
      recSeq_master (tl.map fun tc => (tc.1, tc.2.re)) hd.1 hd.2.re hACr hre0
    have htl : tl ≠ [] := by
      intro hz
      rw [hz] at hlen
      simp at hlen
    have hcf1 : cf = 1 := by
      have hpos' : 0 < cf := hpos (by
        intro hz
        exact htl (List.map_eq_nil_iff.mp hz))
      have hsq : cf ^ 2 = 1 := by
        rw [hcf, ← sumSqR_cons hd.1 hd.2.re]
        rw [show ((hd.1, hd.2.re) :: tl.map fun tc : PTerm n × ℂ => (tc.1, tc.2.re))
            = (hd :: tl).map fun tc => (tc.1, tc.2.re) from rfl]
        rw [sumSqR_map_re_eq_normC_sq (hd :: tl) hre, hnorm]
        norm_num
      have hfac : (cf - 1) * (cf + 1) = 0 := by nlinarith
      rcases mul_eq_zero.mp hfac with h' | h'
      · linarith
      · linarith
    rw [show toC ((hd.1, hd.2.re) :: tl.map fun tc : PTerm n × ℂ => (tc.1, tc.2.re))
        = toC ((hd :: tl).map fun tc => (tc.1, tc.2.re)) from rfl, hmap] at heq hsem
    rw [hcf1] at heq hsem
    rw [Complex.ofReal_one] at heq hsem
    rw [one_smul] at hsem
    exact ⟨rots, heq, hrot, hsem⟩

/-- Soundness of the sequence-of-rotations branch of `unitary_partitioning`:
on a multi-term operator with real coefficients, a strictly anticommuting term
set and a selected target with nonzero coefficient, the call succeeds, returns
`Ps` as the unit target word, records only sign-normalized generators, and the
recorded rotations conjugate the stored operator to `gamma_l * Ps`. -/
theorem up_seq_sound {n : ℕ} (st : ACState n) (sIdx : Option ℕ) (sInd : ℕ)
    (hsel : (match sIdx with | some i => i | none => leastDenseIndex st.op) = sInd)
    (hlen : 2 ≤ st.op.length) (hre : ∀ tc ∈ st.op, tc.2.im = 0)
    (hAC : pairwiseAC st.op) (hs : sInd < st.op.length)
    (htgt : (st.op.getD sInd (identP n, 0)).2 ≠ 0) :
    ∃ rots acF,
      unitaryPartitioning st sIdx "seq_rot" =
        some (⟨[((st.op.getD sInd (identP n, 0)).1, 1)], Recipe.seqRec rots,
          normC st.op, acF⟩, { st with X_sk_rotations := rots }) ∧
      (∀ r ∈ rots, r.1.2 = 1) ∧
      applySeqRotations rots (toPop st.op)
        = ((normC st.op : ℝ) : ℂ) • ofP (st.op.getD sInd (identP n, 0)).1 1 := by
  have hγpos : 0 < normC st.op :=
    normC_pos st.op _ (getD_mem_of_lt st.op (identP n, 0) sInd hs) htgt
  have hγne : normC st.op ≠ 0 := ne_of_gt hγpos
  set l := st.op with hldef
  set γ := normC l with hγdef
  set acN := scaleCoeffs l γ with hacNdef
  have hlenN : acN.length = l.length := scaleCoeffs_length l γ
  have hreN : ∀ tc ∈ acN, tc.2.im = 0 := realCoeffs_scale l γ hre
  have hACN : pairwiseAC acN := pairwiseAC_scale l γ hAC
  have hnormN : normC acN = 1 := by
    rw [hacNdef, normC_scale l γ hγpos, ← hγdef, div_self hγne]
  have hheadN : acN.getD sInd (identP n, 0)
      = ((l.getD sInd (identP n, 0)).1, (l.getD sInd (identP n, 0)).2 / ((γ:ℝ):ℂ)) :=
    getD_map_coeffs l γ sInd hs
  have hγCne : ((γ:ℝ):ℂ) ≠ 0 := Complex.ofReal_ne_zero.mpr hγne
  have hcoefN : (acN.getD sInd (identP n, 0)).2 ≠ 0 := by
    rw [hheadN]
    exact div_ne_zero htgt hγCne
  -- the input actually handed to the dispatch, depending on whether a swap occurs
  have hmain : ∀ acInput : TermList n, List.Perm acInput acN →
      acInput.getD 0 (identP n, 0) = acN.getD sInd (identP n, 0) →
      ∃ rots, recSeqRotations acInput
          = some (rots, [((l.getD sInd (identP n, 0)).1, 1)]) ∧
        (∀ r ∈ rots, r.1.2 = 1) ∧
        applySeqRotations rots (toPop l)
          = ((γ:ℝ):ℂ) • ofP (l.getD sInd (identP n, 0)).1 1 := by
    intro acInput hperm hhead
    have hlenI : 2 ≤ acInput.length := by
      rw [hperm.length_eq, hlenN]
      exact hlen
    have hreI : ∀ tc ∈ acInput, tc.2.im = 0 := fun tc htc =>
      hreN tc (hperm.mem_iff.mp htc)
    have hACI : pairwiseAC acInput := pairwiseAC_perm acN acInput hperm.symm hACN
    have hnormI : normC acInput = 1 := by
      rw [normC_perm acInput acN hperm, hnormN]
    have hcoefI : (acInput.getD 0 (identP n, 0)).2 ≠ 0 := by
      rw [hhead]
      exact hcoefN
    obtain ⟨rots, heq, hrot, hsem⟩ :=
      recSeq_sound_normed acInput hreI hACI hlenI hcoefI hnormI
    rw [hhead, hheadN] at heq hsem
    refine ⟨rots, heq, hrot, ?_⟩
    have htoI : toPop acInput = toPop acN := toPop_perm acInput acN hperm
    have hscale : ((γ:ℝ):ℂ) • toPop acN = toPop l := toPop_scale l γ hγne
    calc applySeqRotations rots (toPop l)
        = applySeqRotations rots (((γ:ℝ):ℂ) • toPop acInput) := by rw [htoI, hscale]
      _ = ((γ:ℝ):ℂ) • applySeqRotations rots (toPop acInput) := applySeq_smul _ _ _
      _ = ((γ:ℝ):ℂ) • ofP (l.getD sInd (identP n, 0)).1 1 := by rw [hsem]
  have hne1 : ¬ (l.length = 1) := by omega
  have hsum : ¬ (sumIm l ≠ 0) := by
    rw [sumIm_eq_zero l hre]
    exact not_not_intro rfl
  by_cases hz : sInd = 0
  · subst hz
    obtain ⟨rots, heq, hrot, hsem⟩ := hmain acN (List.Perm.refl _) rfl
    refine ⟨rots, acN, ?_, hrot, hsem⟩
    unfold unitaryPartitioning
    dsimp only
    rw [if_neg hne1, if_neg hsum]
    rcases sIdx with _ | i
    · simp only at hsel
      rw [← hldef, hsel]
      rw [if_neg (by omega : ¬ ((0:ℕ) ≠ 0))]
      unfold upDispatch
      rw [if_pos rfl, ← hγdef, ← hacNdef, heq]
    · simp only at hsel
      subst hsel
      rw [if_neg (by omega : ¬ ((0:ℕ) ≠ 0))]
      unfold upDispatch
      rw [if_pos rfl, ← hγdef, ← hacNdef, heq]
  · have hsN : sInd < acN.length := by
      rw [hlenN]
      exact hs
    have hpermS : List.Perm (swapTop acN sInd) acN := swapTop_perm acN sInd hsN
    have hheadS : (swapTop acN sInd).getD 0 (identP n, 0) = acN.getD sInd (identP n, 0) :=
      swapTop_getD_zero acN sInd hsN hz
    obtain ⟨rots, heq, hrot, hsem⟩ := hmain (swapTop acN sInd) hpermS hheadS
    refine ⟨rots, swapTop acN sInd, ?_, hrot, hsem⟩
    unfold unitaryPartitioning
    dsimp only
    rw [if_neg hne1, if_neg hsum]
    have hACS : pairwiseAC (swapTop acN sInd) :=
      pairwiseAC_perm acN _ hpermS.symm hACN
    rcases sIdx with _ | i
    · simp only at hsel
      rw [← hldef, hsel, if_pos hz, ← hγdef, ← hacNdef, if_pos hsN, if_pos hACS]
      unfold upDispatch
      rw [if_pos rfl, heq]
    · simp only at hsel
      subst hsel
      rw [if_pos hz, ← hγdef, ← hacNdef, if_pos hsN, if_pos hACS]
      unfold upDispatch
      rw [if_pos rfl, heq]

/-! ## C9: the rotation recipe -/

/-- The 2-term anticommuting operator `{X: 0, Z: 1}`: a valid clique whose
default target term has coefficient zero. -/
def acXZ0 : TermList 1 := [(pX, 0), (pZ, 1)]

theorem normC_acXZ0 : normC acXZ0 = 1 := by
  simp [acXZ0, normC, Complex.normSq_zero, Complex.normSq_one]

theorem scale_acXZ0 : scaleCoeffs acXZ0 (normC acXZ0) = acXZ0 := by
  rw [normC_acXZ0]
  simp [scaleCoeffs, acXZ0]

theorem thetaSK_zero_one : thetaSK 0 1 = 0 := by
  rw [thetaSK]
  simp [Real.arctan_zero]

theorem recSeq_acXZ0 : recSeqRotations acXZ0 = none := by
  rw [show acXZ0 = (pX, (0:ℂ)) :: (pZ, (1:ℂ)) :: [] from rfl]
  rw [recSeqRotations, thetaSK_zero_one]
  rw [if_neg ?hne]
  case hne =>
    simp [Real.cos_zero, Real.sin_zero]

/-- C9 (corrected), counterexample: `{X: 0, Z: 1}` is an anticommuting
operator with two terms and real coefficients, yet the sequence-of-rotations
call aborts — with target coefficient `β_s = 0` the angle comes out as
`arctan(1/0)` and the rotated partner coefficient is `1`, not `0`, so the
'term not zeroing out' assertion fires.  The claim's "the assertion never
fires" is therefore false as stated for every such operator. -/
theorem C9_counterexample_zero_target :
    pairwiseAC acXZ0 ∧ (∀ tc ∈ acXZ0, tc.2.im = 0) ∧ acXZ0.length = 2 ∧
    unitaryPartitioning ⟨acXZ0, [], none⟩ none "seq_rot" = none := by
  refine ⟨by decide, ?_, rfl, ?_⟩
  · intro tc htc
    rcases List.mem_cons.mp htc with rfl | htc2
    · simp
    · rcases List.mem_cons.mp htc2 with rfl | htc3
      · simp
      · cases htc3
  · unfold unitaryPartitioning
    dsimp only
    rw [if_neg (by decide : ¬ (List.length acXZ0 = 1))]
    rw [if_neg (by simp [sumIm, acXZ0] : ¬ (sumIm acXZ0 ≠ 0))]
    rw [scale_acXZ0, normC_acXZ0]
    rw [if_neg (by decide : ¬ (leastDenseIndex acXZ0 ≠ 0))]
    unfold upDispatch
    rw [if_pos rfl, recSeq_acXZ0]

/-- C9 (corrected): on a strictly anticommuting operator with real
coefficients whose leading (target) coefficient is nonzero, the recursive
sequence-of-rotations derivation behaves exactly as claimed: the recursion
succeeds with the 'term not zeroing out' assertion never firing, each
recorded generator `X_sk = P_s * (-i P_k)` is sign-normalized to coefficient
exactly `1`, the recursion terminates in the single target term whose
coefficient squares to `Σ cᵢ²` (the accumulated `√(β_s²+β_k²)` updates), the
zeroing identity `β_k cos θ - β_s sin θ = 0` holds for the derived angle
against any partner coefficient, and for a positive leading coefficient the
angle is exactly `arctan(β_k/β_s)` (no π shift). -/
theorem C9_amended_recursive_seq_rotations {n : ℕ} (rest : List (PTerm n × ℝ))
    (P0 : PTerm n) (c0 : ℝ) (hAC : pairwiseAC (toC ((P0, c0) :: rest)))
    (h0 : c0 ≠ 0) :
    (∃ rots cf,
      recSeqRotations (toC ((P0, c0) :: rest)) = some (rots, [(P0, ((cf:ℝ):ℂ))]) ∧
      cf ^ 2 = c0 ^ 2 + sumSqR rest ∧
      (∀ r ∈ rots, r.1.2 = 1)) ∧
    (∀ c1 : ℝ, ((c1:ℝ):ℂ) * ((Real.cos (thetaSK ((c0:ℝ):ℂ) ((c1:ℝ):ℂ)) : ℝ) : ℂ)
        - ((c0:ℝ):ℂ) * ((Real.sin (thetaSK ((c0:ℝ):ℂ) ((c1:ℝ):ℂ)) : ℝ) : ℂ) = 0) ∧
    (0 < c0 → ∀ c1 : ℝ, thetaSK ((c0:ℝ):ℂ) ((c1:ℝ):ℂ) = Real.arctan (c1 / c0)) := by
  refine ⟨?_, fun c1 => zero_check_holds c0 c1 h0, fun hpos c1 => ?_⟩
  · obtain ⟨rots, cf, heq, hcf, _, _, hrot, _⟩ := recSeq_master rest P0 c0 hAC h0
    exact ⟨rots, cf, heq, hcf, hrot⟩
  · rw [thetaSK, show ((c1:ℂ)/(c0:ℂ)) = ((c1/c0 : ℝ) : ℂ) by push_cast; ring,
      Complex.ofReal_re, Complex.ofReal_re, if_neg (not_lt.mpr hpos.le), add_zero]

/-- Witness: the spec's Scenario 1 clique `{X: 3, Z: 4}` — the recursion
succeeds, the final coefficient squares to `25` (γ = 5), every recorded
generator has coefficient 1, and the derived angle is `arctan(4/3)`. -/
theorem C9_amended_witness :
    (∃ rots cf,
      recSeqRotations (toC [(pX, (3:ℝ)), (pZ, 4)]) = some (rots, [(pX, ((cf:ℝ):ℂ))]) ∧
      cf ^ 2 = 25 ∧ (∀ r ∈ rots, r.1.2 = 1)) ∧
    thetaSK ((3:ℝ):ℂ) ((4:ℝ):ℂ) = Real.arctan (4 / 3) := by
  obtain ⟨⟨rots, cf, h1, h2, h3⟩, _, hth⟩ :=
    C9_amended_recursive_seq_rotations [(pZ, (4:ℝ))] pX 3 (by decide) (by norm_num)
  refine ⟨⟨rots, cf, h1, ?_, h3⟩, hth (by norm_num) 4⟩
  rw [h2]
  norm_num [sumSqR]

/-! ## Algebra of anticommuting sums: squares, products with the target word -/

theorem ofP_neg {n : ℕ} (P : PTerm n) (c : ℂ) : ofP P (-c) = -(ofP P c) := by
  funext R
  show (if R = P then -c else 0) = -(if R = P then c else 0)
  by_cases h : R = P <;> simp [h]

theorem daggerPop_smul {n : ℕ} (c : ℂ) (f : Pop n) :
    daggerPop (c • f) = (starRingEnd ℂ) c • daggerPop f := by
  funext R
  show (starRingEnd ℂ) (c * f R) = (starRingEnd ℂ) c * (starRingEnd ℂ) (f R)
  exact map_mul _ _ _

theorem daggerPop_zero {n : ℕ} : daggerPop (0 : Pop n) = 0 := by
  funext R
  show (starRingEnd ℂ) 0 = 0
  exact map_zero _

/-- A single term strictly anticommuting with every term of a sum
anticommutes with the whole sum. -/
theorem ofP_mul_toPop_anti {n : ℕ} (P : PTerm n) (c : ℂ) (l : TermList n)
    (h : ∀ tc ∈ l, ¬ pcommute P tc.1) :
    ofP P c * toPop l = -(toPop l * ofP P c) := by
  induction l with
  | nil => simp
  | cons t T ih =>
    obtain ⟨Q, d⟩ := t
    have hq : ¬ pcommute P Q := h (Q, d) (List.mem_cons_self _ _)
    have e3 : ofP P c * ofP Q d = -(ofP Q d * ofP P c) := by
      rw [smul_ofP_mul P Q c d, smul_ofP_mul Q P d c, ofP_anticommute P Q hq]
      module
    rw [toPop_cons, mul_add, add_mul, e3,
      ih fun tc htc => h tc (List.mem_cons_of_mem _ htc)]
    abel

theorem ofP_self_sq {n : ℕ} (P : PTerm n) (c : ℂ) :
    ofP P c * ofP P c = (c ^ 2) • 1 := by
  rw [smul_ofP_mul, ofP_sq, sq]

/-- The square of a strictly anticommuting sum is the scalar `Σ cᵢ²`. -/
theorem toPop_sq_AC {n : ℕ} (l : TermList n) (hAC : pairwiseAC l) :
    toPop l * toPop l = ((l.map fun tc => tc.2 ^ 2).sum) • 1 := by
  induction l with
  | nil => simp
  | cons t T ih =>
    obtain ⟨Q, d⟩ := t
    rw [pairwiseAC, List.pairwise_cons] at hAC
    obtain ⟨hhead, htail⟩ := hAC
    have hanti : ofP Q d * toPop T = -(toPop T * ofP Q d) :=
      ofP_mul_toPop_anti Q d T fun tc htc => hhead tc htc
    rw [toPop_cons, add_mul, mul_add, mul_add, ofP_self_sq, hanti, ih htail,
      List.map_cons, List.sum_cons]
    module

/-- For real coefficients the complex sum of squares is the squared norm. -/
theorem sumSq_real {n : ℕ} (l : TermList n) (h : ∀ tc ∈ l, tc.2.im = 0) :
    (l.map fun tc => tc.2 ^ 2).sum = ((normC l ^ 2 : ℝ) : ℂ) := by
  rw [normC_sq]
  induction l with
  | nil => simp
  | cons t T ih =>
    have ht : t.2 ^ 2 = ((Complex.normSq t.2 : ℝ) : ℂ) := by
      have him := h t (List.mem_cons_self _ _)
      apply Complex.ext
      · simp [pow_two, Complex.mul_re, him, Complex.normSq_apply]
      · simp [pow_two, Complex.mul_im, him]
    rw [List.map_cons, List.sum_cons, List.map_cons, List.sum_cons, ht,
      ih fun tc htc => h tc (List.mem_cons_of_mem _ htc)]
    push_cast
    ring

/-- The term list built by `generate_LCU_operator`'s residual loop denotes the
scaled product of the residual with the target word. -/
theorem toPop_mulList_right {n : ℕ} (l : TermList n) (Ps : PTerm n) (k : ℂ) :
    toPop (l.map fun tc => (pmul tc.1 Ps, tc.2 * 1 * iphase (pphase tc.1 Ps) * k))
      = k • (toPop l * ofP Ps 1) := by
  induction l with
  | nil => simp
  | cons t T ih =>
    obtain ⟨Q, d⟩ := t
    rw [List.map_cons, toPop_cons, toPop_cons, add_mul, smul_add, ofP_mul, ← ofP_smul, ih]
    congr 1
    ring_nf

/-- The product of a real-coefficient sum anticommuting with the target word
and the target word is anti-Hermitian. -/
theorem dagger_mul_s {n : ℕ} (l : TermList n) (Ps : PTerm n)
    (hre : ∀ tc ∈ l, tc.2.im = 0) (hanti : ∀ tc ∈ l, ¬ pcommute tc.1 Ps) :
    daggerPop (toPop l * ofP Ps 1) = -(toPop l * ofP Ps 1) := by
  induction l with
  | nil =>
    rw [toPop_nil, zero_mul, daggerPop_zero, neg_zero]
  | cons t T ih =>
    obtain ⟨Q, d⟩ := t
    have hd : (starRingEnd ℂ) d = d :=
      Complex.conj_eq_iff_im.mpr (hre (Q, d) (List.mem_cons_self _ _))
    have hq : ¬ pcommute Q Ps := hanti (Q, d) (List.mem_cons_self _ _)
    have hconj : (starRingEnd ℂ) (d * 1 * iphase (pphase Q Ps))
        = -(d * 1 * iphase (pphase Q Ps)) := by
      rcases iphase_anticommute_cases Q Ps hq with hip | hip
      · rw [hip, map_mul, map_mul, hd, map_one, Complex.conj_I]
        ring
      · rw [hip, map_mul, map_mul, hd, map_one, map_neg, Complex.conj_I]
        ring
    rw [toPop_cons, add_mul, daggerPop_add, ofP_mul, daggerPop_ofP, hconj, ofP_neg,
      ih (fun tc htc => hre tc (List.mem_cons_of_mem _ htc))
        (fun tc htc => hanti tc (List.mem_cons_of_mem _ htc))]
    abel

/-- Abstract form of the LCU conjugation identity: for `s² = C² = 1` with `s`
and `C` anticommuting, conjugating `βs·s + ω·C` by
`R = a·1 - b·C·s` (with `R† = a·1 + b·C·s`) rotates in the (s, C) plane. -/
theorem lcu_conj_abstract {n : ℕ} (s C : Pop n) (βs ω a b : ℂ)
    (hs : s * s = 1) (hC : C * C = 1) (hsC : s * C = -(C * s))
    (h1 : βs * (a ^ 2 - b ^ 2) + ω * (2 * a * b) = 1)
    (h2 : ω * (a ^ 2 - b ^ 2) - βs * (2 * a * b) = 0) :
    (a • 1 + (-b) • (C * s)) * (βs • s + ω • C) * (a • 1 + b • (C * s)) = s := by
  have hDs : (C * s) * s = C := by rw [mul_assoc, hs, mul_one]
  have hsD : s * (C * s) = -C := by
    rw [← mul_assoc, hsC, neg_mul, mul_assoc, hs, mul_one]
  have hDC : (C * s) * C = -s := by
    rw [mul_assoc, hsC, mul_neg, ← mul_assoc, hC, one_mul]
  have hCD : C * (C * s) = s := by rw [← mul_assoc, hC, one_mul]
  have e1 : (a • (1:Pop n) + (-b) • (C * s)) * (βs • s + ω • C)
      = a • (βs • s + ω • C) + (-b) • ((C * s) * (βs • s + ω • C)) := by
    rw [add_mul, smul_mulPop, smul_mulPop, one_mul]
  have e2 : (C * s) * (βs • s + ω • C) = βs • C + ω • (-s) := by
    rw [mul_add, mulPop_smul, mulPop_smul, hDs, hDC]
  have e3 : a • (βs • s + ω • C) + (-b) • (βs • C + ω • (-s))
      = (a * βs + b * ω) • s + (a * ω - b * βs) • C := by
    module
  have e4 : ((a * βs + b * ω) • s + (a * ω - b * βs) • C) * (a • (1:Pop n) + b • (C * s))
      = (a * βs + b * ω) • (s * (a • (1:Pop n) + b • (C * s)))
        + (a * ω - b * βs) • (C * (a • (1:Pop n) + b • (C * s))) := by
    rw [add_mul, smul_mulPop, smul_mulPop]
  have e5 : s * (a • (1:Pop n) + b • (C * s)) = a • s + b • (-C) := by
    rw [mul_add, mulPop_smul, mulPop_smul, mul_one, hsD]
  have e6 : C * (a • (1:Pop n) + b • (C * s)) = a • C + b • s := by
    rw [mul_add, mulPop_smul, mulPop_smul, mul_one, hCD]
  calc (a • (1:Pop n) + (-b) • (C * s)) * (βs • s + ω • C) * (a • (1:Pop n) + b • (C * s))
      = ((a * βs + b * ω) • s + (a * ω - b * βs) • C) * (a • (1:Pop n) + b • (C * s)) := by
        rw [e1, e2, e3]
    _ = (a * βs + b * ω) • (a • s + b • (-C))
        + (a * ω - b * βs) • (a • C + b • s) := by rw [e4, e5, e6]
    _ = (βs * (a ^ 2 - b ^ 2) + ω * (2 * a * b)) • s
        + (ω * (a ^ 2 - b ^ 2) - βs * (2 * a * b)) • C := by module
    _ = s := by rw [h1, h2, one_smul, zero_smul, add_zero]

/-! ## Soundness of `generate_LCU_operator` -/

theorem daggerPop_one {n : ℕ} : daggerPop (1 : Pop n) = 1 := by
  rw [← ofP_ident_one, daggerPop_ofP, map_one]

/-- On a normalized anticommuting operator with a nonzero residual,
`generate_LCU_operator` succeeds, returns the unit target word as `Ps_LCU`,
and the operator `R` it caches conjugates the operator exactly onto the unit
target word. -/
theorem generateLCU_sound {n : ℕ} (Ps : PTerm n) (βs : ℂ) (r0 : PTerm n × ℂ)
    (rest' : TermList n)
    (hre : ∀ tc ∈ (Ps, βs) :: r0 :: rest', tc.2.im = 0)
    (hAC : pairwiseAC ((Ps, βs) :: r0 :: rest'))
    (hnorm : normC ((Ps, βs) :: r0 :: rest') = 1)
    (hω : normC (r0 :: rest') ≠ 0) :
    ∃ R, generateLCU ((Ps, βs) :: r0 :: rest') = (some R, some [(Ps, 1)]) ∧
      toPop R * toPop ((Ps, βs) :: r0 :: rest') * daggerPop (toPop R) = ofP Ps 1 := by
  have hωpos : 0 < normC (r0 :: rest') :=
    lt_of_le_of_ne (normC_nonneg _) (Ne.symm hω)
  have him : βs.im = 0 := hre (Ps, βs) (List.mem_cons_self _ _)
  have hreR : ∀ tc ∈ r0 :: rest', tc.2.im = 0 := fun tc htc =>
    hre tc (List.mem_cons_of_mem _ htc)
  have hACu := hAC
  rw [pairwiseAC, List.pairwise_cons] at hACu
  obtain ⟨hhead, htail⟩ := hACu
  have hACR : pairwiseAC (r0 :: rest') := htail
  set ω := normC (r0 :: rest') with hωdef
  set scaled := scaleCoeffs (r0 :: rest') ω with hscdef
  set θ := Real.arccos βs.re with hθdef
  have hreS : ∀ tc ∈ scaled, tc.2.im = 0 := realCoeffs_scale _ ω hreR
  have hACS : pairwiseAC scaled := pairwiseAC_scale _ ω hACR
  have hAntiS : ∀ tc ∈ scaled, ¬ pcommute Ps tc.1 := by
    intro tc htc
    rcases List.mem_map.mp htc with ⟨tc0, htc0, rfl⟩
    exact hhead tc0 htc0
  have hAntiS' : ∀ tc ∈ scaled, ¬ pcommute tc.1 Ps := fun tc htc =>
    not_pcommute_symm _ _ (hAntiS tc htc)
  have hC2 : toPop scaled * toPop scaled = 1 := by
    rw [toPop_sq_AC scaled hACS, sumSq_real scaled hreS, hscdef,
      normC_scale _ ω hωpos, ← hωdef, div_self (ne_of_gt hωpos)]
    norm_num
  have hs2 : ofP Ps 1 * ofP Ps 1 = 1 := ofP_sq Ps
  have hsC : ofP Ps (1:ℂ) * toPop scaled = -(toPop scaled * ofP Ps 1) :=
    ofP_mul_toPop_anti Ps 1 scaled hAntiS
  have hnormsq : βs.re ^ 2 + ω ^ 2 = 1 := by
    have hns : (normC ((Ps, βs) :: r0 :: rest')) ^ 2
        = Complex.normSq βs + (normC (r0 :: rest')) ^ 2 := by
      rw [normC_sq, normC_sq, List.map_cons, List.sum_cons]
    rw [hnorm, Complex.normSq_apply, him] at hns
    rw [← hωdef] at hns
    nlinarith [hns]
  have hb1 : -1 ≤ βs.re := by nlinarith [hnormsq, sq_nonneg ω]
  have hb2 : βs.re ≤ 1 := by nlinarith [hnormsq, sq_nonneg ω]
  have hcosθ : Real.cos θ = βs.re := Real.cos_arccos hb1 hb2
  have hsinθ : Real.sin θ = ω := by
    rw [hθdef, Real.sin_arccos, show 1 - βs.re ^ 2 = ω ^ 2 by nlinarith [hnormsq],
      Real.sqrt_sq hωpos.le]
  have hd : Real.cos (θ/2) ^ 2 - Real.sin (θ/2) ^ 2 = βs.re := by
    rw [← Real.cos_two_mul', show 2 * (θ/2) = θ by ring]
    exact hcosθ
  have hdd : 2 * Real.cos (θ/2) * Real.sin (θ/2) = ω := by
    have := Real.sin_two_mul (θ/2)
    rw [show 2 * (θ/2) = θ by ring] at this
    rw [← hsinθ, this]
    ring
  have hβs : ((βs.re : ℝ) : ℂ) = βs := by
    apply Complex.ext
    · simp
    · simp [him]
  have h1C : ((βs.re : ℝ) : ℂ) * (((Real.cos (θ/2) : ℝ) : ℂ) ^ 2 - ((Real.sin (θ/2) : ℝ) : ℂ) ^ 2)
      + ((ω : ℝ) : ℂ) * (2 * ((Real.cos (θ/2) : ℝ) : ℂ) * ((Real.sin (θ/2) : ℝ) : ℂ)) = 1 := by
    have h1R : βs.re * (Real.cos (θ/2) ^ 2 - Real.sin (θ/2) ^ 2)
        + ω * (2 * Real.cos (θ/2) * Real.sin (θ/2)) = 1 := by
      rw [hd, hdd]
      nlinarith [hnormsq]
    exact_mod_cast h1R
  have h2C : ((ω : ℝ) : ℂ) * (((Real.cos (θ/2) : ℝ) : ℂ) ^ 2 - ((Real.sin (θ/2) : ℝ) : ℂ) ^ 2)
      - ((βs.re : ℝ) : ℂ) * (2 * ((Real.cos (θ/2) : ℝ) : ℂ) * ((Real.sin (θ/2) : ℝ) : ℂ)) = 0 := by
    have h2R : ω * (Real.cos (θ/2) ^ 2 - Real.sin (θ/2) ^ 2)
        - βs.re * (2 * Real.cos (θ/2) * Real.sin (θ/2)) = 0 := by
      rw [hd, hdd]
      ring
    exact_mod_cast h2R
  refine ⟨(identP n, ((Real.cos (θ/2) : ℝ) : ℂ)) ::
      (scaled.map fun tc =>
        (pmul tc.1 Ps, tc.2 * 1 * iphase (pphase tc.1 Ps) * ((-Real.sin (θ/2) : ℝ) : ℂ))),
    ?_, ?_⟩
  · unfold generateLCU
    dsimp only
    rw [if_neg (not_lt.mpr (Real.arccos_le_pi βs.re))]
  · have hR : toPop ((identP n, ((Real.cos (θ/2) : ℝ) : ℂ)) ::
        (scaled.map fun tc =>
          (pmul tc.1 Ps, tc.2 * 1 * iphase (pphase tc.1 Ps) * ((-Real.sin (θ/2) : ℝ) : ℂ))))
        = ((Real.cos (θ/2) : ℝ) : ℂ) • 1
          + (-((Real.sin (θ/2) : ℝ) : ℂ)) • (toPop scaled * ofP Ps 1) := by
      rw [toPop_cons, toPop_mulList_right scaled Ps, ofP_eq_smul, ofP_ident_one,
        Complex.ofReal_neg]
    have hA : toPop ((Ps, βs) :: r0 :: rest')
        = ((βs.re : ℝ) : ℂ) • ofP Ps 1 + ((ω : ℝ) : ℂ) • toPop scaled := by
      rw [toPop_cons, ofP_eq_smul, hβs, hscdef, toPop_scale _ ω (ne_of_gt hωpos)]
    have hRd : daggerPop (((Real.cos (θ/2) : ℝ) : ℂ) • 1
          + (-((Real.sin (θ/2) : ℝ) : ℂ)) • (toPop scaled * ofP Ps 1))
        = ((Real.cos (θ/2) : ℝ) : ℂ) • 1
          + ((Real.sin (θ/2) : ℝ) : ℂ) • (toPop scaled * ofP Ps 1) := by
      rw [daggerPop_add, daggerPop_smul, daggerPop_smul, daggerPop_one,
        dagger_mul_s scaled Ps hreS hAntiS', map_neg, Complex.conj_ofReal,
        Complex.conj_ofReal, neg_smul, smul_neg, neg_neg]
    rw [hR, hA, hRd]
    exact lcu_conj_abstract (ofP Ps 1) (toPop scaled) ((βs.re : ℝ) : ℂ) ((ω : ℝ) : ℂ)
      ((Real.cos (θ/2) : ℝ) : ℂ) ((Real.sin (θ/2) : ℝ) : ℂ) hs2 hC2 hsC h1C h2C

/-- Soundness of the LCU branch of `unitary_partitioning`: with all
coefficients nonzero the call succeeds, returns the unit target word as `Ps`,
caches an operator `R`, and `R (toPop op) R†` is exactly `gamma_l * Ps`. -/
theorem up_lcu_sound {n : ℕ} (st : ACState n) (sIdx : Option ℕ) (sInd : ℕ)
    (hsel : (match sIdx with | some i => i | none => leastDenseIndex st.op) = sInd)
    (hlen : 2 ≤ st.op.length) (hre : ∀ tc ∈ st.op, tc.2.im = 0)
    (hAC : pairwiseAC st.op) (hnz : ∀ tc ∈ st.op, tc.2 ≠ 0)
    (hs : sInd < st.op.length) :
    ∃ R acF,
      unitaryPartitioning st sIdx "LCU" =
        some (⟨[((st.op.getD sInd (identP n, 0)).1, 1)], Recipe.lcuRec (some R),
          normC st.op, acF⟩, { st with R_LCU := some R }) ∧
      toPop R * toPop st.op * daggerPop (toPop R)
        = ((normC st.op : ℝ) : ℂ) • ofP (st.op.getD sInd (identP n, 0)).1 1 := by
  have htgt : (st.op.getD sInd (identP n, 0)).2 ≠ 0 :=
    hnz _ (getD_mem_of_lt st.op (identP n, 0) sInd hs)
  have hγpos : 0 < normC st.op :=
    normC_pos st.op _ (getD_mem_of_lt st.op (identP n, 0) sInd hs) htgt
  have hγne : normC st.op ≠ 0 := ne_of_gt hγpos
  set l := st.op with hldef
  set γ := normC l with hγdef
  set acN := scaleCoeffs l γ with hacNdef
  have hlenN : acN.length = l.length := scaleCoeffs_length l γ
  have hreN : ∀ tc ∈ acN, tc.2.im = 0 := realCoeffs_scale l γ hre
  have hACN : pairwiseAC acN := pairwiseAC_scale l γ hAC
  have hγCne : ((γ:ℝ):ℂ) ≠ 0 := Complex.ofReal_ne_zero.mpr hγne
  have hnzN : ∀ tc ∈ acN, tc.2 ≠ 0 := by
    intro tc htc
    rcases List.mem_map.mp htc with ⟨tc0, htc0, rfl⟩
    exact div_ne_zero (hnz tc0 htc0) hγCne
  have hnormN : normC acN = 1 := by
    rw [hacNdef, normC_scale l γ hγpos, ← hγdef, div_self hγne]
  have hheadN : acN.getD sInd (identP n, 0)
      = ((l.getD sInd (identP n, 0)).1, (l.getD sInd (identP n, 0)).2 / ((γ:ℝ):ℂ)) :=
    getD_map_coeffs l γ sInd hs
  have hmain : ∀ acInput : TermList n, List.Perm acInput acN →
      acInput.getD 0 (identP n, 0) = acN.getD sInd (identP n, 0) →
      ∃ R, generateLCU acInput = (some R, some [((l.getD sInd (identP n, 0)).1, 1)]) ∧
        toPop R * toPop l * daggerPop (toPop R)
          = ((γ:ℝ):ℂ) • ofP (l.getD sInd (identP n, 0)).1 1 := by
    intro acInput hperm hhead
    have hlenI : 2 ≤ acInput.length := by
      rw [hperm.length_eq, hlenN]
      exact hlen
    have hreI : ∀ tc ∈ acInput, tc.2.im = 0 := fun tc htc =>
      hreN tc (hperm.mem_iff.mp htc)
    have hnzI : ∀ tc ∈ acInput, tc.2 ≠ 0 := fun tc htc =>
      hnzN tc (hperm.mem_iff.mp htc)
    have hACI : pairwiseAC acInput := pairwiseAC_perm acN acInput hperm.symm hACN
    have hnormI : normC acInput = 1 := by
      rw [normC_perm acInput acN hperm, hnormN]
    cases acInput with
    | nil => exact absurd hlenI (by simp)
    | cons hd tl =>
      cases tl with
      | nil => exact absurd hlenI (by simp)
      | cons t0 tl' =>
        obtain ⟨P0, β0⟩ := hd
        have hωne : normC (t0 :: tl') ≠ 0 := by
          refine ne_of_gt (normC_pos _ t0 (List.mem_cons_self _ _) ?_)
          exact hnzI t0 (List.mem_cons_of_mem _ (List.mem_cons_self _ _))
        obtain ⟨R, hgen, hconj⟩ := generateLCU_sound P0 β0 t0 tl' hreI hACI hnormI hωne
        have hP0 : P0 = (l.getD sInd (identP n, 0)).1 := by
          have := congrArg Prod.fst hhead
          rw [hheadN] at this
          exact this
        refine ⟨R, by rw [hgen, hP0], ?_⟩
        have htoI : toPop ((P0, β0) :: t0 :: tl') = toPop acN := toPop_perm _ acN hperm
        have hscale : ((γ:ℝ):ℂ) • toPop acN = toPop l := toPop_scale l γ hγne
        calc toPop R * toPop l * daggerPop (toPop R)
            = toPop R * (((γ:ℝ):ℂ) • toPop ((P0, β0) :: t0 :: tl')) * daggerPop (toPop R) := by
              rw [htoI, hscale]
          _ = ((γ:ℝ):ℂ) • (toPop R * toPop ((P0, β0) :: t0 :: tl') * daggerPop (toPop R)) := by
              rw [mulPop_smul, smul_mulPop]
          _ = ((γ:ℝ):ℂ) • ofP (l.getD sInd (identP n, 0)).1 1 := by rw [hconj, hP0]
  have hne1 : ¬ (l.length = 1) := by omega
  have hsum : ¬ (sumIm l ≠ 0) := by
    rw [sumIm_eq_zero l hre]
    exact not_not_intro rfl
  by_cases hz : sInd = 0
  · subst hz
    obtain ⟨R, hgen, hconj⟩ := hmain acN (List.Perm.refl _) rfl
    refine ⟨R, acN, ?_, hconj⟩
    unfold unitaryPartitioning
    dsimp only
    rw [if_neg hne1, if_neg hsum]
    rcases sIdx with _ | i
    · simp only at hsel
      rw [← hldef, hsel]
      rw [if_neg (by omega : ¬ ((0:ℕ) ≠ 0))]
      unfold upDispatch
      rw [if_neg (by decide : ¬ ("LCU" = "seq_rot")), if_pos rfl, ← hγdef, ← hacNdef, hgen]
    · simp only at hsel
      subst hsel
      rw [if_neg (by omega : ¬ ((0:ℕ) ≠ 0))]
      unfold upDispatch
      rw [if_neg (by decide : ¬ ("LCU" = "seq_rot")), if_pos rfl, ← hγdef, ← hacNdef, hgen]
  · have hsN : sInd < acN.length := by
      rw [hlenN]
      exact hs
    have hpermS : List.Perm (swapTop acN sInd) acN := swapTop_perm acN sInd hsN
    have hheadS : (swapTop acN sInd).getD 0 (identP n, 0) = acN.getD sInd (identP n, 0) :=
      swapTop_getD_zero acN sInd hsN hz
    obtain ⟨R, hgen, hconj⟩ := hmain (swapTop acN sInd) hpermS hheadS
    refine ⟨R, swapTop acN sInd, ?_, hconj⟩
    unfold unitaryPartitioning
    dsimp only
    rw [if_neg hne1, if_neg hsum]
    have hACS : pairwiseAC (swapTop acN sInd) :=
      pairwiseAC_perm acN _ hpermS.symm hACN
    rcases sIdx with _ | i
    · simp only at hsel
      rw [← hldef, hsel, if_pos hz, ← hγdef, ← hacNdef, if_pos hsN, if_pos hACS]
      unfold upDispatch
      rw [if_neg (by decide : ¬ ("LCU" = "seq_rot")), if_pos rfl, hgen]
    · simp only at hsel
      subst hsel
      rw [if_pos hz, ← hγdef, ← hacNdef, if_pos hsN, if_pos hACS]
      unfold upDispatch
      rw [if_neg (by decide : ¬ ("LCU" = "seq_rot")), if_pos rfl, hgen]

/-! ## C2: soundness of the partitioning recipes -/

/-- C2 (corrected): on a multi-term strictly anticommuting operator with real,
everywhere-nonzero coefficients, both recipes returned by
`unitary_partitioning` are sound: the call succeeds for either method, `Ps` is
the unit word of the selected target term, `gamma_l` is the pre-normalization
coefficient norm, conjugating the stored operator by the derived rotation
sequence yields exactly `gamma_l * Ps`, and conjugating it by the derived LCU
operator as `R (toPop op) R†` also yields exactly `gamma_l * Ps`. -/
theorem C2_amended_partitioning_round_trip {n : ℕ} (st : ACState n)
    (sIdx : Option ℕ) (sInd : ℕ)
    (hsel : (match sIdx with | some i => i | none => leastDenseIndex st.op) = sInd)
    (hlen : 2 ≤ st.op.length) (hre : ∀ tc ∈ st.op, tc.2.im = 0)
    (hAC : pairwiseAC st.op) (hnz : ∀ tc ∈ st.op, tc.2 ≠ 0)
    (hs : sInd < st.op.length) :
    ∃ rots acF R acF2,
      unitaryPartitioning st sIdx "seq_rot" =
        some (⟨[((st.op.getD sInd (identP n, 0)).1, 1)], Recipe.seqRec rots,
          normC st.op, acF⟩, { st with X_sk_rotations := rots }) ∧
      applySeqRotations rots (toPop st.op)
        = ((normC st.op : ℝ) : ℂ) • ofP (st.op.getD sInd (identP n, 0)).1 1 ∧
      unitaryPartitioning st sIdx "LCU" =
        some (⟨[((st.op.getD sInd (identP n, 0)).1, 1)], Recipe.lcuRec (some R),
          normC st.op, acF2⟩, { st with R_LCU := some R }) ∧
      toPop R * toPop st.op * daggerPop (toPop R)
        = ((normC st.op : ℝ) : ℂ) • ofP (st.op.getD sInd (identP n, 0)).1 1 := by
  obtain ⟨rots, acF, h1, _, h2⟩ := up_seq_sound st sIdx sInd hsel hlen hre hAC hs
    (hnz _ (getD_mem_of_lt st.op (identP n, 0) sInd hs))
  obtain ⟨R, acF2, h3, h4⟩ := up_lcu_sound st sIdx sInd hsel hlen hre hAC hnz hs
  exact ⟨rots, acF, R, acF2, h1, h2, h3, h4⟩

/-- The spec's Scenario 1 object: the one-qubit clique `{X: 3, Z: 4}`. -/
def c2st : ACState 1 := ⟨[(pX, ((3:ℝ):ℂ)), (pZ, ((4:ℝ):ℂ))], [], none⟩

theorem normC_c2st : normC c2st.op = 5 := by
  unfold normC
  simp only [c2st, List.map_cons, List.map_nil, List.sum_cons, List.sum_nil,
    Complex.normSq_ofReal, add_zero]
  rw [show (3:ℝ) * 3 + 4 * 4 = 5 ^ 2 by norm_num, Real.sqrt_sq (by norm_num : (0:ℝ) ≤ 5)]

/-- Witness for C2 on `{X: 3, Z: 4}`: both methods succeed with `Ps = X`,
`gamma_l = ‖(3,4)‖ = 5`, and both conjugations produce `gamma_l * X`. -/
theorem C2_amended_witness :
    (∃ rots acF R acF2,
      unitaryPartitioning c2st none "seq_rot" =
        some (⟨[((c2st.op.getD 0 (identP 1, 0)).1, 1)], Recipe.seqRec rots,
          normC c2st.op, acF⟩, { c2st with X_sk_rotations := rots }) ∧
      applySeqRotations rots (toPop c2st.op)
        = ((normC c2st.op : ℝ) : ℂ) • ofP (c2st.op.getD 0 (identP 1, 0)).1 1 ∧
      unitaryPartitioning c2st none "LCU" =
        some (⟨[((c2st.op.getD 0 (identP 1, 0)).1, 1)], Recipe.lcuRec (some R),
          normC c2st.op, acF2⟩, { c2st with R_LCU := some R }) ∧
      toPop R * toPop c2st.op * daggerPop (toPop R)
        = ((normC c2st.op : ℝ) : ℂ) • ofP (c2st.op.getD 0 (identP 1, 0)).1 1) ∧
    normC c2st.op = 5 ∧ (c2st.op.getD 0 (identP 1, 0)).1 = pX := by
  refine ⟨C2_amended_partitioning_round_trip c2st none 0 (by decide) (by decide)
    ?_ (by decide) ?_ (by decide), normC_c2st, rfl⟩
  · intro tc htc
    rcases List.mem_cons.mp htc with rfl | h2
    · simp
    · rcases List.mem_cons.mp h2 with rfl | h3
      · simp
      · cases h3
  · intro tc htc
    rcases List.mem_cons.mp htc with rfl | h2
    · exact Complex.ofReal_ne_zero.mpr (by norm_num)
    · rcases List.mem_cons.mp h2 with rfl | h3
      · exact Complex.ofReal_ne_zero.mpr (by norm_num)
      · cases h3

/-- The clique `{X: -3, Z: 0}`: real coefficients, two terms, but the
residual after removing the target is the zero vector. -/
def acXm30 : TermList 1 := [(pX, ((-3:ℝ):ℂ)), (pZ, 0)]

/-- The LCU operator the code derives for `{X: -3, Z: 0}`: both of its
coefficients vanish (`cos(arccos(-1)/2) = cos(π/2) = 0` and the residual
row is zero), so `R` is the zero operator. -/
def c2R0 : TermList 1 := [(identP 1, 0), (pY, 0)]

/-- The full output of the `LCU` call on `{X: -3, Z: 0}`. -/
def c2ceOut : UPOutput 1 × ACState 1 :=
  (⟨[(pX, 1)], Recipe.lcuRec (some c2R0), 3, [(pX, ((-1:ℝ):ℂ)), (pZ, 0)]⟩,
   ⟨acXm30, [], some c2R0⟩)

theorem normC_acXm30 : normC acXm30 = 3 := by
  unfold normC
  simp only [acXm30, List.map_cons, List.map_nil, List.sum_cons, List.sum_nil,
    Complex.normSq_ofReal, Complex.normSq_zero, add_zero]
  rw [show (-3:ℝ) * (-3) = 3 ^ 2 by norm_num, Real.sqrt_sq (by norm_num : (0:ℝ) ≤ 3)]

theorem scale_acXm30 : scaleCoeffs acXm30 (normC acXm30)
    = [(pX, ((-1:ℝ):ℂ)), (pZ, 0)] := by
  rw [normC_acXm30]
  unfold scaleCoeffs
  simp only [acXm30, List.map_cons, List.map_nil, zero_div]
  rw [show ((-3:ℝ):ℂ) / ((3:ℝ):ℂ) = ((-1:ℝ):ℂ) by push_cast; norm_num]

theorem lcu_acXm30 : generateLCU [(pX, ((-1:ℝ):ℂ)), (pZ, (0:ℂ))]
    = (some c2R0, some [(pX, 1)]) := by
  unfold generateLCU
  dsimp only
  rw [if_neg (not_lt.mpr (Real.arccos_le_pi _))]
  have hsc : scaleCoeffs [(pZ, (0:ℂ))] (normC [(pZ, (0:ℂ))]) = [(pZ, 0)] := by
    simp [scaleCoeffs, zero_div]
  simp only [hsc, List.map_cons, List.map_nil, zero_mul, Complex.ofReal_re,
    Real.arccos_neg_one, Real.cos_pi_div_two, Complex.ofReal_zero, pmul_pZ_pX]
  rfl

/-- C2 (corrected), counterexample: on `{X: -3, Z: 0}` (two real anticommuting
terms) the LCU branch completes and returns `Ps = X` with `gamma_l = 3`, but
the derived operator `R` is identically zero — `arccos(-1) = π` makes the
identity coefficient `cos(π/2) = 0` and the zero residual kills the rest — so
`R (toPop op) R† = 0 ≠ gamma_l * Ps`, refuting the claimed round trip for
every AntiCommutingOp with at least two terms and real coefficients. -/
theorem C2_counterexample_lcu_zero_residual :
    (∀ tc ∈ acXm30, tc.2.im = 0) ∧ pairwiseAC acXm30 ∧ acXm30.length = 2 ∧
    unitaryPartitioning ⟨acXm30, [], none⟩ none "LCU" = some c2ceOut ∧
    c2ceOut.1.Ps = [(pX, 1)] ∧ c2ceOut.1.gamma_l = normC acXm30 ∧
    c2ceOut.1.rotations = Recipe.lcuRec (some c2R0) ∧
    toPop c2R0 * toPop acXm30 * daggerPop (toPop c2R0) = 0 ∧
    toPop c2R0 * toPop acXm30 * daggerPop (toPop c2R0)
      ≠ ((normC acXm30 : ℝ) : ℂ) • ofP pX 1 := by
  have hR0 : toPop c2R0 = 0 := by
    simp [c2R0, toPop_cons, toPop_nil, ofP_zero]
  have hconj0 : toPop c2R0 * toPop acXm30 * daggerPop (toPop c2R0) = 0 := by
    rw [hR0, zero_mul, zero_mul]
  refine ⟨?_, by decide, rfl, ?_, rfl, by rw [normC_acXm30]; rfl, rfl, hconj0, ?_⟩
  · intro tc htc
    rcases List.mem_cons.mp htc with rfl | h2
    · simp
    · rcases List.mem_cons.mp h2 with rfl | h3
      · simp
      · cases h3
  · unfold unitaryPartitioning
    dsimp only
    rw [if_neg (by decide : ¬ (List.length acXm30 = 1))]
    rw [if_neg (show ¬ (sumIm acXm30 ≠ 0) by simp [sumIm, acXm30])]
    rw [scale_acXm30, normC_acXm30]
    rw [if_neg (by decide : ¬ (leastDenseIndex acXm30 ≠ 0))]
    unfold upDispatch
    rw [if_neg (by decide : ¬ ("LCU" = "seq_rot")), if_pos rfl, lcu_acXm30]
    rfl
  · rw [hconj0, normC_acXm30]
    intro h
    have h0 : (0:ℂ) • ofP pX (1:ℂ) = ((3:ℝ):ℂ) • ofP pX 1 := by
      rw [zero_smul]
      exact h
    have h3 := smul_ofP_one_inj pX 0 ((3:ℝ):ℂ) h0
    exact absurd h3.symm (by push_cast; norm_num)

/-! ## C7: `energy_via_relaxation` rounding

`NoncontextualSolver.energy_via_relaxation` (noncontextual_op.py lines
548-566).  `get_nu(angles)` builds the relaxed eigenvalue vector: fixed
positions take the fixed eigenvalues, free positions take `cos(angles)`.  The
final rounding line of the source is
`fix_nu = np.sign(np.array(get_nu(np.cos(optimizer_output['x']))))`, i.e.
`get_nu` is applied to the elementwise cosine of the optimal angles.
-/

/-- `get_nu` (noncontextual_op.py lines 555-560): entry-by-entry, a fixed
position (mask `true`) consumes the next fixed eigenvalue, a free position
(mask `false`) consumes the cosine of the next angle. -/
noncomputable def getNu : List Bool → List ℝ → List ℝ → List ℝ
  | [], _, _ => []
  | true :: m, f :: fs, as => f :: getNu m fs as
  | true :: m, [], as => getNu m [] as
  | false :: m, fs, a :: as => Real.cos a :: getNu m fs as
  | false :: m, fs, [] => getNu m fs []

/-- The rounding line of `energy_via_relaxation` (line 564):
`np.sign(np.array(get_nu(np.cos(x))))` for the optimizer's angle vector `x` —
note the cosine is applied to `x` *before* `get_nu` applies its own cosine. -/
noncomputable def fixNu (mask : List Bool) (fixed : List ℝ) (x : List ℝ) : List ℝ :=
  (getNu mask fixed (x.map Real.cos)).map Real.sign

/-- C7 (code_bug): the claim says the free entries of the returned `nu` are
`sign(cos θ_i)` at the optimizer's optimal angles.  The code instead computes
`sign(get_nu(cos x))`, applying the cosine twice: a free entry becomes
`sign(cos(cos θ))`, which is `+1` for every θ because `cos θ ∈ [-1,1]` lies
inside `(-π/2, π/2)`.  At the optimal angle `θ = π` the claimed rounding is
`sign(cos π) = -1`, but the code returns `+1`. -/
theorem C7_relaxation_rounding_bug :
    (∀ x : ℝ, fixNu [false] [] [x] = [1]) ∧
    fixNu [false] [] [Real.pi] = [1] ∧
    (getNu [false] [] [Real.pi]).map Real.sign = [-1] ∧
    (1:ℝ) ≠ -1 := by
  have hall : ∀ x : ℝ, fixNu [false] [] [x] = [1] := by
    intro x
    show [Real.sign (Real.cos (Real.cos x))] = [1]
    have hpos : 0 < Real.cos (Real.cos x) := by
      apply Real.cos_pos_of_mem_Ioo
      constructor
      · have h1 : (-1:ℝ) ≤ Real.cos x := Real.neg_one_le_cos x
        have h2 : (3:ℝ) < Real.pi := Real.pi_gt_three
        linarith
      · have h1 : Real.cos x ≤ 1 := Real.cos_le_one x
        have h2 : (3:ℝ) < Real.pi := Real.pi_gt_three
        linarith
    rw [Real.sign_of_pos hpos]
  refine ⟨hall, hall Real.pi, ?_, by norm_num⟩
  show [Real.sign (Real.cos Real.pi)] = [-1]
  rw [Real.cos_pi, Real.sign_of_neg (by norm_num)]

/-! ## C4: the classical objective `get_energy`

The reconstruction data of a `NoncontextualOp` (produced by
`noncontextual_reconstruction`): per-term coefficients, the
`pauli_mult_signs` vector, the rows of `G_indices` (which symmetry generators
reconstruct the term) and of `C_indices` (which clique representative the
term selects), and the number of cliques.
-/

structure NCModel where
  coeff_vec : List ℂ
  pauli_mult_signs : List ℤ
  G_indices : List (List Bool)
  C_indices : List (List Bool)
  n_cliques : ℕ

/-- `np.count_nonzero(np.logical_and(G_indices==1, nu == -1), axis=1)` for a
single row. -/
def countMismatch (g : List Bool) (nu : List ℤ) : ℕ :=
  (g.zip nu).countP fun p => p.1 && decide (p.2 = -1)

/-- The modified coefficient vector of `get_symmetry_contributions`
(noncontextual_op.py lines 293-300):
`coeff_vec * pauli_mult_signs * (-1)**count`. -/
def coeffMod (m : NCModel) (nu : List ℤ) : List ℂ :=
  (m.coeff_vec.zip (m.pauli_mult_signs.zip m.G_indices)).map
    fun csg => csg.1 * ((csg.2.1 : ℤ) : ℂ) * (-1) ^ countMismatch csg.2.2 nu

/-- `np.sum(v[mask]).real` for a boolean mask. -/
def maskedRealSum (v : List ℂ) (mask : List Bool) : ℝ :=
  ((v.zip mask).map fun p => if p.2 then p.1.re else 0).sum

/-- `self.mask_S0 = ~np.any(self.C_indices, axis=1)`. -/
def maskS0 (m : NCModel) : List Bool :=
  m.C_indices.map fun row => !(row.any id)

/-- Row `i` of `self.mask_Ci = self.C_indices.astype(bool).T`, i.e. column
`i` of `C_indices`. -/
def maskCi (m : NCModel) (i : ℕ) : List Bool :=
  m.C_indices.map fun row => row.getD i false

/-- `NoncontextualOp.get_symmetry_contributions` (lines 290-303). -/
def getSymmetryContributions (m : NCModel) (nu : List ℤ) : ℝ × List ℝ :=
  (maskedRealSum (coeffMod m nu) (maskS0 m),
   (List.range m.n_cliques).map fun i => maskedRealSum (coeffMod m nu) (maskCi m i))

/-- `NoncontextualOp.get_energy` (lines 305-310): `s0 - np.linalg.norm(si)`. -/
noncomputable def ncGetEnergy (m : NCModel) (nu : List ℤ) : ℝ :=
  (getSymmetryContributions m nu).1
    - Real.sqrt (((getSymmetryContributions m nu).2.map fun x => x ^ 2).sum)

/-- Modelled from the spec (§4.6): `energy(nu) = s0 - ‖(s_0,…,s_{M-1})‖₂`
where each term's coefficient is modified as
`coeff(t)·sign(t)·(-1)^mismatch(t)` with `mismatch(t)` the number of symmetry
generators selected by row `t` of `G_indices` that `nu` assigns `-1`; `s0`
sums the real parts of modified coefficients over rows whose `C_indices` row
is all-zero, and `s_i` sums them over rows selecting clique `i`. -/
noncomputable def specEnergy (m : NCModel) (nu : List ℤ) : ℝ :=
  let rows := (m.coeff_vec.zip (m.pauli_mult_signs.zip m.G_indices)).zip m.C_indices
  let cmod := fun csg : ℂ × (ℤ × List Bool) =>
    (csg.1 * ((csg.2.1 : ℤ) : ℂ) * (-1) ^ countMismatch csg.2.2 nu).re
  let s0 := ((rows.filter fun r => r.2.all fun b => !b).map fun r => cmod r.1).sum
  let si := fun i : ℕ => ((rows.filter fun r => r.2.getD i false).map fun r => cmod r.1).sum
  s0 - Real.sqrt (((List.range m.n_cliques).map fun i => (si i) ^ 2).sum)

theorem zip_mask_sum {α β : Type} (A : List α) (B : List β) (g : α → ℂ) (p : β → Bool) :
    (((A.map g).zip (B.map p)).map fun q => if q.2 then q.1.re else 0).sum
      = (((A.zip B).filter fun r => p r.2).map fun r => (g r.1).re).sum := by
  induction A generalizing B with
  | nil => simp
  | cons a A ih =>
    cases B with
    | nil => simp
    | cons b B =>
      by_cases hp : p b <;>
        simp [List.zip_cons_cons, List.filter_cons, hp, ih B]

theorem bool_not_any_eq_all_not (l : List Bool) :
    (!(l.any id)) = l.all fun b => !b := by
  induction l with
  | nil => rfl
  | cons a t ih =>
    cases a <;> simp [List.any_cons, List.all_cons, ih]

/-- C4 (confirmed): the code's `get_energy` equals the spec's closed-form
objective for every reconstruction table and every eigenvalue assignment. -/
theorem C4_get_energy_formula (m : NCModel) (nu : List ℤ) :
    ncGetEnergy m nu = specEnergy m nu := by
  unfold ncGetEnergy specEnergy getSymmetryContributions
  dsimp only
  have hs0 : maskedRealSum (coeffMod m nu) (maskS0 m)
      = ((((m.coeff_vec.zip (m.pauli_mult_signs.zip m.G_indices)).zip
          m.C_indices).filter fun r => r.2.all fun b => !b).map
            fun r => (r.1.1 * ((r.1.2.1 : ℤ) : ℂ) * (-1) ^ countMismatch r.1.2.2 nu).re).sum := by
    unfold maskedRealSum coeffMod maskS0
    rw [show (fun row : List Bool => !(row.any id)) = fun row : List Bool => row.all fun b => !b
      from funext bool_not_any_eq_all_not]
    exact zip_mask_sum _ m.C_indices _ (fun row : List Bool => row.all fun b => !b)
  have hsi : ∀ i : ℕ, maskedRealSum (coeffMod m nu) (maskCi m i)
      = ((((m.coeff_vec.zip (m.pauli_mult_signs.zip m.G_indices)).zip
          m.C_indices).filter fun r => r.2.getD i false).map
            fun r => (r.1.1 * ((r.1.2.1 : ℤ) : ℂ) * (-1) ^ countMismatch r.1.2.2 nu).re).sum := by
    intro i
    unfold maskedRealSum coeffMod maskCi
    exact zip_mask_sum _ m.C_indices _ (fun row : List Bool => row.getD i false)
  rw [hs0, List.map_map]
  have hlist : (List.range m.n_cliques).map
        ((fun x => x ^ 2) ∘ fun i => maskedRealSum (coeffMod m nu) (maskCi m i))
      = (List.range m.n_cliques).map (fun i =>
          ((((m.coeff_vec.zip (m.pauli_mult_signs.zip m.G_indices)).zip
            m.C_indices).filter fun r => r.2.getD i false).map
              fun r => (r.1.1 * ((r.1.2.1 : ℤ) : ℂ) * (-1) ^ countMismatch r.1.2.2 nu).re).sum ^ 2) := by
    apply List.map_congr_left
    intro i _
    show (maskedRealSum (coeffMod m nu) (maskCi m i)) ^ 2 = _
    rw [hsi i]
  rw [hlist]

/-! ## C5: `energy_via_brute_force`

`NoncontextualSolver.energy_via_brute_force` (noncontextual_op.py lines
520-542): enumerate `itertools.product([-1,1], repeat=k)` over the `k` free
symmetry generators, fill the fixed positions with the fixed eigenvalues,
evaluate `get_energy` on every assembled vector, and return Python's
`min(zip(tracker, nu_list), key=lambda x: x[0])` — the first pair attaining
the minimal energy.
-/

/-- `np.sum(fixed_ev_mask)`. -/
def countTrue : List Bool → ℕ
  | [] => 0
  | true :: m => countTrue m + 1
  | false :: m => countTrue m

/-- `np.sum(~fixed_ev_mask)`, the number `k` of free generators. -/
def countFree : List Bool → ℕ
  | [] => 0
  | true :: m => countFree m
  | false :: m => countFree m + 1

/-- `itertools.product([-1,1], repeat=k)`: the first coordinate varies
slowest, exactly as the nested flatMap produces. -/
def signTuples : ℕ → List (List ℤ)
  | 0 => [[]]
  | k + 1 => ([-1, 1] : List ℤ).flatMap fun a => (signTuples k).map fun t => a :: t

/-- Assemble a full eigenvalue vector: fixed positions (mask `true`) consume
the fixed eigenvalues, free positions consume the enumerated tuple. -/
def assembleNu : List Bool → List ℤ → List ℤ → List ℤ
  | [], _, _ => []
  | true :: m, f :: fs, free => f :: assembleNu m fs free
  | true :: m, [], free => assembleNu m [] free
  | false :: m, fs, a :: free => a :: assembleNu m fs free
  | false :: m, fs, [] => assembleNu m fs []

/-- The `nu_list` construction of `energy_via_brute_force` (lines 526-532):
the single fixed vector when every generator is fixed, else one assembled
vector per enumerated sign tuple. -/
def nuList (mask : List Bool) (fixed : List ℤ) : List (List ℤ) :=
  if mask.all id then [fixed]
  else (signTuples (countFree mask)).map fun free => assembleNu mask fixed free

/-- Python's `min(..., key=lambda x: x[0])` over `zip(map E l, l)`: a left
fold keeping the first strictly smaller energy. -/
noncomputable def pyMinBy (E : List ℤ → ℝ) : List (List ℤ) → Option (ℝ × List ℤ)
  | [] => none
  | x :: xs => some (xs.foldl (fun best y => if E y < best.1 then (E y, y) else best) (E x, x))

/-- `energy_via_brute_force`, with the energy function of the solver's
`NC_op` passed explicitly. -/
noncomputable def energyViaBruteForce (E : List ℤ → ℝ) (mask : List Bool)
    (fixed : List ℤ) : Option (ℝ × List ℤ) :=
  pyMinBy E (nuList mask fixed)

/-- Every entry is an eigenvalue `±1`. -/
def isSignVec (l : List ℤ) : Prop := ∀ x ∈ l, x = -1 ∨ x = 1

/-- A full vector agrees with the fixed eigenvalues on the fixed positions. -/
def agreesB : List Bool → List ℤ → List ℤ → Bool
  | [], _, _ => true
  | true :: m, f :: fs, v :: nu => (v == f) && agreesB m fs nu
  | true :: m, [], _ :: nu => agreesB m [] nu
  | false :: m, fs, _ :: nu => agreesB m fs nu
  | _ :: _, _, [] => false

theorem signTuples_ne_nil (k : ℕ) : signTuples k ≠ [] := by
  induction k with
  | zero => simp [signTuples]
  | succ k ih =>
    simp only [signTuples, ne_eq, List.flatMap_eq_nil_iff]
    intro h
    exact ih (List.map_eq_nil_iff.mp (h (-1) (by norm_num)))

theorem signTuples_spec (k : ℕ) : ∀ t ∈ signTuples k, t.length = k ∧ isSignVec t := by
  induction k with
  | zero =>
    intro t ht
    rcases List.mem_singleton.mp ht with rfl
    exact ⟨rfl, fun x hx => absurd hx (List.not_mem_nil x)⟩
  | succ k ih =>
    intro t ht
    rcases List.mem_flatMap.mp ht with ⟨a, ha, ht2⟩
    rcases List.mem_map.mp ht2 with ⟨t0, ht0, rfl⟩
    obtain ⟨hlen, hsgn⟩ := ih t0 ht0
    refine ⟨by simp [hlen], fun x hx => ?_⟩
    rcases List.mem_cons.mp hx with rfl | hx2
    · rcases List.mem_cons.mp ha with h | h
      · exact Or.inl h
      · exact Or.inr (List.mem_singleton.mp h)
    · exact hsgn x hx2

theorem mem_signTuples (k : ℕ) (a : ℤ) (t : List ℤ) (ha : a = -1 ∨ a = 1)
    (ht : t ∈ signTuples k) : a :: t ∈ signTuples (k + 1) := by
  apply List.mem_flatMap.mpr
  refine ⟨a, ?_, List.mem_map.mpr ⟨t, ht, rfl⟩⟩
  rcases ha with rfl | rfl
  · exact List.mem_cons_self _ _
  · exact List.mem_cons_of_mem _ (List.mem_cons_self _ _)

theorem assembleNu_length (mask : List Bool) :
    ∀ (fixed free : List ℤ), fixed.length = countTrue mask →
      free.length = countFree mask →
      (assembleNu mask fixed free).length = mask.length := by
  induction mask with
  | nil =>
    intro fixed free _ _
    rfl
  | cons b m ih =>
    intro fixed free hfix hfree
    cases b with
    | true =>
      cases fixed with
      | nil => simp [countTrue] at hfix
      | cons f fs =>
        show (assembleNu m fs free).length + 1 = m.length + 1
        rw [ih fs free (by simpa [countTrue] using hfix) (by simpa [countFree] using hfree)]
    | false =>
      cases free with
      | nil => simp [countFree] at hfree
      | cons a free' =>
        show (assembleNu m fixed free').length + 1 = m.length + 1
        rw [ih fixed free' (by simpa [countTrue] using hfix)
          (by simpa [countFree] using hfree)]

theorem assembleNu_agrees (mask : List Bool) :
    ∀ (fixed free : List ℤ), fixed.length = countTrue mask →
      free.length = countFree mask →
      agreesB mask fixed (assembleNu mask fixed free) = true := by
  induction mask with
  | nil =>
    intro fixed free _ _
    rfl
  | cons b m ih =>
    intro fixed free hfix hfree
    cases b with
    | true =>
      cases fixed with
      | nil => simp [countTrue] at hfix
      | cons f fs =>
        show ((f == f) && agreesB m fs (assembleNu m fs free)) = true
        simp [ih fs free (by simpa [countTrue] using hfix) (by simpa [countFree] using hfree)]
    | false =>
      cases free with
      | nil => simp [countFree] at hfree
      | cons a free' =>
        show agreesB m fixed (assembleNu m fixed free') = true
        exact ih fixed free' (by simpa [countTrue] using hfix)
          (by simpa [countFree] using hfree)

theorem assembleNu_sign (mask : List Bool) :
    ∀ (fixed free : List ℤ), isSignVec fixed → isSignVec free →
      isSignVec (assembleNu mask fixed free) := by
  induction mask with
  | nil =>
    intro fixed free _ _ x hx
    cases hx
  | cons b m ih =>
    intro fixed free hf ha
    cases b with
    | true =>
      cases fixed with
      | nil => exact ih [] free (fun x hx => absurd hx (List.not_mem_nil x)) ha
      | cons f fs =>
        intro x hx
        rcases List.mem_cons.mp hx with rfl | hx2
        · exact hf x (List.mem_cons_self _ _)
        · exact ih fs free (fun y hy => hf y (List.mem_cons_of_mem _ hy)) ha x hx2
    | false =>
      cases free with
      | nil => exact ih fixed [] hf (fun x hx => absurd hx (List.not_mem_nil x))
      | cons a free' =>
        intro x hx
        rcases List.mem_cons.mp hx with rfl | hx2
        · exact ha x (List.mem_cons_self _ _)
        · exact ih fixed free' hf (fun y hy => ha y (List.mem_cons_of_mem _ hy)) x hx2

/-- Completeness of the enumeration: every ±1 vector of the right length
agreeing with the fixed eigenvalues is one of the assembled vectors. -/
theorem assembleNu_complete (mask : List Bool) :
    ∀ (fixed nu : List ℤ), fixed.length = countTrue mask →
      nu.length = mask.length → isSignVec nu → agreesB mask fixed nu = true →
      ∃ free ∈ signTuples (countFree mask), assembleNu mask fixed free = nu := by
  induction mask with
  | nil =>
    intro fixed nu _ hlen _ _
    have h0 : nu = [] := List.length_eq_zero.mp (by simpa using hlen)
    subst h0
    exact ⟨[], List.mem_singleton.mpr rfl, rfl⟩
  | cons b m ih =>
    intro fixed nu hfix hlen hsgn hagree
    cases nu with
    | nil => simp at hlen
    | cons v nu' =>
      cases b with
      | true =>
        cases fixed with
        | nil => simp [countTrue] at hfix
        | cons f fs =>
          rw [show agreesB (true :: m) (f :: fs) (v :: nu')
              = ((v == f) && agreesB m fs nu') from rfl] at hagree
          rw [Bool.and_eq_true, beq_iff_eq] at hagree
          obtain ⟨rfl, hagree2⟩ := hagree
          obtain ⟨free, hmem, hasm⟩ := ih fs nu' (by simpa [countTrue] using hfix)
            (by simpa using hlen) (fun x hx => hsgn x (List.mem_cons_of_mem _ hx)) hagree2
          refine ⟨free, ?_, ?_⟩
          · rw [show countFree (true :: m) = countFree m from rfl]
            exact hmem
          · rw [show assembleNu (true :: m) (v :: fs) free
                = v :: assembleNu m fs free from rfl, hasm]
      | false =>
        rw [show agreesB (false :: m) fixed (v :: nu') = agreesB m fixed nu' from rfl] at hagree
        obtain ⟨free, hmem, hasm⟩ := ih fixed nu' (by simpa [countTrue] using hfix)
          (by simpa using hlen) (fun x hx => hsgn x (List.mem_cons_of_mem _ hx)) hagree
        refine ⟨v :: free, ?_, ?_⟩
        · rw [show countFree (false :: m) = countFree m + 1 from rfl]
          exact mem_signTuples _ v free (hsgn v (List.mem_cons_self _ _)) hmem
        · rw [show assembleNu (false :: m) fixed (v :: free)
              = v :: assembleNu m fixed free from rfl, hasm]

/-- The fold underlying `pyMinBy`: the result carries its own energy, comes
from the accumulator or the list, is no larger than the accumulator, and is a
lower bound for the whole list. -/
theorem pyMin_fold_spec (E : List ℤ → ℝ) :
    ∀ (xs : List (List ℤ)) (best : ℝ × List ℤ), best.1 = E best.2 →
      (let r := xs.foldl (fun best y => if E y < best.1 then (E y, y) else best) best
       r.1 = E r.2 ∧ (r = best ∨ r.2 ∈ xs) ∧ r.1 ≤ best.1 ∧ ∀ y ∈ xs, r.1 ≤ E y) := by
  intro xs
  induction xs with
  | nil =>
    intro best hbest
    exact ⟨hbest, Or.inl rfl, le_refl _, fun y hy => absurd hy (List.not_mem_nil y)⟩
  | cons x xs ih =>
    intro best hbest
    show (let r := xs.foldl (fun best y => if E y < best.1 then (E y, y) else best)
            (if E x < best.1 then (E x, x) else best)
          r.1 = E r.2 ∧ (r = best ∨ r.2 ∈ x :: xs) ∧ r.1 ≤ best.1 ∧ ∀ y ∈ x :: xs, r.1 ≤ E y)
    by_cases hx : E x < best.1
    · rw [if_pos hx]
      obtain ⟨h1, h2, h3, h4⟩ := ih (E x, x) rfl
      refine ⟨h1, ?_, le_trans h3 (le_of_lt hx), ?_⟩
      · rcases h2 with h2 | h2
        · exact Or.inr (by rw [h2]; exact List.mem_cons_self _ _)
        · exact Or.inr (List.mem_cons_of_mem _ h2)
      · intro y hy
        rcases List.mem_cons.mp hy with rfl | hy2
        · exact h3
        · exact h4 y hy2
    · rw [if_neg hx]
      obtain ⟨h1, h2, h3, h4⟩ := ih best hbest
      refine ⟨h1, ?_, h3, ?_⟩
      · rcases h2 with h2 | h2
        · exact Or.inl h2
        · exact Or.inr (List.mem_cons_of_mem _ h2)
      · intro y hy
        rcases List.mem_cons.mp hy with rfl | hy2
        · exact le_trans h3 (not_lt.mp hx)
        · exact h4 y hy2

theorem pyMinBy_spec (E : List ℤ → ℝ) (l : List (List ℤ)) (hne : l ≠ []) :
    ∃ e nu, pyMinBy E l = some (e, nu) ∧ nu ∈ l ∧ e = E nu ∧ ∀ y ∈ l, e ≤ E y := by
  cases l with
  | nil => exact absurd rfl hne
  | cons x xs =>
    obtain ⟨h1, h2, h3, h4⟩ := pyMin_fold_spec E xs (E x, x) rfl
    set r := xs.foldl (fun best y => if E y < best.1 then (E y, y) else best) (E x, x) with hr
    refine ⟨r.1, r.2, rfl, ?_, h1, ?_⟩
    · rcases h2 with h2 | h2
      · rw [h2]
        exact List.mem_cons_self _ _
      · exact List.mem_cons_of_mem _ h2
    · intro y hy
      rcases List.mem_cons.mp hy with rfl | hy2
      · exact h3
      · exact h4 y hy2

theorem agreesB_all_fixed (mask : List Bool) :
    ∀ fixed : List ℤ, mask.all id = true → fixed.length = mask.length →
      agreesB mask fixed fixed = true := by
  induction mask with
  | nil =>
    intro fixed _ _
    rfl
  | cons b m ih =>
    intro fixed hall hlen
    rw [List.all_cons, Bool.and_eq_true] at hall
    obtain ⟨hb, hall2⟩ := hall
    cases b with
    | false => cases hb
    | true =>
      cases fixed with
      | nil => simp at hlen
      | cons f fs =>
        show ((f == f) && agreesB m fs fs) = true
        simp [ih fs hall2 (by simpa using hlen)]

theorem agreesB_all_fixed_unique (mask : List Bool) :
    ∀ (fixed nu : List ℤ), mask.all id = true → fixed.length = mask.length →
      nu.length = mask.length → agreesB mask fixed nu = true → nu = fixed := by
  induction mask with
  | nil =>
    intro fixed nu _ hf hn _
    have h1 : fixed = [] := List.length_eq_zero.mp (by simpa using hf)
    have h2 : nu = [] := List.length_eq_zero.mp (by simpa using hn)
    rw [h1, h2]
  | cons b m ih =>
    intro fixed nu hall hf hn hagree
    rw [List.all_cons, Bool.and_eq_true] at hall
    obtain ⟨hb, hall2⟩ := hall
    cases b with
    | false => cases hb
    | true =>
      cases fixed with
      | nil => simp at hf
      | cons f fs =>
        cases nu with
        | nil => simp at hn
        | cons v nu' =>
          rw [show agreesB (true :: m) (f :: fs) (v :: nu')
              = ((v == f) && agreesB m fs nu') from rfl,
            Bool.and_eq_true, beq_iff_eq] at hagree
          obtain ⟨rfl, hagree2⟩ := hagree
          rw [ih fs nu' hall2 (by simpa using hf) (by simpa using hn) hagree2]

/-- C5 (confirmed): `energy_via_brute_force` returns a pair `(energy, nu)`
with `nu` a ±1 assignment of the right length agreeing with the fixed
eigenvalues, `energy = E nu`, and `energy ≤ E nu'` for every ±1 assignment
`nu'` agreeing with the fixed eigenvalues — the exact global minimum over all
`2^k` assignments of the `k` free generators. -/
theorem C5_brute_force_minimum (E : List ℤ → ℝ) (mask : List Bool) (fixed : List ℤ)
    (hfix : fixed.length = countTrue mask) (hsgn : isSignVec fixed) :
    ∃ e nu, energyViaBruteForce E mask fixed = some (e, nu) ∧
      e = E nu ∧ nu.length = mask.length ∧ isSignVec nu ∧
      agreesB mask fixed nu = true ∧
      ∀ nu', nu'.length = mask.length → isSignVec nu' →
        agreesB mask fixed nu' = true → e ≤ E nu' := by
  unfold energyViaBruteForce nuList
  by_cases hall : mask.all id = true
  · rw [if_pos hall]
    have hct : countTrue mask = mask.length := by
      clear hfix
      induction mask with
      | nil => rfl
      | cons b m ih =>
        rw [List.all_cons, Bool.and_eq_true] at hall
        obtain ⟨hb, hall2⟩ := hall
        cases b with
        | false => cases hb
        | true =>
          show countTrue m + 1 = m.length + 1
          rw [ih hall2]
    have hflen : fixed.length = mask.length := by rw [hfix, hct]
    refine ⟨E fixed, fixed, rfl, rfl, hflen, hsgn,
      agreesB_all_fixed mask fixed hall hflen, ?_⟩
    intro nu' hlen' _ hagree'
    rw [agreesB_all_fixed_unique mask fixed nu' hall hflen hlen' hagree']
  · rw [if_neg hall]
    have hne : (signTuples (countFree mask)).map
        (fun free => assembleNu mask fixed free) ≠ [] := by
      intro h
      exact signTuples_ne_nil _ (List.map_eq_nil_iff.mp h)
    obtain ⟨e, nu, heq, hmem, he, hmin⟩ := pyMinBy_spec E _ hne
    rcases List.mem_map.mp hmem with ⟨free, hfree, rfl⟩
    obtain ⟨hflen, hfsgn⟩ := signTuples_spec _ free hfree
    refine ⟨e, _, heq, he,
      assembleNu_length mask fixed free hfix (by rw [hflen]),
      assembleNu_sign mask fixed free hsgn hfsgn,
      assembleNu_agrees mask fixed free hfix (by rw [hflen]), ?_⟩
    intro nu' hlen' hsgn' hagree'
    obtain ⟨free', hfree', hasm'⟩ :=
      assembleNu_complete mask fixed nu' hfix hlen' hsgn' hagree'
    rw [← hasm']
    exact hmin _ (List.mem_map.mpr ⟨free', hfree', rfl⟩)

/-- Witness: one free generator, no fixed eigenvalues, toy energy
`E nu = (head of nu)`: the brute force returns `(-1, [-1])`, matching the
exhaustive minimum over `[-1]` and `[1]`. -/
theorem C5_witness :
    (∃ e nu,
      energyViaBruteForce (fun nu => ((nu.headD 0 : ℤ) : ℝ)) [false] []
        = some (e, nu) ∧
      e = ((nu.headD 0 : ℤ) : ℝ) ∧ nu.length = 1 ∧ isSignVec nu ∧
      agreesB [false] [] nu = true ∧
      ∀ nu', nu'.length = 1 → isSignVec nu' →
        agreesB [false] [] nu' = true → e ≤ ((nu'.headD 0 : ℤ) : ℝ)) ∧
    energyViaBruteForce (fun nu => ((nu.headD 0 : ℤ) : ℝ)) [false] []
      = some (-1, [-1]) := by
  constructor
  · exact C5_brute_force_minimum (fun nu => ((nu.headD 0 : ℤ) : ℝ)) [false] []
      (by decide) (fun x hx => absurd hx (List.not_mem_nil x))
  · show pyMinBy _ (nuList [false] []) = _
    rw [show nuList [false] [] = [[-1], [1]] from rfl]
    show some (if (((1:ℤ):ℝ)) < (((-1:ℤ):ℝ)) then ((((1:ℤ)):ℝ), [(1:ℤ)])
        else ((((-1:ℤ)):ℝ), [(-1:ℤ)])) = some (-1, [-1])
    rw [if_neg (by norm_num)]
    norm_num

/-! ## C3: `conjugate_Pop_with_R`

`conjugate_Pop_with_R` (anticommuting_op.py lines 234-333).  The dense branch
computes `R * Pop * R.dagger` directly; the optimized branch loops over the
terms of `Pop` (index `a`) and pairs `(i, j)` of terms of `R`, appending a
diagonal contribution per `(a, i)` and a combined off-diagonal contribution
per `(a, i, j)` with `j > i`, skipping vanishing combined coefficients.
`mul_symplectic` is modelled from the spec as the symplectic Pauli product
with its `i^phase` coefficient.
-/

/-- The termwise product of two stored operators: every pair of rows,
with the product phase (`R * Pop` in symplectic form). -/
noncomputable def listMul {n : ℕ} (l1 l2 : TermList n) : TermList n :=
  l1.flatMap fun ti => l2.map fun tj =>
    (pmul ti.1 tj.1, ti.2 * tj.2 * iphase (pphase ti.1 tj.1))

/-- `R.dagger` in stored form: conjugate every coefficient. -/
noncomputable def daggerList {n : ℕ} (l : TermList n) : TermList n :=
  l.map fun tc => (tc.1, (starRingEnd ℂ) tc.2)

/-- `(-1) ** (commutation_check[a, i] + commutation_check[a, j] + adj_matrix[i, j])`
with check = 1 on anticommuting pairs. -/
noncomputable def sign2 {n : ℕ} (Pa Pi Pj : PTerm n) : ℂ :=
  (-1) ^ (((if pcommute Pa Pi then 0 else 1) + (if pcommute Pa Pj then 0 else 1)
    + (if pcommute Pi Pj then 0 else 1) : ℕ))

/-- The optimized inner loop of `conjugate_Pop_with_R` for one `Pop` term
`(Pa, ca)`: per `R` term `i` a diagonal contribution
`c_i conj(c_i) c_a (±1) · Pa`, then per `j > i` the combined off-diagonal
`P_i P_a P_j` contribution via the `mul_symplectic` chain, skipped when its
combined coefficient vanishes. -/
noncomputable def innerLoop {n : ℕ} (Pa : PTerm n) (ca : ℂ) : TermList n → TermList n
  | [] => []
  | ti :: rest =>
      (Pa, ti.2 * (starRingEnd ℂ) ti.2 * ca * (if pcommute Pa ti.1 then 1 else -1)) ::
      ((rest.filterMap fun tj =>
          if ti.2 * ca * (starRingEnd ℂ) tj.2
              + sign2 Pa ti.1 tj.1 * (tj.2 * ca * (starRingEnd ℂ) ti.2) = 0 then none
          else some (pmul (pmul ti.1 Pa) tj.1,
            (1 * 1 * iphase (pphase ti.1 Pa))
              * (ti.2 * ca * (starRingEnd ℂ) tj.2
                + sign2 Pa ti.1 tj.1 * (tj.2 * ca * (starRingEnd ℂ) ti.2))
              * iphase (pphase (pmul ti.1 Pa) tj.1)))
        ++ innerLoop Pa ca rest)

/-- `conjugate_Pop_with_R` (lines 234-333): the dense triple product for a
single-term `Pop`, the optimized double loop otherwise. -/
noncomputable def conjPopWithR {n : ℕ} (Pop R : TermList n) : TermList n :=
  if Pop.length = 1 then listMul (listMul R Pop) (daggerList R)
  else Pop.flatMap fun ta => innerLoop ta.1 ta.2 R

theorem toPop_mulList_left {n : ℕ} (l : TermList n) (P : PTerm n) (c : ℂ) :
    toPop (l.map fun tj => (pmul P tj.1, c * tj.2 * iphase (pphase P tj.1)))
      = ofP P c * toPop l := by
  induction l with
  | nil => simp
  | cons t T ih =>
    obtain ⟨Q, d⟩ := t
    rw [List.map_cons, toPop_cons, toPop_cons, mul_add, ih, ← ofP_mul]

theorem toPop_listMul {n : ℕ} (l1 l2 : TermList n) :
    toPop (listMul l1 l2) = toPop l1 * toPop l2 := by
  induction l1 with
  | nil =>
    rw [show listMul ([] : TermList n) l2 = [] from rfl, toPop_nil, zero_mul]
  | cons t T ih =>
    obtain ⟨P, c⟩ := t
    rw [show listMul ((P, c) :: T) l2
        = (l2.map fun tj => (pmul P tj.1, c * tj.2 * iphase (pphase P tj.1)))
          ++ listMul T l2 from rfl]
    rw [toPop_append, toPop_mulList_left, ih, toPop_cons, add_mul]

theorem toPop_daggerList {n : ℕ} (l : TermList n) :
    toPop (daggerList l) = daggerPop (toPop l) := by
  induction l with
  | nil =>
    rw [show daggerList ([] : TermList n) = [] from rfl, toPop_nil, daggerPop_zero]
  | cons t T ih =>
    obtain ⟨P, c⟩ := t
    rw [show daggerList ((P, c) :: T) = (P, (starRingEnd ℂ) c) :: daggerList T from rfl]
    rw [toPop_cons, toPop_cons, daggerPop_add, daggerPop_ofP, ih]

theorem neg_one_pow_scomN {n : ℕ} (P Q : PTerm n) :
    ((-1 : ℂ)) ^ scomN P Q = if pcommute P Q then 1 else -1 := by
  by_cases h : pcommute P Q
  · rw [if_pos h]
    have h0 : scomN P Q % 2 = 0 := h
    rw [← Nat.div_add_mod (scomN P Q) 2, pow_add, pow_mul, neg_one_sq, one_pow, one_mul, h0]
    norm_num
  · rw [if_neg h]
    have h1 : scomN P Q % 2 = 1 := by
      rcases Nat.mod_two_eq_zero_or_one (scomN P Q) with h0 | h1
      · exact absurd h0 h
      · exact h1
    rw [← Nat.div_add_mod (scomN P Q) 2, pow_add, pow_mul, neg_one_sq, one_pow, one_mul, h1]
    norm_num

theorem neg_one_pow_indicator (p : Prop) [Decidable p] :
    ((-1 : ℂ)) ^ ((if p then 0 else 1 : ℕ)) = if p then 1 else -1 := by
  by_cases h : p <;> simp [h]

theorem sign2_eq {n : ℕ} (Pa Pi Pj : PTerm n) :
    sign2 Pa Pi Pj = ((-1 : ℂ)) ^ (scomN Pa Pi + scomN Pa Pj + scomN Pi Pj) := by
  rw [sign2, pow_add, pow_add, pow_add, pow_add,
    neg_one_pow_indicator, neg_one_pow_indicator, neg_one_pow_indicator,
    neg_one_pow_scomN, neg_one_pow_scomN, neg_one_pow_scomN]

/-- `P_i P_a P_i = (-1)^{C_{ai}} P_a` at the level of unit words. -/
theorem triple_unit_diag {n : ℕ} (Pi Pa : PTerm n) :
    ofP Pi 1 * ofP Pa 1 * ofP Pi 1
      = ((if pcommute Pa Pi then (1:ℂ) else -1)) • ofP Pa 1 := by
  rw [ofP_swap Pa Pi, smul_mulPop, mul_assoc, ofP_sq, mul_one, neg_one_pow_scomN]

/-- The diagonal contribution: `P_i P_a P_i` with the code's coefficient. -/
theorem diag_term_sem {n : ℕ} (Pa : PTerm n) (ca : ℂ) (Pi : PTerm n) (ci : ℂ) :
    ofP Pi ci * ofP Pa ca * ofP Pi ((starRingEnd ℂ) ci)
      = ofP Pa (ci * (starRingEnd ℂ) ci * ca * (if pcommute Pa Pi then 1 else -1)) := by
  rw [ofP_eq_smul Pi ci, ofP_eq_smul Pa ca, ofP_eq_smul Pi ((starRingEnd ℂ) ci)]
  simp only [smul_mulPop, mulPop_smul, smul_smul]
  rw [triple_unit_diag, smul_smul]
  rw [ofP_eq_smul Pa (ci * (starRingEnd ℂ) ci * ca * (if pcommute Pa Pi then 1 else -1))]
  congr 1
  ring

/-- The exchange identity
`P_j P_a P_i = (-1)^{C_{ai}+C_{aj}+A_{ij}} P_i P_a P_j` at unit level. -/
theorem triple_unit_exch {n : ℕ} (Pi Pj Pa : PTerm n) :
    ofP Pj 1 * ofP Pa 1 * ofP Pi 1
      = (((-1 : ℂ)) ^ (scomN Pa Pi + scomN Pa Pj + scomN Pi Pj))
        • (ofP Pi 1 * ofP Pa 1 * ofP Pj 1) := by
  rw [ofP_swap Pa Pj, smul_mulPop]
  rw [mul_assoc (ofP Pa 1) (ofP Pj 1) (ofP Pi 1), ofP_swap Pi Pj, mulPop_smul, smul_smul]
  rw [← mul_assoc (ofP Pa 1) (ofP Pi 1) (ofP Pj 1)]
  rw [show ofP Pa 1 * ofP Pi 1 * ofP Pj 1 = (ofP Pa 1 * ofP Pi 1) * ofP Pj 1 from rfl]
  rw [ofP_swap Pi Pa, smul_mulPop, smul_smul]
  rw [scomN_comm Pi Pa]
  rw [pow_add, pow_add]
  congr 1
  ring

theorem triple_eq_ofP {n : ℕ} (Pi Pa Pj : PTerm n) :
    ofP Pi 1 * ofP Pa 1 * ofP Pj 1
      = ofP (pmul (pmul Pi Pa) Pj)
          ((1 * 1 * iphase (pphase Pi Pa)) * 1 * iphase (pphase (pmul Pi Pa) Pj)) := by
  rw [ofP_mul, ofP_mul]

/-- The paired off-diagonal contributions `(i,j)` and `(j,i)` combine into a
single `P_i P_a P_j` term with the code's `coeff1 + sign2·coeff2`
coefficient. -/
theorem off_pair_sem {n : ℕ} (Pa : PTerm n) (ca : ℂ) (Pi : PTerm n) (ci : ℂ)
    (Pj : PTerm n) (cj : ℂ) :
    ofP Pi ci * ofP Pa ca * ofP Pj ((starRingEnd ℂ) cj)
      + ofP Pj cj * ofP Pa ca * ofP Pi ((starRingEnd ℂ) ci)
    = (ci * ca * (starRingEnd ℂ) cj + sign2 Pa Pi Pj * (cj * ca * (starRingEnd ℂ) ci))
        • (ofP Pi 1 * ofP Pa 1 * ofP Pj 1) := by
  rw [ofP_eq_smul Pi ci, ofP_eq_smul Pa ca, ofP_eq_smul Pj ((starRingEnd ℂ) cj),
    ofP_eq_smul Pj cj, ofP_eq_smul Pi ((starRingEnd ℂ) ci)]
  simp only [smul_mulPop, mulPop_smul, smul_smul]
  rw [triple_unit_exch Pi Pj Pa, smul_smul, sign2_eq]
  module

/-- The `j`-loop block for one pair `(a, i)` denotes the two cross terms of
the expansion. -/
theorem offs_sem {n : ℕ} (Pa : PTerm n) (ca : ℂ) (Pi : PTerm n) (ci : ℂ)
    (rest : TermList n) :
    toPop (rest.filterMap fun tj =>
        if ci * ca * (starRingEnd ℂ) tj.2
            + sign2 Pa Pi tj.1 * (tj.2 * ca * (starRingEnd ℂ) ci) = 0 then none
        else some (pmul (pmul Pi Pa) tj.1,
          (1 * 1 * iphase (pphase Pi Pa))
            * (ci * ca * (starRingEnd ℂ) tj.2
              + sign2 Pa Pi tj.1 * (tj.2 * ca * (starRingEnd ℂ) ci))
            * iphase (pphase (pmul Pi Pa) tj.1)))
      = ofP Pi ci * ofP Pa ca * daggerPop (toPop rest)
        + toPop rest * ofP Pa ca * ofP Pi ((starRingEnd ℂ) ci) := by
  induction rest with
  | nil =>
    rw [List.filterMap_nil, toPop_nil, daggerPop_zero, mul_zero, zero_mul,
      zero_mul, add_zero]
  | cons tj rest ih =>
    obtain ⟨Pj, cj⟩ := tj
    rw [List.filterMap_cons]
    by_cases hz : ci * ca * (starRingEnd ℂ) cj
        + sign2 Pa Pi Pj * (cj * ca * (starRingEnd ℂ) ci) = 0
    · simp only [if_pos hz]
      have hpair : ofP Pi ci * ofP Pa ca * ofP Pj ((starRingEnd ℂ) cj)
          + ofP Pj cj * ofP Pa ca * ofP Pi ((starRingEnd ℂ) ci) = 0 := by
        rw [off_pair_sem, hz, zero_smul]
      calc toPop (rest.filterMap _)
          = ofP Pi ci * ofP Pa ca * daggerPop (toPop rest)
            + toPop rest * ofP Pa ca * ofP Pi ((starRingEnd ℂ) ci) := ih
        _ = (ofP Pi ci * ofP Pa ca * ofP Pj ((starRingEnd ℂ) cj)
              + ofP Pj cj * ofP Pa ca * ofP Pi ((starRingEnd ℂ) ci))
            + (ofP Pi ci * ofP Pa ca * daggerPop (toPop rest)
              + toPop rest * ofP Pa ca * ofP Pi ((starRingEnd ℂ) ci)) := by
              rw [hpair, zero_add]
        _ = ofP Pi ci * ofP Pa ca * daggerPop (toPop ((Pj, cj) :: rest))
            + toPop ((Pj, cj) :: rest) * ofP Pa ca * ofP Pi ((starRingEnd ℂ) ci) := by
              rw [toPop_cons, daggerPop_add, daggerPop_ofP, mul_add, add_mul, add_mul]
              abel
    · simp only [if_neg hz]
      have hterm : ofP (pmul (pmul Pi Pa) Pj)
            ((1 * 1 * iphase (pphase Pi Pa))
              * (ci * ca * (starRingEnd ℂ) cj
                + sign2 Pa Pi Pj * (cj * ca * (starRingEnd ℂ) ci))
              * iphase (pphase (pmul Pi Pa) Pj))
          = ofP Pi ci * ofP Pa ca * ofP Pj ((starRingEnd ℂ) cj)
            + ofP Pj cj * ofP Pa ca * ofP Pi ((starRingEnd ℂ) ci) := by
        rw [off_pair_sem, triple_eq_ofP, ← ofP_smul]
        ring_nf
      calc toPop (_ :: rest.filterMap _)
          = ofP (pmul (pmul Pi Pa) Pj)
              ((1 * 1 * iphase (pphase Pi Pa))
                * (ci * ca * (starRingEnd ℂ) cj
                  + sign2 Pa Pi Pj * (cj * ca * (starRingEnd ℂ) ci))
                * iphase (pphase (pmul Pi Pa) Pj))
            + toPop (rest.filterMap _) := toPop_cons _ _ _
        _ = (ofP Pi ci * ofP Pa ca * ofP Pj ((starRingEnd ℂ) cj)
              + ofP Pj cj * ofP Pa ca * ofP Pi ((starRingEnd ℂ) ci))
            + (ofP Pi ci * ofP Pa ca * daggerPop (toPop rest)
              + toPop rest * ofP Pa ca * ofP Pi ((starRingEnd ℂ) ci)) := by
              rw [hterm, ih]
        _ = ofP Pi ci * ofP Pa ca * daggerPop (toPop ((Pj, cj) :: rest))
            + toPop ((Pj, cj) :: rest) * ofP Pa ca * ofP Pi ((starRingEnd ℂ) ci) := by
              rw [toPop_cons, daggerPop_add, daggerPop_ofP, mul_add, add_mul, add_mul]
              abel

/-- The optimized inner loop for one `Pop` term is exactly
`R * (ca·Pa) * R†`. -/
theorem innerLoop_sem {n : ℕ} (Pa : PTerm n) (ca : ℂ) (R : TermList n) :
    toPop (innerLoop Pa ca R) = toPop R * ofP Pa ca * daggerPop (toPop R) := by
  induction R with
  | nil =>
    rw [show innerLoop Pa ca [] = [] from rfl, toPop_nil, zero_mul, zero_mul]
  | cons ti rest ih =>
    obtain ⟨Pi, ci⟩ := ti
    rw [show innerLoop Pa ca ((Pi, ci) :: rest)
        = (Pa, ci * (starRingEnd ℂ) ci * ca * (if pcommute Pa Pi then 1 else -1)) ::
          ((rest.filterMap fun tj =>
              if ci * ca * (starRingEnd ℂ) tj.2
                  + sign2 Pa Pi tj.1 * (tj.2 * ca * (starRingEnd ℂ) ci) = 0 then none
              else some (pmul (pmul Pi Pa) tj.1,
                (1 * 1 * iphase (pphase Pi Pa))
                  * (ci * ca * (starRingEnd ℂ) tj.2
                    + sign2 Pa Pi tj.1 * (tj.2 * ca * (starRingEnd ℂ) ci))
                  * iphase (pphase (pmul Pi Pa) tj.1)))
            ++ innerLoop Pa ca rest) from rfl]
    rw [toPop_cons, toPop_append, offs_sem Pa ca Pi ci rest, ih,
      ← diag_term_sem Pa ca Pi ci]
    rw [toPop_cons, daggerPop_add, daggerPop_ofP, add_mul, mul_add, add_mul, add_mul]
    abel

theorem toPop_flatMap {n : ℕ} {α : Type} (l : List α) (f : α → TermList n) :
    toPop (l.flatMap f) = (l.map fun a => toPop (f a)).sum := by
  induction l with
  | nil => rfl
  | cons a l ih =>
    rw [List.flatMap_cons, toPop_append, List.map_cons, List.sum_cons, ih]

/-- C3 (confirmed): `conjugate_Pop_with_R` equals the dense conjugation
`R * Pop * R†` semantically (i.e. after cleanup) for every pair of stored
operators — in particular the optimized multi-term loop agrees with the
triple product for all inputs. -/
theorem C3_conjugate_Pop_with_R {n : ℕ} (Pop R : TermList n) :
    toPop (conjPopWithR Pop R) = toPop R * toPop Pop * daggerPop (toPop R) := by
  unfold conjPopWithR
  have hloop : ∀ l : TermList n,
      toPop (l.flatMap fun ta => innerLoop ta.1 ta.2 R)
        = toPop R * toPop l * daggerPop (toPop R) := by
    intro l
    rw [toPop_flatMap]
    induction l with
    | nil =>
      rw [List.map_nil, List.sum_nil, toPop_nil, mul_zero, zero_mul]
    | cons ta T ihl =>
      obtain ⟨P, c⟩ := ta
      rw [List.map_cons, List.sum_cons, ihl, toPop_cons, mul_add, add_mul]
      rw [show toPop (innerLoop (P, c).1 (P, c).2 R)
          = toPop (innerLoop P c R) from rfl, innerLoop_sem]
  by_cases h : Pop.length = 1
  · rw [if_pos h, toPop_listMul, toPop_listMul, toPop_daggerList]
  · rw [if_neg h, hloop]

/-! ## C1: noncontextual construction and block partition

`NoncontextualOp.__init__` (noncontextual_op.py lines 27-38) asserts
`operator.is_noncontextual` and then runs `noncontextual_generators`
(lines 216-234), which extracts the symmetry block `self[symmetry_mask]` and
partitions the remaining terms `self[~symmetry_mask]` by `clique_cover`.
`is_noncontextual`, the symmetry-mask reconstruction and `clique_cover` live
outside `src/`; they are modelled from the spec: §4.2 (the restricted
anticommutation graph is a disjoint union of cliques, i.e. contains no
induced anticommutation path on three non-universal terms), §4.4 (the
clique cover returns a vertex partition of its input terms).
-/

/-- Modelled from the spec (§4.2): a term that commutes with every term of
the operator (member of the universally-commuting block). -/
def universalC {n : ℕ} (H : TermList n) (P : PTerm n) : Prop :=
  ∀ tc ∈ H, pcommute P tc.1

set_option synthInstance.maxHeartbeats 1000000 in
instance {n : ℕ} (H : TermList n) (P : PTerm n) : Decidable (universalC H P) := by
  unfold universalC
  infer_instance

/-- Modelled from the spec (§4.2): the operator is noncontextual iff the
anticommutation graph restricted to the non-universally-commuting terms is a
disjoint union of cliques — equivalently, it has no induced anticommutation
path on three terms: whenever `a` anticommutes with `b` and `b` with `c`,
either `a` and `c` are the same word or they anticommute too. -/
def isNoncontextual {n : ℕ} (H : TermList n) : Prop :=
  ∀ a ∈ H, ∀ b ∈ H, ∀ c ∈ H,
    ¬ universalC H a.1 → ¬ universalC H b.1 → ¬ universalC H c.1 →
    ¬ pcommute a.1 b.1 → ¬ pcommute b.1 c.1 →
    (a.1 = c.1 ∨ ¬ pcommute a.1 c.1)

set_option synthInstance.maxHeartbeats 1000000 in
instance {n : ℕ} (H : TermList n) : Decidable (isNoncontextual H) := by
  unfold isNoncontextual
  infer_instance

/-- `H[mask]` for a boolean row mask. -/
def maskSelect {n : ℕ} : TermList n → List Bool → TermList n
  | [], _ => []
  | _ :: _, [] => []
  | x :: l, true :: m => x :: maskSelect l m
  | _ :: l, false :: m => maskSelect l m

/-- `H[~mask]`. -/
def maskReject {n : ℕ} : TermList n → List Bool → TermList n
  | [], _ => []
  | _ :: _, [] => []
  | _ :: l, true :: m => maskReject l m
  | x :: l, false :: m => x :: maskReject l m

/-- `NoncontextualOp` construction (init assert + `noncontextual_generators`):
fail on a contextual operator, otherwise return the symmetry block
`H[symmetry_mask]` together with the clique blocks produced by the
clique-cover of `H[~symmetry_mask]` (the cover itself is the spec-modelled
external routine, passed in). -/
def constructNC {n : ℕ} (H : TermList n) (mask : List Bool)
    (cover : List (TermList n)) : Option (TermList n × List (TermList n)) :=
  if isNoncontextual H then some (maskSelect H mask, cover) else none

theorem maskSelect_append_reject_perm {n : ℕ} (H : TermList n) :
    ∀ mask : List Bool, mask.length = H.length →
      List.Perm (maskSelect H mask ++ maskReject H mask) H := by
  induction H with
  | nil =>
    intro mask _
    cases mask <;> exact List.Perm.refl _
  | cons x l ih =>
    intro mask hlen
    cases mask with
    | nil => simp at hlen
    | cons b m =>
      cases b with
      | true =>
        rw [show maskSelect (x :: l) (true :: m) = x :: maskSelect l m from rfl,
          show maskReject (x :: l) (true :: m) = maskReject l m from rfl,
          List.cons_append]
        exact (ih m (by simpa using hlen)).cons x
      | false =>
        rw [show maskSelect (x :: l) (false :: m) = maskSelect l m from rfl,
          show maskReject (x :: l) (false :: m) = x :: maskReject l m from rfl]
        exact List.perm_middle.trans ((ih m (by simpa using hlen)).cons x)

/-- C1 (confirmed): whenever construction succeeds and the clique cover
satisfies its partition contract, the input is noncontextual and the named
blocks — the symmetry block plus the clique blocks — are a partition of the
input's terms: their concatenation is a permutation of `H` (every original
term lands in exactly one block) and their sum denotes `H` exactly. -/
theorem C1_construction_partition {n : ℕ} (H : TermList n) (mask : List Bool)
    (cover : List (TermList n)) (sym : TermList n) (cliques : List (TermList n))
    (hmask : mask.length = H.length)
    (hcons : constructNC H mask cover = some (sym, cliques))
    (hcover : List.Perm cliques.flatten (maskReject H mask)) :
    isNoncontextual H ∧
    List.Perm (sym ++ cliques.flatten) H ∧
    toPop (sym ++ cliques.flatten) = toPop H := by
  unfold constructNC at hcons
  by_cases hnc : isNoncontextual H
  · rw [if_pos hnc, Option.some.injEq, Prod.mk.injEq] at hcons
    obtain ⟨hsym, _⟩ := hcons
    subst hsym
    have hperm : List.Perm (maskSelect H mask ++ cliques.flatten) H :=
      ((List.Perm.append_left (maskSelect H mask) hcover).trans
        (maskSelect_append_reject_perm H mask hmask))
    exact ⟨hnc, hperm, toPop_perm _ _ hperm⟩
  · rw [if_neg hnc] at hcons
    exact Option.noConfusion hcons

/-- Witness: the single-term operator `{Z: 1}` with the all-symmetry mask and
an empty clique cover — construction succeeds, the symmetry block alone
carries the term, and the block sum reproduces the operator. -/
theorem C1_witness :
    constructNC [(pZ, (1:ℂ))] [true] ([] : List (TermList 1))
      = some ([(pZ, 1)], []) ∧
    (isNoncontextual [(pZ, (1:ℂ))] ∧
      List.Perm ([(pZ, (1:ℂ))] ++ ([] : List (TermList 1)).flatten) [(pZ, 1)] ∧
      toPop ([(pZ, (1:ℂ))] ++ ([] : List (TermList 1)).flatten) = toPop [(pZ, 1)]) := by
  have hnc : isNoncontextual [(pZ, (1:ℂ))] := by
    intro a ha b hb c hc hua _ _ _ _
    rcases List.mem_singleton.mp ha with rfl
    refine absurd (fun tc htc => ?_) hua
    rcases List.mem_singleton.mp htc with rfl
    exact pcommute_self pZ
  have hcons : constructNC [(pZ, (1:ℂ))] [true] ([] : List (TermList 1))
      = some ([(pZ, 1)], []) := by
    rw [constructNC, if_pos hnc]
    rfl
  exact ⟨hcons,
    C1_construction_partition [(pZ, (1:ℂ))] [true] [] [(pZ, 1)] [] rfl hcons
      (List.Perm.refl _)⟩

end SymmerModel
